import Mathlib

/-!
Verification of the Thymeleaf expression analyzers of the thymelab-vscode
extension.  The TypeScript sources are shallowly embedded over `List Char`:
each JavaScript regular-expression operation is realized by a hand-written
scanner with the same matching semantics (leftmost match, greedy/lazy
quantifier behaviour, global-flag iteration), and each class method becomes a
Lean function of the same name.  Scanners that do not recurse structurally on
the input list use an explicit fuel argument initialized to the input length
(every step consumes at least one character, so that fuel is plentiful);
this keeps every definition kernel-computable.
-/

namespace Thymelab

/-- Strings are modelled as lists of characters. -/
abbrev Str := List Char

/-- Coercion from Lean string literals to the model. -/
def str (s : String) : Str := s.data

/-- ASCII fragment of the character class matched by the regex `\s`
(also the characters removed by `String.prototype.trim`). -/
def wsChar (c : Char) : Bool :=
  c = ' ' || c = '\t' || c = '\n' || c = '\r' || c = '\x0b' || c = '\x0c'

/-- Single or double quote. -/
def quoteChar (c : Char) : Bool := c = '\'' || c = '\"'

/-- JS `String.prototype.trim` (ASCII whitespace). -/
def trim (s : Str) : Str := ((s.dropWhile wsChar).reverse.dropWhile wsChar).reverse

/-- JS `String.prototype.includes`: does `pat` occur as a contiguous substring? -/
def occursIn (pat : Str) : Str → Bool
  | [] => pat.isEmpty
  | s@(_ :: cs) => pat.isPrefixOf s || occursIn pat cs

/-- Helper for `indexOfSub`. -/
def indexOfSubGo (pat : Str) : Str → Nat → Option Nat
  | [], i => if pat.isPrefixOf ([] : Str) then some i else none
  | s@(_ :: cs), i => if pat.isPrefixOf s then some i else indexOfSubGo pat cs (i + 1)

/-- JS `String.prototype.indexOf`: character index of the first occurrence
(`none` plays the role of `-1`). -/
def indexOfSub (s pat : Str) : Option Nat := indexOfSubGo pat s 0

/-- JS `split` on a single-character class: one separator per matching char. -/
def splitOnPred (p : Char → Bool) : Str → List Str
  | [] => [[]]
  | c :: cs =>
    if p c then [] :: splitOnPred p cs
    else
      match splitOnPred p cs with
      | piece :: ps => (c :: piece) :: ps
      | [] => [[c]]

/-- JS `split('.')` and friends. -/
def splitChar (sep : Char) (s : Str) : List Str := splitOnPred (fun c => c = sep) s

/-- Helper for `splitDColon`, accumulating the current piece in reverse. -/
def splitDColonGo (acc : Str) : Str → List Str
  | [] => [acc.reverse]
  | ':' :: ':' :: rest => acc.reverse :: splitDColonGo [] rest
  | c :: cs => splitDColonGo (c :: acc) cs

/-- JS `split('::')`. -/
def splitDColon (s : Str) : List Str := splitDColonGo [] s

/-- JS `Map.prototype.set`: overwrite in place or append. -/
def mapSet (k v : Str) : List (Str × Str) → List (Str × Str)
  | [] => [(k, v)]
  | (k', v') :: rest => if k' = k then (k, v) :: rest else (k', v') :: mapSet k v rest

/-- JS `Map.prototype.get`. -/
def mapGet (k : Str) : List (Str × Str) → Option Str
  | [] => none
  | (k', v') :: rest => if k' = k then some v' else mapGet k rest

/-- JS `Set.prototype.add` on an insertion-ordered set. -/
def addVar (v : Str) (vars : List Str) : List Str :=
  if v ∈ vars then vars else vars ++ [v]

/-- JS `String.prototype.toLowerCase` (ASCII). -/
def lowerStr (s : Str) : Str := s.map Char.toLower

/-- Character class `[a-zA-Z0-9]`. -/
def isAlnumCh (c : Char) : Bool := c.isAlpha || c.isDigit

/-- Character class `[a-zA-Z_$]` (head of an identifier segment). -/
def wordStart (c : Char) : Bool := c.isAlpha || c = '_' || c = '$'

/-- Character class `[a-zA-Z0-9_$]` (tail of an identifier segment). -/
def wordCh (c : Char) : Bool := wordStart c || c.isDigit

/-- Character class `\w` = `[A-Za-z0-9_]`, also used by `\b` boundaries. -/
def jsWordCh (c : Char) : Bool := c.isAlpha || c.isDigit || c = '_'

/-- Comparison-operator characters `[><=!]`. -/
def compCh (c : Char) : Bool := c = '>' || c = '<' || c = '=' || c = '!'

/-- Arithmetic-operator characters `[+\-*/%]`. -/
def arithCh (c : Char) : Bool := c = '+' || c = '-' || c = '*' || c = '/' || c = '%'

/-- The escape marker `\$` followed by an opening brace, i.e. the text
backslash-dollar-brace. -/
def escSeq : Str := ['\\', '$', '\x7b']

end Thymelab

namespace Thymelab

/-! ### The variable parser `ThymeleafVariableParser`
(from `src/extension/parsers/thymeleafVariableParser.ts`). -/

/-- `isLogicalOperator`: membership of the lower-cased string in
`['and', 'or', 'not']`. -/
def isLogicalOperator (s : Str) : Bool :=
  lowerStr s = str "and" || lowerStr s = str "or" || lowerStr s = str "not"

/-- One segment of the chain regex `[a-zA-Z_$][a-zA-Z0-9_$]*`. -/
def validChainSeg : Str → Bool
  | [] => false
  | c :: cs => wordStart c && cs.all wordCh

/-- The anchored chain regex
`^[a-zA-Z_$][a-zA-Z0-9_$]*(?:\.[a-zA-Z_$][a-zA-Z0-9_$]*)*$`. -/
def validChain (s : Str) : Bool := (splitChar '.' s).all validChainSeg

/-- The test `/^['"].*['"]$/` (the dot does not match a newline). -/
def quoteWrapped : Str → Bool
  | [] => false
  | c :: cs =>
    match cs.getLast? with
    | none => false
    | some d => quoteChar c && quoteChar d && !(cs.dropLast.any (fun e => e = '\n'))

/-- `isValidVariable` from the variable parser. -/
def isValidVariable (v : Str) : Bool :=
  if v = [] then false
  else
    let t := trim v
    if isLogicalOperator t then false
    else if t ≠ [] && t.all Char.isDigit then false
    else if quoteWrapped t then false
    else if lowerStr t = str "true" || lowerStr t = str "false" then false
    else validChain t

/-- Attempt to match `/[$*]\{[^}]+\}/`-style expressions at the head of the
input: `lead` then an opening brace, a nonempty body free of closing braces,
and a closing brace.  Returns the whole match and the rest of the input. -/
def matchBraceAt (lead : Char) : Str → Option (Str × Str)
  | a :: b :: rest =>
    if a = lead && b = '\x7b' then
      match rest.dropWhile (fun c => c ≠ '\x7d') with
      | '\x7d' :: tail =>
        let body := rest.takeWhile (fun c => c ≠ '\x7d')
        if body = [] then none else some (a :: b :: body ++ ['\x7d'], tail)
      | _ => none
    else none
  | _ => none

/-- Fueled global scan with `matchBraceAt` (the g-flag iteration of
`VARIABLE` / `SELECTION`). -/
def scanBraceGo (lead : Char) : Nat → Str → List Str
  | 0, _ => []
  | _ + 1, [] => []
  | fuel + 1, s@(_ :: cs) =>
    match matchBraceAt lead s with
    | some (m, rest) => m :: scanBraceGo lead fuel rest
    | none => scanBraceGo lead fuel cs

/-- All matches of `/\$\{[^}]+\}/g` (for `lead = '$'`) or `/\*\{[^}]+\}/g`
(for `lead = '*'`), as `text.match(...)` returns them. -/
def scanBraceExpr (lead : Char) (s : Str) : List Str := scanBraceGo lead s.length s

/-- Literal `th:field="`. -/
def fieldLit : Str := str "th:field=\""

/-- Attempt to match `/th:field="[*$]\{([^}]+)\}"/` at the head of the input. -/
def matchFieldAt (s : Str) : Option (Str × Str) :=
  if fieldLit.isPrefixOf s then
    match s.drop 10 with
    | q :: '\x7b' :: rest =>
      if q = '*' || q = '$' then
        match rest.dropWhile (fun c => c ≠ '\x7d') with
        | '\x7d' :: '\"' :: tail =>
          let body := rest.takeWhile (fun c => c ≠ '\x7d')
          if body = [] then none
          else some (fieldLit ++ q :: '\x7b' :: body ++ ['\x7d', '\"'], tail)
        | _ => none
      else none
    | _ => none
  else none

/-- Fueled global scan for the `FIELD` pattern. -/
def scanFieldGo : Nat → Str → List Str
  | 0, _ => []
  | _ + 1, [] => []
  | fuel + 1, s@(_ :: cs) =>
    match matchFieldAt s with
    | some (m, rest) => m :: scanFieldGo fuel rest
    | none => scanFieldGo fuel cs

/-- All matches of the `FIELD` pattern in the text. -/
def scanField (s : Str) : List Str := scanFieldGo s.length s

/-- Attempt to match `/[*$]\{([^}]+)\}/` at the head of the input, returning
the first capture group. -/
def matchQSBraceAt : Str → Option Str
  | q :: '\x7b' :: rest =>
    if q = '*' || q = '$' then
      let body := rest.takeWhile (fun c => c ≠ '\x7d')
      if body = [] then none
      else
        match rest.dropWhile (fun c => c ≠ '\x7d') with
        | '\x7d' :: _ => some body
        | _ => none
    else none
  | _ => none

/-- Fueled first-match scan for `matchQSBraceAt`. -/
def reQSBraceGo : Nat → Str → Option Str
  | 0, _ => none
  | _ + 1, [] => none
  | fuel + 1, s@(_ :: cs) =>
    match matchQSBraceAt s with
    | some b => some b
    | none => reQSBraceGo fuel cs

/-- First match of `/[*$]\{([^}]+)\}/` (capture group). -/
def reQSBrace (s : Str) : Option Str := reQSBraceGo s.length s

/-- Attempt to match the lazy pattern `/\?\[(.*?)\]/` at the head of the
input (shortest body up to a closing bracket, the dot not crossing a
newline); returns the capture group. -/
def matchFilterAt : Str → Option Str
  | '?' :: '[' :: rest =>
    let stop := fun (c : Char) => c ≠ ']' && c ≠ '\n'
    match rest.dropWhile stop with
    | ']' :: _ => some (rest.takeWhile stop)
    | _ => none
  | _ => none

/-- Fueled first-match scan for `matchFilterAt`. -/
def reFilterBodyGo : Nat → Str → Option Str
  | 0, _ => none
  | _ + 1, [] => none
  | fuel + 1, s@(_ :: cs) =>
    match matchFilterAt s with
    | some b => some b
    | none => reFilterBodyGo fuel cs

/-- First match of `/\?\[(.*?)\]/` (capture group). -/
def reFilterBody (s : Str) : Option Str := reFilterBodyGo s.length s

/-- Attempt to match `/([^?]+)\?\[/` at the head of the input: a nonempty
run of non-question-mark characters directly followed by the two characters
question-mark open-bracket; returns the run. -/
def matchBaseAt : Str → Option Str
  | [] => none
  | s@(c :: _) =>
    if c = '?' then none
    else
      match s.dropWhile (fun d => d ≠ '?') with
      | '?' :: '[' :: _ => some (s.takeWhile (fun d => d ≠ '?'))
      | _ => none

/-- Fueled first-match scan for `matchBaseAt`. -/
def reBaseBeforeFilterGo : Nat → Str → Option Str
  | 0, _ => none
  | _ + 1, [] => none
  | fuel + 1, s@(_ :: cs) =>
    match matchBaseAt s with
    | some b => some b
    | none => reBaseBeforeFilterGo fuel cs

/-- First match of `/([^?]+)\?\[/` (capture group). -/
def reBaseBeforeFilter (s : Str) : Option Str := reBaseBeforeFilterGo s.length s

/-- Length of a separator match of `/\s*(?:and|or)\s*/` anchored at the head
of the input, if any. -/
def matchAndOrAt (s : Str) : Option Nat :=
  let w := (s.takeWhile wsChar).length
  let r := s.dropWhile wsChar
  if (str "and").isPrefixOf r then some (w + 3 + ((r.drop 3).takeWhile wsChar).length)
  else if (str "or").isPrefixOf r then some (w + 2 + ((r.drop 2).takeWhile wsChar).length)
  else none

/-- Fueled splitter on `/\s*(?:and|or)\s*/`. -/
def splitAndOrGo : Nat → Str → Str → List Str
  | 0, acc, s => [acc ++ s]
  | _ + 1, acc, [] => [acc]
  | fuel + 1, acc, s@(c :: cs) =>
    match matchAndOrAt s with
    | some n => acc :: splitAndOrGo fuel [] (s.drop n)
    | none => splitAndOrGo fuel (acc ++ [c]) cs

/-- JS `split(/\s*(?:and|or)\s*/)`. -/
def splitAndOr (s : Str) : List Str := splitAndOrGo s.length [] s

/-- Fueled splitter on `/[><=!]+/` (each separator is a maximal run). -/
def splitCompGo : Nat → Str → Str → List Str
  | 0, acc, s => [acc ++ s]
  | _ + 1, acc, [] => [acc]
  | fuel + 1, acc, c :: cs =>
    if compCh c then acc :: splitCompGo fuel [] (cs.dropWhile compCh)
    else splitCompGo fuel (acc ++ [c]) cs

/-- JS `split(/[><=!]+/)`. -/
def splitCompRuns (s : Str) : List Str := splitCompGo s.length [] s

/-- Fueled collector for `/\([^)]+\)/g` with removal: returns the list of
parenthesis-group bodies in match order together with the input text with
all the matches deleted (the callback-and-replace idiom of the source). -/
def parenSplitGo : Nat → Str → List Str × Str
  | 0, s => ([], s)
  | _ + 1, [] => ([], [])
  | fuel + 1, c :: cs =>
    if c = '(' then
      match cs.dropWhile (fun d => d ≠ ')') with
      | ')' :: tail =>
        let body := cs.takeWhile (fun d => d ≠ ')')
        if body = [] then
          let (gs, r) := parenSplitGo fuel cs
          (gs, c :: r)
        else
          let (gs, r) := parenSplitGo fuel tail
          (body :: gs, r)
      | _ =>
        let (gs, r) := parenSplitGo fuel cs
        (gs, c :: r)
    else
      let (gs, r) := parenSplitGo fuel cs
      (gs, c :: r)

/-- Bodies of all `/\([^)]+\)/g` matches, and the text with them removed. -/
def parenSplit (s : Str) : List Str × Str := parenSplitGo s.length s

/-- Length of a match of `/['"][^'"]*['"]/` anchored at the head. -/
def matchQuotedAt : Str → Option Nat
  | [] => none
  | c :: cs =>
    if quoteChar c then
      match cs.dropWhile (fun d => !quoteChar d) with
      | _ :: _ => some ((cs.takeWhile (fun d => !quoteChar d)).length + 2)
      | [] => none
    else none

/-- Fueled single replacement of the first `/['"][^'"]*['"]/` match by the
empty string. -/
def replaceFirstQuotedGo : Nat → Str → Str
  | 0, s => s
  | _ + 1, [] => []
  | fuel + 1, s@(c :: cs) =>
    match matchQuotedAt s with
    | some n => s.drop n
    | none => c :: replaceFirstQuotedGo fuel cs

/-- JS `replace(/['"][^'"]*['"]/, '')` (non-global). -/
def replaceFirstQuoted (s : Str) : Str := replaceFirstQuotedGo s.length s

/-- Word-boundary condition after a match of `true`/`false`. -/
def boundaryAfter : Str → Bool
  | [] => true
  | c :: _ => !jsWordCh c

/-- Length of a match of `/\btrue\b|\bfalse\b/` anchored at the head, where
`prevWord` records whether the previous character was a word character. -/
def tfMatchLen (prevWord : Bool) (s : Str) : Option Nat :=
  if prevWord then none
  else if (str "true").isPrefixOf s && boundaryAfter (s.drop 4) then some 4
  else if (str "false").isPrefixOf s && boundaryAfter (s.drop 5) then some 5
  else none

/-- Single replacement of the first `/\btrue\b|\bfalse\b/` match by the
empty string (structural scan tracking the previous character). -/
def replaceFirstTFGo : Bool → Str → Str
  | _, [] => []
  | prevWord, s@(c :: cs) =>
    match tfMatchLen prevWord s with
    | some n => s.drop n
    | none => c :: replaceFirstTFGo (jsWordCh c) cs

/-- `cleanExpression`: remove the first quoted literal, then the first
word-bounded `true`/`false`. -/
def cleanExpression (e : Str) : Str := replaceFirstTFGo false (replaceFirstQuoted e)

end Thymelab

namespace Thymelab

/-- Parse one identifier segment `[a-zA-Z][a-zA-Z0-9]*` at the head. -/
def parseSeg : Str → Option (Str × Str)
  | [] => none
  | c :: cs =>
    if c.isAlpha then some (c :: cs.takeWhile isAlnumCh, cs.dropWhile isAlnumCh)
    else none

/-- Greedy continuation of a dotted chain `(?:\.[a-zA-Z][a-zA-Z0-9]*)*`. -/
def parseChainGo : Nat → Str → Str → Str × Str
  | 0, acc, s => (acc, s)
  | fuel + 1, acc, s =>
    match s with
    | '.' :: r =>
      match parseSeg r with
      | some (seg, r') => parseChainGo fuel (acc ++ '.' :: seg) r'
      | none => (acc, s)
    | _ => (acc, s)

/-- Greedy parse of `[a-zA-Z][a-zA-Z0-9]*(?:\.[a-zA-Z][a-zA-Z0-9]*)*`. -/
def parseChain (s : Str) : Option (Str × Str) :=
  match parseSeg s with
  | some (seg, r) => some (parseChainGo r.length seg r)
  | none => none

/-- Join dotted segments back together. -/
def joinDots (ps : List Str) : Str := List.intercalate ['.'] ps

/-- Attempt to match the `METHOD_CALL` pattern
`/([a-zA-Z][a-zA-Z0-9]*(?:\.[a-zA-Z][a-zA-Z0-9]*)*)\.[a-zA-Z][a-zA-Z0-9]*\([^)]*\)/`
at the head: after backtracking, the capture group is the maximal dotted
chain with its last segment removed, the last segment is the method name and
must be directly followed by a parenthesized argument list free of closing
parentheses.  Returns full match, capture group and rest. -/
def matchMethodCallAt (s : Str) : Option (Str × Str × Str) :=
  match parseChain s with
  | some (chain, r1) =>
    let segs := splitChar '.' chain
    if 2 ≤ segs.length then
      match r1 with
      | '(' :: r2 =>
        match r2.dropWhile (fun d => d ≠ ')') with
        | ')' :: rest =>
          let args := r2.takeWhile (fun d => d ≠ ')')
          some (chain ++ '(' :: args ++ [')'], joinDots segs.dropLast, rest)
        | _ => none
      | _ => none
    else none
  | none => none

/-- Fueled global scan for `METHOD_CALL` matches. -/
def scanMethodCallsGo : Nat → Str → List (Str × Str)
  | 0, _ => []
  | _ + 1, [] => []
  | fuel + 1, s@(_ :: cs) =>
    match matchMethodCallAt s with
    | some (full, base, rest) => (full, base) :: scanMethodCallsGo fuel rest
    | none => scanMethodCallsGo fuel cs

/-- All `(fullMatch, group1)` pairs of `matchAll(METHOD_CALL)`. -/
def scanMethodCalls (s : Str) : List (Str × Str) := scanMethodCallsGo s.length s

/-- Attempt to match `/\((.*)\)/` at the head: greedy body inside the
newline-bounded window, up to the last closing parenthesis. -/
def matchParenGreedyAt : Str → Option Str
  | '(' :: rest =>
    let window := rest.takeWhile (fun c => c ≠ '\n')
    match window.reverse.dropWhile (fun c => c ≠ ')') with
    | ')' :: grev => some grev.reverse
    | _ => none
  | _ => none

/-- Fueled first-match scan for `matchParenGreedyAt`. -/
def reFirstParenGreedyGo : Nat → Str → Option Str
  | 0, _ => none
  | _ + 1, [] => none
  | fuel + 1, s@(_ :: cs) =>
    match matchParenGreedyAt s with
    | some b => some b
    | none => reFirstParenGreedyGo fuel cs

/-- First capture group of `/\((.*)\)/`. -/
def reFirstParenGreedy (s : Str) : Option Str := reFirstParenGreedyGo s.length s

/-- Literal `#fields.hasErrors(`. -/
def fieldsLit : Str := str "#fields.hasErrors("

/-- Attempt to match `/#fields\.hasErrors\(['"]([^'"]+)['"]\)/` at the head
(capture group). -/
def matchFieldsAt (s : Str) : Option Str :=
  if fieldsLit.isPrefixOf s then
    match s.drop 18 with
    | [] => none
    | q :: r =>
      if quoteChar q then
        let body := r.takeWhile (fun d => !quoteChar d)
        if body = [] then none
        else
          match r.dropWhile (fun d => !quoteChar d) with
          | _ :: ')' :: _ => some body
          | _ => none
      else none
  else none

/-- Fueled first-match scan for the `FIELDS` pattern. -/
def fieldsGroupGo : Nat → Str → Option Str
  | 0, _ => none
  | _ + 1, [] => none
  | fuel + 1, s@(_ :: cs) =>
    match matchFieldsAt s with
    | some b => some b
    | none => fieldsGroupGo fuel cs

/-- First capture group of the `FIELDS` pattern, if any. -/
def fieldsGroup (s : Str) : Option Str := fieldsGroupGo s.length s

/-- Literal `#authentication.`. -/
def authLit : Str := str "#authentication."

/-- Attempt to match `/#authentication\.(.*?)(?:\s|$|\))/` at the head: the
lazy group runs up to the first whitespace, closing parenthesis or the end
of input. -/
def matchAuthAt (s : Str) : Option Str :=
  if authLit.isPrefixOf s then
    some ((s.drop 16).takeWhile (fun c => !(wsChar c || c = ')')))
  else none

/-- Fueled first-match scan for the authentication pattern. -/
def authGroupGo : Nat → Str → Option Str
  | 0, _ => none
  | _ + 1, [] => none
  | fuel + 1, s@(_ :: cs) =>
    match matchAuthAt s with
    | some b => some b
    | none => authGroupGo fuel cs

/-- First capture group of `/#authentication\.(.*?)(?:\s|$|\))/`, if any. -/
def authGroup (s : Str) : Option Str := authGroupGo s.length s

/-- Literal `#lists.size(`. -/
def listsLit : Str := str "#lists.size("

/-- Attempt to match `/#lists\.size\((.*?)\)/` at the head (lazy group up to
the first closing parenthesis, not crossing a newline). -/
def matchListsAt (s : Str) : Option Str :=
  if listsLit.isPrefixOf s then
    let r := s.drop 12
    let stop := fun (c : Char) => c ≠ ')' && c ≠ '\n'
    match r.dropWhile stop with
    | ')' :: _ => some (r.takeWhile stop)
    | _ => none
  else none

/-- Fueled first-match scan for the `#lists.size` pattern. -/
def listsGroupGo : Nat → Str → Option Str
  | 0, _ => none
  | _ + 1, [] => none
  | fuel + 1, s@(_ :: cs) =>
    match matchListsAt s with
    | some b => some b
    | none => listsGroupGo fuel cs

/-- First capture group of `/#lists\.size\((.*?)\)/`, if any. -/
def listsGroup (s : Str) : Option Str := listsGroupGo s.length s

/-- Attempt to match `/#(?:dates|numbers)\.\w+\((.*?)\)/` at the head. -/
def matchDatesNumsAt (s : Str) : Option Str :=
  let afterLit : Option Str :=
    if (str "#dates.").isPrefixOf s then some (s.drop 7)
    else if (str "#numbers.").isPrefixOf s then some (s.drop 9)
    else none
  match afterLit with
  | some r =>
    if r.takeWhile jsWordCh = [] then none
    else
      match r.dropWhile jsWordCh with
      | '(' :: r2 =>
        let stop := fun (c : Char) => c ≠ ')' && c ≠ '\n'
        match r2.dropWhile stop with
        | ')' :: _ => some (r2.takeWhile stop)
        | _ => none
      | _ => none
  | none => none

/-- Fueled first-match scan for the dates/numbers pattern. -/
def datesNumsGroupGo : Nat → Str → Option Str
  | 0, _ => none
  | _ + 1, [] => none
  | fuel + 1, s@(_ :: cs) =>
    match matchDatesNumsAt s with
    | some b => some b
    | none => datesNumsGroupGo fuel cs

/-- First capture group of `/#(?:dates|numbers)\.\w+\((.*?)\)/`, if any. -/
def datesNumsGroup (s : Str) : Option Str := datesNumsGroupGo s.length s

/-- Attempt to match the `UTILITY` pattern
`/#[a-zA-Z]+\.[a-zA-Z]+\((.*)\)/` at the head (greedy group up to the last
closing parenthesis inside the newline-bounded window). -/
def matchUtilityAt : Str → Option Str
  | '#' :: r1 =>
    if r1.takeWhile Char.isAlpha = [] then none
    else
      match r1.dropWhile Char.isAlpha with
      | '.' :: r2 =>
        if r2.takeWhile Char.isAlpha = [] then none
        else
          match r2.dropWhile Char.isAlpha with
          | '(' :: r3 =>
            let window := r3.takeWhile (fun c => c ≠ '\n')
            match window.reverse.dropWhile (fun c => c ≠ ')') with
            | ')' :: grev => some grev.reverse
            | _ => none
          | _ => none
      | _ => none
  | _ => none

/-- Fueled first-match scan for the `UTILITY` pattern. -/
def utilityGroupGo : Nat → Str → Option Str
  | 0, _ => none
  | _ + 1, [] => none
  | fuel + 1, s@(_ :: cs) =>
    match matchUtilityAt s with
    | some b => some b
    | none => utilityGroupGo fuel cs

/-- First capture group of the `UTILITY` pattern, if any. -/
def utilityGroup (s : Str) : Option Str := utilityGroupGo s.length s

/-- Attempt to match `/#[a-zA-Z]+\.[a-zA-Z]+\([^)]+\)/` at the head,
returning the full match and the rest. -/
def matchNestedUtilAt : Str → Option (Str × Str)
  | '#' :: r1 =>
    let n1 := r1.takeWhile Char.isAlpha
    if n1 = [] then none
    else
      match r1.dropWhile Char.isAlpha with
      | '.' :: r2 =>
        let n2 := r2.takeWhile Char.isAlpha
        if n2 = [] then none
        else
          match r2.dropWhile Char.isAlpha with
          | '(' :: r3 =>
            let body := r3.takeWhile (fun d => d ≠ ')')
            if body = [] then none
            else
              match r3.dropWhile (fun d => d ≠ ')') with
              | ')' :: rest =>
                some ('#' :: n1 ++ '.' :: n2 ++ '(' :: body ++ [')'], rest)
              | _ => none
          | _ => none
      | _ => none
  | _ => none

/-- Fueled global scan for nested utility calls with removal: all matches of
`/#[a-zA-Z]+\.[a-zA-Z]+\([^)]+\)/g` in order, and the input text with the
matches deleted (used for the iterate-then-replace idiom). -/
def nestedSplitGo : Nat → Str → List Str × Str
  | 0, s => ([], s)
  | _ + 1, [] => ([], [])
  | fuel + 1, s@(c :: cs) =>
    match matchNestedUtilAt s with
    | some (m, rest) =>
      let (ms, r) := nestedSplitGo fuel rest
      (m :: ms, r)
    | none =>
      let (ms, r) := nestedSplitGo fuel cs
      (ms, c :: r)

/-- All nested-utility matches and the text with them removed. -/
def nestedSplit (s : Str) : List Str × Str := nestedSplitGo s.length s

end Thymelab

namespace Thymelab

/-- `addVariableWithParts`: add a validated dotted variable and every valid
dotted prefix of it. -/
def addVariableWithParts (v : Str) (vars : List Str) : List Str :=
  if v = [] || !isValidVariable v then vars
  else
    match splitChar '.' v with
    | [] => vars
    | [_] => addVar v vars
    | p0 :: rest =>
      if isValidVariable p0 then
        (rest.foldl
          (fun (st : Str × List Str) p =>
            let chain := st.1 ++ '.' :: p
            (chain, if isValidVariable chain then addVar chain st.2 else st.2))
          (p0, addVar p0 vars)).2
      else vars

/-- `handlePropertyChain`: add every valid dotted prefix of a chain whose
first segment is valid. -/
def handlePropertyChain (baseVar : Str) (vars : List Str) : List Str :=
  match splitChar '.' baseVar with
  | [] => vars
  | p0 :: rest =>
    if isValidVariable p0 then
      (rest.foldl
        (fun (st : Str × List Str) p =>
          let chain := st.1 ++ '.' :: p
          (chain, if isValidVariable chain then addVar chain st.2 else st.2))
        (p0, addVar p0 vars)).2
    else vars

/-- `handleOperatorSides` instantiated with the pattern `/[><=!]+/`. -/
def handleOperatorSidesComp (e : Str) (vars : List Str) : List Str :=
  ((splitCompRuns e).map trim).foldl
    (fun vs side => if isValidVariable side then addVar side vs else vs) vars

/-- `handleOperatorSides` instantiated with the pattern `/[+\-*/%]/`. -/
def handleOperatorSidesArith (e : Str) (vars : List Str) : List Str :=
  ((splitOnPred arithCh e).map trim).foldl
    (fun vs side => if isValidVariable side then addVar side vs else vs) vars

/-- `extractMethodParameters`: split on commas, skip string literals, add
valid variables with their prefixes. -/
def extractMethodParameters (params : Str) (vars : List Str) : List Str :=
  ((splitChar ',' params).map trim).foldl
    (fun vs param =>
      if param.head? = some '\'' || param.head? = some '\"' then vs
      else if isValidVariable param then addVariableWithParts param vs
      else vs)
    vars

/-- `handleMethodCall`: property chain of the receiver, the full dotted
method name, and the call arguments. -/
def handleMethodCall (fullMatch baseVar : Str) (vars : List Str) : List Str :=
  let vars := handlePropertyChain baseVar vars
  let methodName := fullMatch.takeWhile (fun c => c ≠ '(')
  let vars :=
    if methodName.any (fun c => c = '.') then addVariableWithParts methodName vars
    else vars
  match reFirstParenGreedy fullMatch with
  | some params => if params ≠ [] then extractMethodParameters params vars else vars
  | none => vars

/-- `extractMethodAndPropertyVariables`.  The extra `mc` argument models the
scan-position (`lastIndex`) of the shared `METHOD_CALL` pattern object that
`matchAll` clones; a fresh parser has `mc = 0`. -/
def extractMethodAndPropertyVariables (mc : Nat) (e : Str) (vars : List Str) : List Str :=
  let vars := (scanMethodCalls (e.drop mc)).foldl
    (fun vs fm => handleMethodCall fm.1 fm.2 vs) vars
  if e.any (fun c => c = '(') then vars else handlePropertyChain e vars

mutual

/-- `extractVariablesFromExpression` (fueled body). -/
def extractVariablesGo : Nat → Nat → Str → List Str
  | 0, _, _ => []
  | fuel + 1, mc, expression =>
    let cleanExpr := cleanExpression expression
    if expression.head? = some '#' then extractUtilityGo fuel mc expression []
    else
      let vars : List Str := []
      let vars :=
        if occursIn (str "?[") expression then
          let vars :=
            match reFilterBody expression with
            | some b =>
              if b ≠ [] then extractComplexGo fuel mc (trim b) vars else vars
            | none => vars
          match reBaseBeforeFilter expression with
          | some base => extractMethodAndPropertyVariables mc (trim base) vars
          | none => vars
        else vars
      if expression.any (fun c => c = '?') then
        let condition := expression.takeWhile (fun c => c ≠ '?')
        let vars := extractComplexGo fuel mc (trim condition) vars
        let rest := (expression.dropWhile (fun c => c ≠ '?')).tail
        let truePart := rest.takeWhile (fun c => c ≠ ':')
        let vars :=
          if truePart ≠ [] then extractComplexGo fuel mc (trim truePart) vars else vars
        let vars :=
          if rest.any (fun c => c = ':') then
            let fp := ((rest.dropWhile (fun c => c ≠ ':')).tail).takeWhile (fun c => c ≠ ':')
            if fp ≠ [] then extractComplexGo fuel mc (trim fp) vars else vars
          else vars
        vars.filter (fun v => !isLogicalOperator v)
      else
        let vars :=
          if cleanExpr.any arithCh then
            ((splitOnPred arithCh cleanExpr).map trim).foldl
              (fun vs t => if isValidVariable t then addVariableWithParts t vs else vs)
              vars
          else vars
        let groups := (parenSplit cleanExpr).1
        let withoutParens := (parenSplit cleanExpr).2
        let vars := groups.foldl (fun vs g => extractComplexGo fuel mc g vs) vars
        let vars := (splitAndOr withoutParens).foldl
          (fun vs part =>
            let cleanPart := trim part
            if cleanPart = [] then vs
            else if cleanPart.any compCh then
              let sides := (splitCompRuns cleanPart).map trim
              let vs :=
                match sides.head? with
                | some l => if isValidVariable l then addVar l vs else vs
                | none => vs
              match sides.tail.head? with
              | some r => if isValidVariable r then addVar r vs else vs
              | none => vs
            else if cleanPart.any arithCh then
              ((splitOnPred arithCh cleanPart).map trim).foldl
                (fun a p => if isValidVariable p then addVar p a else a) vs
            else if cleanPart.any (fun c => c = '.') then
              extractMethodAndPropertyVariables mc cleanPart vs
            else if isValidVariable cleanPart then addVar cleanPart vs
            else vs)
          vars
        let vars :=
          if cleanExpr.any (fun c => c = '.') then
            extractMethodAndPropertyVariables mc cleanExpr vars
          else vars
        let vars := if isValidVariable cleanExpr then addVar cleanExpr vars else vars
        vars.filter (fun v => !isLogicalOperator v)

/-- `extractComplexExpressionVariables` (fueled body). -/
def extractComplexGo : Nat → Nat → Str → List Str → List Str
  | 0, _, _, vars => vars
  | fuel + 1, mc, e, vars =>
    let groups := (parenSplit e).1
    let rest := (parenSplit e).2
    let vars := groups.foldl
      (fun vs g => (extractVariablesGo fuel mc g).foldl (fun a v => addVar v a) vs) vars
    (splitAndOr rest).foldl
      (fun vs part =>
        let cleanPart := trim part
        if cleanPart = [] then vs
        else if cleanPart.any compCh then handleOperatorSidesComp cleanPart vs
        else if cleanPart.any arithCh then handleOperatorSidesArith cleanPart vs
        else if cleanPart.any (fun c => c = '.') then
          extractMethodAndPropertyVariables mc cleanPart vs
        else if isValidVariable cleanPart then addVar cleanPart vs
        else vs)
      vars

/-- `extractUtilityVariables` (fueled body). -/
def extractUtilityGo : Nat → Nat → Str → List Str → List Str
  | 0, _, _, vars => vars
  | fuel + 1, mc, expression, vars =>
    match fieldsGroup expression with
    | some g => addVariableWithParts (g.filter (fun c => !quoteChar c)) vars
    | none =>
      let authG := (authGroup expression).getD []
      if authG ≠ [] then addVariableWithParts authG vars
      else
        let listG := (listsGroup expression).getD []
        if listG ≠ [] then
          let content := trim listG
          if occursIn (str "?[") content then
            let vars :=
              match reBaseBeforeFilter content with
              | some b => extractMethodAndPropertyVariables mc (trim b) vars
              | none => vars
            match reFilterBody content with
            | some f => if f ≠ [] then extractComplexGo fuel mc (trim f) vars else vars
            | none => vars
          else extractMethodAndPropertyVariables mc content vars
        else
          let dnG := (datesNumsGroup expression).getD []
          if dnG ≠ [] then
            let params := trim ((splitChar ',' dnG).headD [])
            if isValidVariable params then addVariableWithParts params vars else vars
          else
            let uG := (utilityGroup expression).getD []
            if uG ≠ [] then
              if uG.any (fun c => c = '#') then
                let ms := (nestedSplit uG).1
                let cleanParams := (nestedSplit uG).2
                let vars := ms.foldl (fun vs m => extractUtilityGo fuel mc m vs) vars
                extractMethodParameters cleanParams vars
              else extractMethodParameters uG vars
            else vars

end

/-- Fuel that provably dominates the mutual recursion depth. -/
def exprFuel (e : Str) : Nat := 2 * e.length + 3

/-- `extractVariablesFromExpression` of the variable parser. -/
def extractVariablesFromExpression (mc : Nat) (e : Str) : List Str :=
  extractVariablesGo (exprFuel e) mc e

/-- Record a `(sourceText, variablePath)` pair unless its dedup key
`sourceText + ':' + variablePath` was seen. -/
def pushPair (src v : Str) (st : List (Str × Str) × List Str) :
    List (Str × Str) × List Str :=
  let key := src ++ ':' :: v
  if key ∈ st.2 then st else (st.1 ++ [(src, v)], st.2 ++ [key])

/-- Record many pairs sharing one `sourceText`. -/
def pushPairs (src : Str) (vs : List Str) (st : List (Str × Str) × List Str) :
    List (Str × Str) × List Str :=
  vs.foldl (fun st v => pushPair src v st) st

/-- `processExpressions` of the variable parser. -/
def processExpressions (mc : Nat) (text : Str)
    (st : List (Str × Str) × List Str) : List (Str × Str) × List Str :=
  let allMatches := scanBraceExpr '$' text ++ scanBraceExpr '*' text
  allMatches.foldl
    (fun st m =>
      let expression := trim ((m.drop 2).dropLast)
      if occursIn escSeq expression then st
      else
        let st := pushPairs m (extractVariablesFromExpression mc expression) st
        let st :=
          if occursIn (str "?[") expression then
            match reFilterBody expression with
            | some b =>
              if b ≠ [] then
                pushPairs m (extractVariablesFromExpression mc (trim b)) st
              else st
            | none => st
          else st
        (splitAndOr expression).foldl
          (fun st part =>
            let cleanPart := trim (part.filter (fun c => !(c = '(' || c = ')')))
            if isValidVariable cleanPart && !isLogicalOperator cleanPart then
              pushPair m cleanPart st
            else st)
          st)
    st

/-- `addVariables` of the variable parser. -/
def addVariables (mc : Nat) (m expression : Str)
    (st : List (Str × Str) × List Str) : List (Str × Str) × List Str :=
  pushPairs m (extractVariablesFromExpression mc expression) st

/-- `processFieldExpressions` of the variable parser. -/
def processFieldExpressions (mc : Nat) (text : Str)
    (st : List (Str × Str) × List Str) : List (Str × Str) × List Str :=
  (scanField text).foldl
    (fun st m =>
      match reQSBrace m with
      | some body => addVariables mc m (trim body) st
      | none => st)
    st

/-- `findAllVariableMatches`, parameterized by the scan position of the
shared `METHOD_CALL` pattern object (`0` on a fresh parser). -/
def findAllVariableMatchesFrom (mc : Nat) (text : Str) : List (Str × Str) :=
  if occursIn escSeq text then []
  else (processFieldExpressions mc text (processExpressions mc text ([], []))).1

/-- `findAllVariableMatches` of the variable parser. -/
def findAllVariableMatches (text : Str) : List (Str × Str) :=
  findAllVariableMatchesFrom 0 text

/-- The dotted extensions of `acc` through the successive segments. -/
def chainPrefixesGo (acc : Str) : List Str → List Str
  | [] => []
  | p :: ps => (acc ++ '.' :: p) :: chainPrefixesGo (acc ++ '.' :: p) ps

/-- Every non-empty dotted prefix of a segment list, shortest first
(`[a, a.b, a.b.c]` for segments `[a, b, c]`). -/
def chainPrefixes : List Str → List Str
  | [] => []
  | s :: rest => s :: chainPrefixesGo s rest

end Thymelab

namespace Thymelab

/-- The record returned by `findIteratorVariables`; maps and the set are
insertion-ordered association lists. -/
structure IteratorInfo where
  iteratorVars : List Str
  parentVars : List (Str × Str)
  statVars : List (Str × Str)
deriving DecidableEq

/-- Literal `th:each="`. -/
def eachLit : Str := str "th:each=\""

/-- Character class `[^:\s,]` of the item-variable group. -/
def itemCh (c : Char) : Bool := !(c = ':' || wsChar c || c = ',')

/-- Character class `[^:\s]` of the status-variable group. -/
def statCh (c : Char) : Bool := !(c = ':' || wsChar c)

/-- Character class `[^}"']` of the collection group. -/
def collCh (c : Char) : Bool := !(c = '\x7d' || c = '\"' || c = '\'')

/-- Parse the tail `\s*:\s*\$\{([^}"']+)\}"` of the `EACH` pattern,
returning the collection group and the rest after the closing quote. -/
def matchEachTail (r : Str) : Option (Str × Str) :=
  match r.dropWhile wsChar with
  | ':' :: r2 =>
    match r2.dropWhile wsChar with
    | '$' :: '\x7b' :: r3 =>
      let body := r3.takeWhile collCh
      if body = [] then none
      else
        match r3.dropWhile collCh with
        | '\x7d' :: '\"' :: rest => some (body, rest)
        | _ => none
    | _ => none
  | _ => none

/-- Attempt to match the `EACH` pattern
`/th:each="([^:\s,]+)(?:\s*,\s*([^:\s]+))?\s*:\s*\$\{([^}"']+)\}"/`
at the head, returning item group, optional status group, collection group
and the rest of the input.  If the optional status group matches but the
tail then fails, the engine retries with the optional group skipped. -/
def matchEachAt (s : Str) : Option (Str × Option Str × Str × Str) :=
  if eachLit.isPrefixOf s then
    let r0 := s.drop 9
    let item := r0.takeWhile itemCh
    if item = [] then none
    else
      let r1 := r0.dropWhile itemCh
      let withStat : Option (Str × Str) :=
        match r1.dropWhile wsChar with
        | ',' :: r2 =>
          let r3 := r2.dropWhile wsChar
          let stat := r3.takeWhile statCh
          if stat = [] then none else some (stat, r3.dropWhile statCh)
        | _ => none
      match withStat with
      | some (stat, r4) =>
        match matchEachTail r4 with
        | some (coll, rest) => some (item, some stat, coll, rest)
        | none =>
          match matchEachTail r1 with
          | some (coll, rest) => some (item, none, coll, rest)
          | none => none
      | none =>
        match matchEachTail r1 with
        | some (coll, rest) => some (item, none, coll, rest)
        | none => none
  else none

/-- Fueled global scan for the `EACH` pattern. -/
def scanEachGo : Nat → Str → List (Str × Option Str × Str)
  | 0, _ => []
  | _ + 1, [] => []
  | fuel + 1, s@(_ :: cs) =>
    match matchEachAt s with
    | some (item, stat, coll, rest) => (item, stat, coll) :: scanEachGo fuel rest
    | none => scanEachGo fuel cs

/-- All `(item, stat?, collection)` groups of `matchAll(EACH)`. -/
def scanEach (s : Str) : List (Str × Option Str × Str) := scanEachGo s.length s

/-- `findIteratorVariables` of the variable parser. -/
def findIteratorVariables (line : Str) : IteratorInfo :=
  (scanEach line).foldl
    (fun info m =>
      let itemVar := m.1
      let statVar := m.2.1
      let parentVar := m.2.2
      let trimmedItem := trim itemVar
      let info :=
        { info with
          iteratorVars := addVar trimmedItem info.iteratorVars,
          parentVars := mapSet trimmedItem (trim parentVar) info.parentVars }
      match statVar with
      | some stat =>
        let trimmedStat := trim stat
        { info with
          iteratorVars := addVar trimmedStat info.iteratorVars,
          statVars := mapSet trimmedStat (trim parentVar) info.statVars }
      | none => info)
    ⟨[], [], []⟩

end Thymelab

namespace Thymelab

/-- A template reference: normalized path and its character offset in the
scanned line. -/
structure TemplateReference where
  path : Str
  startIndex : Nat
deriving DecidableEq

end Thymelab

namespace Thymelab.DefParser

/-! ### The definition parser `ThymeleafDefinitionParser`
(from `src/extension/thymeleafDefinitionParser.ts`). -/

/-- Strip one leading and one trailing quote:
`replace(/^['"]|['"]$/g, '')`. -/
def stripQuotesEnds (s : Str) : Str :=
  let s1 :=
    match s with
    | c :: cs => if quoteChar c then cs else s
    | [] => s
  match s1.getLast? with
  | some d => if quoteChar d then s1.dropLast else s1
  | none => s1

/-- Strip a literal prefix if present (`replace(/^lit/, '')`). -/
def stripPre (pre s : Str) : Str := if pre.isPrefixOf s then s.drop pre.length else s

/-- Strip one trailing closing brace (`replace(/\}$/, '')`). -/
def stripSufBrace (s : Str) : Str :=
  match s.getLast? with
  | some '\x7d' => s.dropLast
  | _ => s

/-- `extractPathFromReference` of the definition parser: strip quotes and
expression wrappers, drop a leading slash, and keep the part before the
first whitespace or opening parenthesis. -/
def extractPathFromReference (reference : Str) : Option Str :=
  if reference = [] then none
  else
    let path :=
      trim (stripSufBrace (stripPre (str "~\x7b")
        (stripPre (str "@\x7b") (stripQuotesEnds (trim reference)))))
    let path := stripPre ['/'] path
    some (trim ((splitOnPred (fun c => wsChar c || c = '(') path).headD []))

/-- Keywords of the attribute alternative of `TEMPLATE_REFERENCE_PATTERN`. -/
def thKeywordAt (r : Str) : Option (Str × Str) :=
  if (str "replace").isPrefixOf r then some (str "replace", r.drop 7)
  else if (str "insert").isPrefixOf r then some (str "insert", r.drop 6)
  else if (str "include").isPrefixOf r then some (str "include", r.drop 7)
  else if (str "substituteby").isPrefixOf r then some (str "substituteby", r.drop 12)
  else none

/-- Attempt to match `/th:(?:replace|insert|include|substituteby)="([^"]+)"/`
at the head, returning full match, capture group and rest. -/
def matchThRefAt (s : Str) : Option (Str × Str × Str) :=
  if (str "th:").isPrefixOf s then
    match thKeywordAt (s.drop 3) with
    | some (kw, r1) =>
      match r1 with
      | '=' :: '\"' :: r2 =>
        let body := r2.takeWhile (fun c => c ≠ '\"')
        if body = [] then none
        else
          match r2.dropWhile (fun c => c ≠ '\"') with
          | '\"' :: rest =>
            some (str "th:" ++ kw ++ '=' :: '\"' :: body ++ ['\"'], body, rest)
          | _ => none
      | _ => none
    | none => none
  else none

/-- Attempt to match the whole `TEMPLATE_REFERENCE_PATTERN`
(`th:...="..."` alternative first, then `@{...}`); the boolean is true for
the attribute alternative. -/
def matchTemplateRefAt (s : Str) : Option (Str × Str × Bool × Str) :=
  match matchThRefAt s with
  | some (f, c, rest) => some (f, c, true, rest)
  | none =>
    match s with
    | '@' :: '\x7b' :: r =>
      let body := r.takeWhile (fun c => c ≠ '\x7d')
      if body = [] then none
      else
        match r.dropWhile (fun c => c ≠ '\x7d') with
        | '\x7d' :: rest => some ('@' :: '\x7b' :: body ++ ['\x7d'], body, false, rest)
        | _ => none
    | _ => none

/-- Fueled global scan for `TEMPLATE_REFERENCE_PATTERN`. -/
def scanTemplateRefsGo : Nat → Str → List (Str × Str × Bool)
  | 0, _ => []
  | _ + 1, [] => []
  | fuel + 1, s@(_ :: cs) =>
    match matchTemplateRefAt s with
    | some (f, c, isTh, rest) => (f, c, isTh) :: scanTemplateRefsGo fuel rest
    | none => scanTemplateRefsGo fuel cs

/-- All matches of `TEMPLATE_REFERENCE_PATTERN` via `matchAll`. -/
def scanTemplateRefs (s : Str) : List (Str × Str × Bool) := scanTemplateRefsGo s.length s

/-- Fueled global scan for the attribute-only pattern
`/th:(?:replace|insert|include|substituteby)="([^"]+)"/g` (a fresh literal
in the source, so always scanned from position 0). -/
def scanThRefsGo : Nat → Str → List (Str × Str)
  | 0, _ => []
  | _ + 1, [] => []
  | fuel + 1, s@(_ :: cs) =>
    match matchThRefAt s with
    | some (f, c, rest) => (f, c) :: scanThRefsGo fuel rest
    | none => scanThRefsGo fuel cs

/-- All matches of the attribute-only pattern. -/
def scanThRefs (s : Str) : List (Str × Str) := scanThRefsGo s.length s

/-- Attempt to match the conditional pattern
`/\$\{[^}]+\}\s*\?\s*'([^']+)'\s*:\s*'([^']+)'/` at the head, returning the
two quoted branch paths. -/
def matchCondAt (s : Str) : Option (Str × Str) :=
  match s with
  | '$' :: '\x7b' :: r =>
    let b := r.takeWhile (fun c => c ≠ '\x7d')
    if b = [] then none
    else
      match r.dropWhile (fun c => c ≠ '\x7d') with
      | '\x7d' :: r2 =>
        match r2.dropWhile wsChar with
        | '?' :: r3 =>
          match r3.dropWhile wsChar with
          | '\'' :: r4 =>
            let tp := r4.takeWhile (fun c => c ≠ '\'')
            if tp = [] then none
            else
              match r4.dropWhile (fun c => c ≠ '\'') with
              | '\'' :: r5 =>
                match r5.dropWhile wsChar with
                | ':' :: r6 =>
                  match r6.dropWhile wsChar with
                  | '\'' :: r7 =>
                    let fp := r7.takeWhile (fun c => c ≠ '\'')
                    if fp = [] then none
                    else
                      match r7.dropWhile (fun c => c ≠ '\'') with
                      | '\'' :: _ => some (tp, fp)
                      | _ => none
                  | _ => none
                | _ => none
              | _ => none
          | _ => none
        | _ => none
      | _ => none
  | _ => none

/-- Fueled first-match scan for the conditional pattern. -/
def condGroupsGo : Nat → Str → Option (Str × Str)
  | 0, _ => none
  | _ + 1, [] => none
  | fuel + 1, s@(_ :: cs) =>
    match matchCondAt s with
    | some b => some b
    | none => condGroupsGo fuel cs

/-- First match of the conditional pattern, if any. -/
def condGroups (s : Str) : Option (Str × Str) := condGroupsGo s.length s

/-- Fueled global scan for `FRAGMENT_PATTERN` = `/~\{([^}]+)\}/g`. -/
def scanFragmentsGo : Nat → Str → List (Str × Str)
  | 0, _ => []
  | _ + 1, [] => []
  | fuel + 1, s@(_ :: cs) =>
    match matchBraceAt '~' s with
    | some (m, rest) => (m, (m.drop 2).dropLast) :: scanFragmentsGo fuel rest
    | none => scanFragmentsGo fuel cs

/-- All `(full, group)` matches of `FRAGMENT_PATTERN`. -/
def scanFragments (s : Str) : List (Str × Str) := scanFragmentsGo s.length s

/-- `INVALID_PATH_CHARS` = `/[<>:"|?*]/`. -/
def invalidPathCh (c : Char) : Bool :=
  c = '<' || c = '>' || c = ':' || c = '\"' || c = '|' || c = '?' || c = '*'

/-- Fueled splitter on `/\$\{[^}]+\}/g` (the pieces between expression
matches). -/
def splitDollarGo : Nat → Str → Str → List Str
  | 0, acc, s => [acc ++ s]
  | _ + 1, acc, [] => [acc]
  | fuel + 1, acc, s@(c :: cs) =>
    match matchBraceAt '$' s with
    | some (_, rest) => acc :: splitDollarGo fuel [] rest
    | none => splitDollarGo fuel (acc ++ [c]) cs

/-- JS `split(/\$\{[^}]+\}/)`. -/
def splitDollarExpr (s : Str) : List Str := splitDollarGo s.length [] s

/-- The predicate enforced by the final filter of `findTemplateReferences`. -/
def validRefPath (p : Str) : Bool :=
  if p = [] then false
  else if p = [':', ':'] then false
  else if occursIn (str "$\x7b") p then
    (splitDollarExpr p).all (fun part => !part.any invalidPathCh)
      && !p.any (fun c => c = '?') && !p.any (fun c => c = ':')
  else !p.any invalidPathCh

/-- `extractTemplateReferences` of the definition parser. -/
def extractTemplateReferences (content : Str) (startIndex : Nat)
    (st : List TemplateReference × List Str) : List TemplateReference × List Str :=
  if content = [] || content = [':', ':'] then st
  else
    match extractPathFromReference ((splitDColon content).headD []) with
    | some path =>
      if path ≠ [] && path ∉ st.2 then
        let idx :=
          match indexOfSub content path with
          | some j => startIndex + j
          | none => startIndex
        (st.1 ++ [⟨path, idx⟩], st.2 ++ [path])
      else st
    | none => st

/-- `findTemplateReferences` of the definition parser, parameterized by the
scan positions of the two shared g-flag pattern objects (`0` on a fresh
parser). -/
def findTemplateReferencesFrom (t f : Nat) (line : Str) : List TemplateReference :=
  let st : List TemplateReference × List Str := ([], [])
  let st := (scanTemplateRefs (line.drop t)).foldl
    (fun st m =>
      let full := m.1
      let content := m.2.1
      if content = [] then st
      else
        let startIndex := (indexOfSub line full).getD 0 + (indexOfSub full content).getD 0
        extractTemplateReferences content startIndex st)
    st
  let st := (scanThRefs line).foldl
    (fun st m =>
      let full := m.1
      let content := m.2
      if content = [] then st
      else
        let startIndex := (indexOfSub line full).getD 0
        if content.any (fun c => c = '?') then
          match condGroups content with
          | some (truePath, falsePath) =>
            [truePath, falsePath].foldl
              (fun st p =>
                let cleanPath := trim ((splitDColon p).headD [])
                if cleanPath ∉ st.2 then
                  let idx :=
                    match indexOfSub line cleanPath with
                    | some j => j
                    | none => startIndex
                  (st.1 ++ [⟨cleanPath, idx⟩], st.2 ++ [cleanPath])
                else st)
              st
          | none => st
        else
          match extractPathFromReference content with
          | some p =>
            if p ≠ [] && p ∉ st.2 then
              let idx :=
                match indexOfSub line p with
                | some j => j
                | none => startIndex
              (st.1 ++ [⟨p, idx⟩], st.2 ++ [p])
            else st
          | none => st)
    st
  let st := (scanFragments (line.drop f)).foldl
    (fun st m =>
      let full := m.1
      let content := m.2
      if content = [] then st
      else
        let startIndex := (indexOfSub line full).getD 0 + 2
        match extractPathFromReference ((splitDColon content).headD []) with
        | some p =>
          if p ≠ [] && p ∉ st.2 then
            let idx :=
              match indexOfSub line p with
              | some j => j
              | none => startIndex
            (st.1 ++ [⟨p, idx⟩], st.2 ++ [p])
          else st
        | none => st)
    st
  st.1.filter (fun ref => validRefPath ref.path)

/-- `findTemplateReferences` on a fresh parser. -/
def findTemplateReferences (line : Str) : List TemplateReference :=
  findTemplateReferencesFrom 0 0 line

end Thymelab.DefParser

namespace Thymelab.ParsersDefParser

/-! ### The path extraction of the parsers-directory
`ThymeleafDefinitionParser` (the variant whose `extractPathFromReference`
also strips template-resolver prefixes). -/

/-- First half of `extractPathFromReference` of the parsers-directory
definition parser: strip quotes, `@{`/`~{` wrappers and a trailing brace,
the `classpath:`/`file:` resolver prefixes (everything up to and including
the first colon), the context-relative `~/` prefix and a leading slash. -/
def normalizeRef (reference : Str) : Str :=
  let path :=
    trim (DefParser.stripSufBrace (DefParser.stripPre (str "~\x7b")
      (DefParser.stripPre (str "@\x7b") (DefParser.stripQuotesEnds (trim reference)))))
  let path :=
    if (str "classpath:").isPrefixOf path || (str "file:").isPrefixOf path then
      match indexOfSub path [':'] with
      | some i => path.drop (i + 1)
      | none => path
    else path
  let path := if (str "~/").isPrefixOf path then path.drop 2 else path
  DefParser.stripPre ['/'] path

/-- Second half of the parsers-directory `extractPathFromReference`: keep
preprocessed `__...__` expressions verbatim; otherwise cut parameters at
the first opening parenthesis and the fragment selector at `::`, keep
dynamic paths, and reject an empty remainder. -/
def extractPathTail (path : Str) : Option Str :=
  if (str "__").isPrefixOf path && (str "__").isSuffixOf path then some path
  else
    let path := if path.any (fun c => c = '(') then path.takeWhile (fun c => c ≠ '(') else path
    let fragmentParts := (splitDColon path).map trim
    let pathWithoutFragment := trim (fragmentParts.headD [])
    if 1 < fragmentParts.length && (fragmentParts.tail.headD []).any (fun c => c = '(') then
      some pathWithoutFragment
    else if occursIn (str "$\x7b") pathWithoutFragment
        || occursIn (str "*\x7b") pathWithoutFragment
        || occursIn (str "#\x7b") pathWithoutFragment
        || pathWithoutFragment.any (fun c => c = '|') then
      some pathWithoutFragment
    else if pathWithoutFragment = [] then none
    else some pathWithoutFragment

/-- `extractPathFromReference` of the parsers-directory definition parser:
strip quotes and wrappers and the resolver prefixes, keep preprocessed
`__...__` expressions, and cut parameters and the fragment selector. -/
def extractPathFromReference (reference : Str) : Option Str :=
  if reference = [] then none
  else extractPathTail (normalizeRef reference)

end Thymelab.ParsersDefParser

namespace Thymelab

/-- The `lastIndex` scan positions of the g-flag pattern objects stored on a
`ThymeleafVariableParser` instance.  `String.prototype.match` resets the
position of its pattern to `0` before scanning and leaves it at `0`;
`String.prototype.matchAll` copies the position into a clone and never
writes the original. -/
structure VarRegexState where
  variableLast : Nat
  selectionLast : Nat
  fieldLast : Nat
  eachLast : Nat
  methodCallLast : Nat
deriving DecidableEq

/-- `findAllVariableMatches` together with its effect on the shared pattern
objects: the `match`-scanned patterns end at position `0`; the
`matchAll`-scanned `METHOD_CALL` pattern is read (taken as the start of
every clone scan) but never written. -/
def findAllVariableMatchesS (st : VarRegexState) (text : Str) :
    List (Str × Str) × VarRegexState :=
  (findAllVariableMatchesFrom st.methodCallLast text,
   { st with variableLast := 0, selectionLast := 0, fieldLast := 0 })

/-- The `lastIndex` scan positions of the g-flag pattern objects stored on a
`ThymeleafDefinitionParser` instance that `findTemplateReferences` uses
(both only through `matchAll`, which reads but never writes them). -/
structure DefRegexState where
  templateRefLast : Nat
  fragmentLast : Nat
deriving DecidableEq

/-- `findTemplateReferences` together with its (absent) effect on the shared
pattern objects. -/
def findTemplateReferencesS (st : DefRegexState) (line : Str) :
    List TemplateReference × DefRegexState :=
  (DefParser.findTemplateReferencesFrom st.templateRefLast st.fragmentLast line, st)

end Thymelab

namespace Thymelab

/-! ### Basic lemmas about the string primitives -/

theorem takeWhile_append_not (p : Char → Bool) (xs : Str) (y : Char) (ys : Str)
    (hxs : ∀ c ∈ xs, p c = true) (hy : p y = false) :
    (xs ++ y :: ys).takeWhile p = xs := by
  induction xs with
  | nil => simp [List.takeWhile, hy]
  | cons c cs ih =>
    have h1 : p c = true := hxs c (by simp)
    have h2 := ih fun d hd => hxs d (by simp [hd])
    simp [List.takeWhile, h1, h2]

theorem dropWhile_append_not (p : Char → Bool) (xs : Str) (y : Char) (ys : Str)
    (hxs : ∀ c ∈ xs, p c = true) (hy : p y = false) :
    (xs ++ y :: ys).dropWhile p = y :: ys := by
  induction xs with
  | nil => simp [List.dropWhile, hy]
  | cons c cs ih =>
    have h1 : p c = true := hxs c (by simp)
    have h2 := ih fun d hd => hxs d (by simp [hd])
    simp [List.dropWhile, h1, h2]

theorem takeWhile_all (p : Char → Bool) (xs : Str) (hxs : ∀ c ∈ xs, p c = true) :
    xs.takeWhile p = xs := by
  induction xs with
  | nil => simp
  | cons c cs ih =>
    have h1 : p c = true := hxs c (by simp)
    have h2 := ih fun d hd => hxs d (by simp [hd])
    simp [List.takeWhile, h1, h2]

theorem dropWhile_all (p : Char → Bool) (xs : Str) (hxs : ∀ c ∈ xs, p c = true) :
    xs.dropWhile p = [] := by
  induction xs with
  | nil => simp
  | cons c cs ih =>
    simp only [List.dropWhile, hxs c (by simp)]
    exact ih fun d hd => hxs d (by simp [hd])

theorem takeWhile_none (p : Char → Bool) (xs : Str)
    (hxs : ∀ c ∈ xs, p c = false) : xs.takeWhile p = [] := by
  cases xs with
  | nil => simp
  | cons c cs => simp [List.takeWhile, hxs c (by simp)]

theorem dropWhile_none (p : Char → Bool) (xs : Str)
    (hxs : ∀ c ∈ xs, p c = false) : xs.dropWhile p = xs := by
  cases xs with
  | nil => simp
  | cons c cs => simp [List.dropWhile, hxs c (by simp)]

theorem trim_nil : trim [] = [] := rfl

theorem trim_no_ws (s : Str) (h : ∀ c ∈ s, wsChar c = false) : trim s = s := by
  unfold trim
  rw [dropWhile_none wsChar s h, dropWhile_none wsChar s.reverse
    (fun c hc => h c (List.mem_reverse.mp hc)), List.reverse_reverse]

theorem isPrefixOf_append_self (p t : Str) : p.isPrefixOf (p ++ t) = true := by
  induction p with
  | nil => simp [List.isPrefixOf]
  | cons c cs ih => simp [List.isPrefixOf, ih]

theorem mem_of_isPrefixOf (p s : Str) (h : p.isPrefixOf s = true) :
    ∀ c ∈ p, c ∈ s := by
  induction p generalizing s with
  | nil => simp
  | cons c cs ih =>
    cases s with
    | nil => simp [List.isPrefixOf] at h
    | cons d ds =>
      simp only [List.isPrefixOf, Bool.and_eq_true, beq_iff_eq] at h
      intro e he
      rcases List.mem_cons.mp he with rfl | he'
      · simp [h.1]
      · exact List.mem_cons_of_mem d (ih ds h.2 e he')

theorem isPrefixOf_false_of_not_mem (p s : Str) (c : Char) (hc : c ∈ p)
    (hs : c ∉ s) : p.isPrefixOf s = false := by
  by_contra h
  exact hs (mem_of_isPrefixOf p s (by revert h; cases p.isPrefixOf s <;> simp) c hc)

theorem occursIn_mem (pat s : Str) (c : Char) (hc : c ∈ pat)
    (h : occursIn pat s = true) : c ∈ s := by
  induction s with
  | nil =>
    simp only [occursIn, List.isEmpty_iff] at h
    subst h; simp at hc
  | cons d ds ih =>
    simp only [occursIn, Bool.or_eq_true] at h
    rcases h with h | h
    · exact mem_of_isPrefixOf pat (d :: ds) h c hc
    · exact List.mem_cons_of_mem d (ih h)

theorem occursIn_false_of_not_mem (pat s : Str) (c : Char) (hc : c ∈ pat)
    (hs : c ∉ s) : occursIn pat s = false := by
  by_contra h
  exact hs (occursIn_mem pat s c hc (by revert h; cases occursIn pat s <;> simp))

theorem exists_append_of_isPrefixOf (p s : Str) (h : p.isPrefixOf s = true) :
    ∃ t, p ++ t = s := by
  induction p generalizing s with
  | nil => exact ⟨s, rfl⟩
  | cons c cs ih =>
    cases s with
    | nil => simp [List.isPrefixOf] at h
    | cons d ds =>
      simp only [List.isPrefixOf, Bool.and_eq_true, beq_iff_eq] at h
      obtain ⟨t, ht⟩ := ih ds h.2
      exact ⟨t, by simp [h.1, ht]⟩

theorem occursIn_of_occursIn_append (p q s : Str)
    (h : occursIn (p ++ q) s = true) : occursIn p s = true := by
  induction s with
  | nil =>
    simp only [occursIn, List.isEmpty_iff, List.append_eq_nil] at h ⊢
    exact h.1
  | cons d ds ih =>
    simp only [occursIn, Bool.or_eq_true] at h ⊢
    rcases h with h | h
    · left
      obtain ⟨t, ht⟩ := exists_append_of_isPrefixOf (p ++ q) (d :: ds) h
      have h2 : p.isPrefixOf (p ++ (q ++ t)) = true := isPrefixOf_append_self p (q ++ t)
      rwa [← List.append_assoc, ht] at h2
    · right; exact ih h

theorem splitOnPred_none (p : Char → Bool) (s : Str)
    (h : ∀ c ∈ s, p c = false) : splitOnPred p s = [s] := by
  induction s with
  | nil => simp [splitOnPred]
  | cons c cs ih =>
    have h1 : p c = false := h c (by simp)
    have h2 := ih fun d hd => h d (by simp [hd])
    rw [splitOnPred, h1]
    simp only [Bool.false_eq_true, if_false, h2]

theorem splitDColonGo_step (acc : Str) (c : Char) (cs : Str) (hc : c ≠ ':') :
    splitDColonGo acc (c :: cs) = splitDColonGo (c :: acc) cs := by
  rw [splitDColonGo.eq_def]
  split
  · rename_i heq; exact absurd heq (by simp)
  · rename_i rest heq
    injection heq with h1 h2
    exact absurd h1 hc
  · rename_i c' cs' heq
    injection heq with h1 h2
    subst h1; subst h2; rfl

theorem splitDColonGo_no_colon (acc s : Str) (h : ∀ c ∈ s, c ≠ ':') :
    splitDColonGo acc s = [acc.reverse ++ s] := by
  induction s generalizing acc with
  | nil => simp [splitDColonGo]
  | cons c cs ih =>
    rw [splitDColonGo_step acc c cs (h c (by simp)),
      ih (c :: acc) (fun d hd => h d (by simp [hd]))]
    simp

theorem splitDColon_no_colon (s : Str) (h : ∀ c ∈ s, c ≠ ':') :
    splitDColon s = [s] := by
  unfold splitDColon
  rw [splitDColonGo_no_colon [] s h]
  simp

theorem addVar_mem_of (v x : Str) (vars : List Str) (h : v ∈ addVar x vars) :
    v ∈ vars ∨ v = x := by
  unfold addVar at h
  split at h
  · exact Or.inl h
  · rcases List.mem_append.mp h with h | h
    · exact Or.inl h
    · simp at h; exact Or.inr h

theorem addVar_of_mem (x : Str) (vars : List Str) (h : x ∈ vars) :
    addVar x vars = vars := by
  simp [addVar, h]

theorem mem_addVar_self (x : Str) (vars : List Str) : x ∈ addVar x vars := by
  unfold addVar
  split
  · assumption
  · simp

theorem mem_addVar_of_mem (v x : Str) (vars : List Str) (h : v ∈ vars) :
    v ∈ addVar x vars := by
  unfold addVar
  split
  · exact h
  · exact List.mem_append_left _ h

end Thymelab

namespace Thymelab

/-! ### Escape handling -/

theorem findAllVariableMatchesFrom_of_escape (mc : Nat) (text : Str)
    (h : occursIn escSeq text = true) : findAllVariableMatchesFrom mc text = [] := by
  simp [findAllVariableMatchesFrom, h]

/-! ### Scanner emptiness when the trigger characters are absent -/

theorem matchBraceAt_none_of_no_brace (lead : Char) (s : Str) (h : '\x7b' ∉ s) :
    matchBraceAt lead s = none := by
  match s with
  | [] => rfl
  | [a] => rfl
  | a :: b :: rest =>
    have hb : b ≠ '\x7b' := fun hb => h (by simp [hb])
    simp [matchBraceAt, hb]

theorem scanBraceGo_nil_of_no_brace (lead : Char) (fuel : Nat) (s : Str)
    (h : '\x7b' ∉ s) : scanBraceGo lead fuel s = [] := by
  induction fuel generalizing s with
  | zero => rfl
  | succ n ih =>
    match s with
    | [] => rfl
    | c :: cs =>
      rw [scanBraceGo, matchBraceAt_none_of_no_brace lead (c :: cs) h]
      exact ih cs fun hc => h (by simp [hc])

theorem matchFieldAt_none_of_no_quote (s : Str) (h : '\"' ∉ s) :
    matchFieldAt s = none := by
  unfold matchFieldAt
  rw [isPrefixOf_false_of_not_mem fieldLit s '\"' (by decide) h]
  rfl

theorem scanField_nil_of_no_quote (fuel : Nat) (s : Str) (h : '\"' ∉ s) :
    scanFieldGo fuel s = [] := by
  induction fuel generalizing s with
  | zero => rfl
  | succ n ih =>
    match s with
    | [] => rfl
    | c :: cs =>
      rw [scanFieldGo, matchFieldAt_none_of_no_quote (c :: cs) h]
      exact ih cs fun hc => h (by simp [hc])

theorem matchFieldAt_none_of_no_brace (s : Str) (h : '\x7b' ∉ s) :
    matchFieldAt s = none := by
  unfold matchFieldAt
  split
  · split
    · rename_i q rest heq
      have : '\x7b' ∈ s.drop 10 := by rw [heq]; simp
      exact absurd (List.mem_of_mem_drop this) h
    · rfl
  · rfl

theorem scanField_nil_of_no_brace (fuel : Nat) (s : Str) (h : '\x7b' ∉ s) :
    scanFieldGo fuel s = [] := by
  induction fuel generalizing s with
  | zero => rfl
  | succ n ih =>
    match s with
    | [] => rfl
    | c :: cs =>
      rw [scanFieldGo, matchFieldAt_none_of_no_brace (c :: cs) h]
      exact ih cs fun hc => h (by simp [hc])

theorem findAllVariableMatchesFrom_nil_of_no_brace (mc : Nat) (text : Str)
    (h : '\x7b' ∉ text) : findAllVariableMatchesFrom mc text = [] := by
  unfold findAllVariableMatchesFrom
  split
  · rfl
  · have h1 : scanBraceExpr '$' text = [] :=
      scanBraceGo_nil_of_no_brace '$' text.length text h
    have h2 : scanBraceExpr '*' text = [] :=
      scanBraceGo_nil_of_no_brace '*' text.length text h
    have h3 : processExpressions mc text ([], []) = ([], []) := by
      unfold processExpressions
      rw [h1, h2]
      rfl
    have h4 : scanField text = [] := by
      unfold scanField
      exact scanField_nil_of_no_brace text.length text h
    rw [h3]
    unfold processFieldExpressions
    rw [h4]
    rfl

end Thymelab

namespace Thymelab.DefParser

theorem thKeywordAt_mem (r kw r1 : Str) (h : thKeywordAt r = some (kw, r1)) :
    ∀ c ∈ r1, c ∈ r := by
  unfold thKeywordAt at h
  split_ifs at h <;>
    (injection h with h'; injection h' with h1 h2; subst h2;
     exact fun c hc => List.mem_of_mem_drop hc)

theorem matchThRefAt_none_of_no_quote (s : Str) (h : '\"' ∉ s) :
    matchThRefAt s = none := by
  unfold matchThRefAt
  split
  · rename_i hpre
    match heq : thKeywordAt (s.drop 3) with
    | none => rfl
    | some (kw, r1) =>
      have hr1 : ∀ c ∈ r1, c ∈ s := fun c hc =>
        List.mem_of_mem_drop (thKeywordAt_mem (s.drop 3) kw r1 heq c hc)
      simp only []
      split
      · exact absurd (hr1 '\"' (by simp)) h
      · rfl
  · rfl

theorem matchTemplateRefAt_none (s : Str) (hq : '\"' ∉ s) (hb : '\x7b' ∉ s) :
    matchTemplateRefAt s = none := by
  unfold matchTemplateRefAt
  rw [matchThRefAt_none_of_no_quote s hq]
  simp only []
  split
  · simp at hb
  · rfl

theorem scanTemplateRefsGo_nil (fuel : Nat) (s : Str) (hq : '\"' ∉ s)
    (hb : '\x7b' ∉ s) : scanTemplateRefsGo fuel s = [] := by
  induction fuel generalizing s with
  | zero => rfl
  | succ n ih =>
    match s with
    | [] => rfl
    | c :: cs =>
      rw [scanTemplateRefsGo, matchTemplateRefAt_none (c :: cs) hq hb]
      exact ih cs (fun hc => hq (by simp [hc])) (fun hc => hb (by simp [hc]))

theorem scanThRefsGo_nil (fuel : Nat) (s : Str) (hq : '\"' ∉ s) :
    scanThRefsGo fuel s = [] := by
  induction fuel generalizing s with
  | zero => rfl
  | succ n ih =>
    match s with
    | [] => rfl
    | c :: cs =>
      rw [scanThRefsGo, matchThRefAt_none_of_no_quote (c :: cs) hq]
      exact ih cs (fun hc => hq (by simp [hc]))

theorem scanFragmentsGo_nil (fuel : Nat) (s : Str) (hb : '\x7b' ∉ s) :
    scanFragmentsGo fuel s = [] := by
  induction fuel generalizing s with
  | zero => rfl
  | succ n ih =>
    match s with
    | [] => rfl
    | c :: cs =>
      rw [scanFragmentsGo, matchBraceAt_none_of_no_brace '~' (c :: cs) hb]
      exact ih cs (fun hc => hb (by simp [hc]))

theorem findTemplateReferences_nil (line : Str) (hb : '\x7b' ∉ line)
    (hq : '\"' ∉ line) : findTemplateReferences line = [] := by
  have h1 : scanTemplateRefs line = [] := scanTemplateRefsGo_nil line.length line hq hb
  have h2 : scanThRefs line = [] := scanThRefsGo_nil line.length line hq
  have h3 : scanFragments line = [] := scanFragmentsGo_nil line.length line hb
  unfold findTemplateReferences findTemplateReferencesFrom
  simp only [List.drop_zero, h1, h2, h3, List.foldl_nil]
  rfl

end Thymelab.DefParser

namespace Thymelab

/-- C3: escaping is applied before any other processing in
`findAllVariableMatches` — whenever an expression preceded by a backslash
(backslash-dollar-brace followed by anything) occurs in the text, the result
contains no pair at all, so the escaped expression and all of its prefix
sub-paths are excluded; in particular the spec example
`findAllVariableMatches('<div th:text="\$\x7buser.name\x7d">')`
returns the empty array. -/
theorem c3_escaping_applied_first :
    (∀ text e : Str, occursIn (escSeq ++ e) text = true →
      findAllVariableMatches text = []) ∧
    findAllVariableMatches (str "<div th:text=\"\\$\x7buser.name\x7d\">") = [] := by
  constructor
  · intro text e h
    exact findAllVariableMatchesFrom_of_escape 0 text
      (occursIn_of_occursIn_append escSeq e text h)
  · decide

/-- Witness for C3 at a concrete escaped expression. -/
theorem c3_escaping_applied_first_witness :
    findAllVariableMatches (str "\\$\x7bx\x7d") = [] :=
  c3_escaping_applied_first.1 (str "\\$\x7bx\x7d") (str "x\x7d") (by decide)

/-- C10: in the parsers-directory implementation, one escaped expression
anywhere silences the whole call — if the two-character sequence
backslash-dollar followed by an opening brace occurs anywhere in the text,
`findAllVariableMatches` returns the empty array, even for expressions that
are not themselves escaped; in particular a text holding an escaped
expression and a separate unescaped `$\x7buser.name\x7d` yields no match. -/
theorem c10_escape_silences_whole_text :
    (∀ text : Str, occursIn escSeq text = true →
      findAllVariableMatches text = []) ∧
    occursIn (str "$\x7buser.name\x7d") (str "\\$\x7ba\x7d $\x7buser.name\x7d") = true ∧
    findAllVariableMatches (str "\\$\x7ba\x7d $\x7buser.name\x7d") = [] := by
  refine ⟨fun text h => findAllVariableMatchesFrom_of_escape 0 text h, by decide, by decide⟩

/-- Witness for C10 at a concrete input. -/
theorem c10_escape_silences_whole_text_witness :
    findAllVariableMatches (str "\\$\x7bz\x7d hello") = [] :=
  c10_escape_silences_whole_text.1 (str "\\$\x7bz\x7d hello") (by decide)

/-- C8: both entry points are total functions of the input (they are plain
Lean functions, so no exception can be raised), and on text with no
recognizable expression the result is the empty array: whenever the text
contains no opening brace, `findAllVariableMatches` returns `[]`, and
whenever it contains neither an opening brace nor a double quote,
`findTemplateReferences` returns `[]`. -/
theorem c8_no_expression_empty_result :
    (∀ text : Str, '\x7b' ∉ text → findAllVariableMatches text = []) ∧
    (∀ text : Str, '\x7b' ∉ text → '\"' ∉ text →
      DefParser.findTemplateReferences text = []) := by
  exact ⟨fun text h => findAllVariableMatchesFrom_nil_of_no_brace 0 text h,
    fun text hb hq => DefParser.findTemplateReferences_nil text hb hq⟩

/-- Witness for C8 on plain prose input. -/
theorem c8_no_expression_empty_result_witness :
    findAllVariableMatches (str "hello world") = []
      ∧ DefParser.findTemplateReferences (str "hello world") = [] :=
  ⟨c8_no_expression_empty_result.1 (str "hello world") (by decide),
   c8_no_expression_empty_result.2 (str "hello world") (by decide) (by decide)⟩

/-- C9: both top-level entry points are deterministic and idempotent in the
presence of the shared compiled pattern objects: running
`findAllVariableMatches` (resp. `findTemplateReferences`) twice on the same
input, threading the scan-position state (`lastIndex`) of the shared g-flag
pattern objects from the first call into the second, yields the same result
list, for every starting state — the first call leaves no scan-position
state that can affect the second. -/
theorem c9_idempotent_under_pattern_state :
    ∀ (text line : Str) (σ : VarRegexState) (τ : DefRegexState),
      (findAllVariableMatchesS ((findAllVariableMatchesS σ text).2) text).1 =
        (findAllVariableMatchesS σ text).1 ∧
      (findTemplateReferencesS ((findTemplateReferencesS τ line).2) line).1 =
        (findTemplateReferencesS τ line).1 :=
  fun _ _ _ _ => ⟨rfl, rfl⟩

end Thymelab

namespace Thymelab

/-- Characters of a plain template path: letters, digits and the path
separator. -/
def plainPathCh (c : Char) : Prop := c.isAlpha = true ∨ c.isDigit = true ∨ c = '/'

instance (c : Char) : Decidable (plainPathCh c) := by
  unfold plainPathCh
  infer_instance

theorem plainPathCh_ne (c : Char) (h : plainPathCh c) (d : Char)
    (hd : d.isAlpha = false ∧ d.isDigit = false ∧ d ≠ '/') : c ≠ d := by
  rintro rfl
  rcases h with h | h | h
  · rw [h] at hd; simp at hd
  · rw [h] at hd; simp at hd
  · exact hd.2.2 h

theorem wsChar_false_of_plain (c : Char) (h : plainPathCh c) : wsChar c = false := by
  by_cases hw : wsChar c = true
  · simp only [wsChar, Bool.or_eq_true, decide_eq_true_eq] at hw
    rcases hw with ((((rfl | rfl) | rfl) | rfl) | rfl) | rfl <;>
      (rcases h with h | h | h <;> simp_all)
  · simpa using hw

theorem quoteChar_false_of_plain (c : Char) (h : plainPathCh c) : quoteChar c = false := by
  by_cases hq : quoteChar c = true
  · simp only [quoteChar, Bool.or_eq_true, decide_eq_true_eq] at hq
    rcases hq with rfl | rfl <;> (rcases h with h | h | h <;> simp_all)
  · simpa using hq

theorem trim_append_sp (s : Str) (hne : s ≠ []) (h : ∀ c ∈ s, wsChar c = false) :
    trim (s ++ [' ']) = s := by
  match s, hne with
  | c :: cs, _ =>
    unfold trim
    rw [show ((c :: cs ++ [' ']).dropWhile wsChar) = c :: cs ++ [' '] by
      simp [List.dropWhile, h c (by simp)]]
    rw [show (c :: cs ++ [' ']).reverse = ' ' :: (c :: cs).reverse by simp]
    rw [show ((' ' :: (c :: cs).reverse).dropWhile wsChar) = (c :: cs).reverse.dropWhile wsChar by
      simp [List.dropWhile, wsChar]]
    rw [dropWhile_none wsChar (c :: cs).reverse
      (fun d hd => h d (List.mem_reverse.mp hd)), List.reverse_reverse]

end Thymelab

namespace Thymelab.DefParser

theorem mem_of_getLast?_eq (l : Str) (d : Char) (h : l.getLast? = some d) :
    d ∈ l := by
  have hx : d ∈ l.getLast? := by rw [h]; rfl
  obtain ⟨hne, heq⟩ := List.mem_getLast?_eq_getLast hx
  rw [heq]
  exact List.getLast_mem hne

theorem stripQuotesEnds_id (s : Str) (h : ∀ c ∈ s, quoteChar c = false) :
    stripQuotesEnds s = s := by
  match s with
  | [] => rfl
  | c :: cs =>
    have h1 : quoteChar c = false := h c (by simp)
    unfold stripQuotesEnds
    simp only [h1, Bool.false_eq_true, if_false]
    match hl : (c :: cs).getLast? with
    | none => simp at hl
    | some d =>
      have hd : d ∈ c :: cs := mem_of_getLast?_eq (c :: cs) d hl
      simp [h d hd]

theorem stripPre_not (pre s : Str) (h : pre.isPrefixOf s = false) :
    stripPre pre s = s := by
  simp [stripPre, h]

theorem stripSufBrace_id (s : Str) (h : ∀ c ∈ s, c ≠ '\x7d') :
    stripSufBrace s = s := by
  unfold stripSufBrace
  match hl : s.getLast? with
  | none => rfl
  | some d =>
    have hd : d ∈ s := mem_of_getLast?_eq s d hl
    have hne : d ≠ '\x7d' := h d hd
    split
    · rename_i heq
      injection heq with h2
      exact absurd h2 hne
    · rfl

theorem isPrefixOf_cons_false (d : Char) (ps : Str) (c : Char) (cs : Str)
    (h : d ≠ c) : (d :: ps).isPrefixOf (c :: cs) = false := by
  simp [List.isPrefixOf, h]

theorem validRefPath_nil : validRefPath [] = false := by decide

theorem validRefPath_dcolon : validRefPath [':', ':'] = false := by decide

end Thymelab.DefParser

namespace Thymelab

/-- C6: malformed references yield no template reference — the helper
`extractTemplateReferences` contributes nothing for the empty content and
for the bare fragment separator, every reference surviving
`findTemplateReferences` has a nonempty path different from the bare
separator that passes the invalid-character filter (which rejects any of
the characters angle brackets, colon, double quote, pipe, question mark and
star occurring outside an embedded dollar-brace expression), and the spec
example `findTemplateReferences('<div th:replace="::">')` returns the
empty array. -/
theorem c6_malformed_references_rejected :
    (∀ (si : Nat) (st : List TemplateReference × List Str),
      DefParser.extractTemplateReferences [] si st = st ∧
      DefParser.extractTemplateReferences (str "::") si st = st) ∧
    (∀ (line : Str) (r : TemplateReference),
      r ∈ DefParser.findTemplateReferences line →
        r.path ≠ [] ∧ r.path ≠ str "::" ∧ DefParser.validRefPath r.path = true) ∧
    DefParser.findTemplateReferences (str "<div th:replace=\"::\">") = [] := by
  refine ⟨fun si st => ⟨rfl, rfl⟩, fun line r h => ?_, by decide⟩
  simp only [DefParser.findTemplateReferences, DefParser.findTemplateReferencesFrom] at h
  have hv : DefParser.validRefPath r.path = true := by
    have := List.mem_filter.mp h
    simpa using this.2
  refine ⟨fun he => ?_, fun he => ?_, hv⟩
  · rw [he, DefParser.validRefPath_nil] at hv; exact absurd hv (by simp)
  · rw [he] at hv
    rw [show (str "::") = [':', ':'] from rfl, DefParser.validRefPath_dcolon] at hv
    exact absurd hv (by simp)

/-- Witness for C6: the helper leaves the state unchanged on the bare
separator, and a well-formed reference that `findTemplateReferences` does
return passes the filter predicate. -/
theorem c6_malformed_references_rejected_witness :
    DefParser.extractTemplateReferences (str "::") 0 ([], []) = ([], []) ∧
    DefParser.validRefPath (str "a") = true :=
  ⟨(c6_malformed_references_rejected.1 0 ([], [])).2,
   (c6_malformed_references_rejected.2.1 (str "<div th:replace=\"a :: b\">")
      ⟨str "a", 17⟩ (by decide)).2.2⟩

end Thymelab

namespace Thymelab.DefParser

theorem stripPre_of_head_ne (pre s : Str) (d c : Char) (hpre : pre.head? = some d)
    (hs : s.head? = some c) (hne : d ≠ c) : stripPre pre s = s := by
  match pre, s with
  | [], _ => simp at hpre
  | _ :: _, [] => simp at hs
  | a :: ps, b :: bs =>
    simp only [List.head?_cons, Option.some.injEq] at hpre hs
    exact stripPre_not (a :: ps) (b :: bs)
      (isPrefixOf_cons_false a ps b bs (hpre ▸ hs ▸ hne))

theorem splitDColonGo_reaches (acc xs rest : Str) (h : ∀ c ∈ xs, c ≠ ':') :
    splitDColonGo acc (xs ++ ':' :: ':' :: rest) =
      (acc.reverse ++ xs) :: splitDColonGo [] rest := by
  induction xs generalizing acc with
  | nil => simp [splitDColonGo]
  | cons c cs ih =>
    rw [List.cons_append, splitDColonGo_step acc c _ (h c (by simp)),
      ih (c :: acc) (fun d hd => h d (by simp [hd]))]
    simp

theorem extractPathFromReference_plain_sp (p : Str) (hne : p ≠ [])
    (hch : ∀ c ∈ p, plainPathCh c) (hhead : p.head? ≠ some '/') :
    extractPathFromReference (p ++ [' ']) = some p := by
  match p, hne with
  | c0 :: p', _ =>
    have hc0 : plainPathCh c0 := hch c0 (by simp)
    have hws : ∀ c ∈ c0 :: p', wsChar c = false :=
      fun c hc => wsChar_false_of_plain c (hch c hc)
    have hq : ∀ c ∈ c0 :: p', quoteChar c = false :=
      fun c hc => quoteChar_false_of_plain c (hch c hc)
    have e1 : trim ((c0 :: p') ++ [' ']) = c0 :: p' :=
      trim_append_sp (c0 :: p') (by simp) hws
    have e2 : stripQuotesEnds (c0 :: p') = c0 :: p' := stripQuotesEnds_id _ hq
    have e3 : stripPre (str "@\x7b") (c0 :: p') = c0 :: p' :=
      stripPre_of_head_ne _ _ '@' c0 rfl rfl
        (Ne.symm (plainPathCh_ne c0 hc0 '@' (by decide)))
    have e4 : stripPre (str "~\x7b") (c0 :: p') = c0 :: p' :=
      stripPre_of_head_ne _ _ '~' c0 rfl rfl
        (Ne.symm (plainPathCh_ne c0 hc0 '~' (by decide)))
    have e5 : stripSufBrace (c0 :: p') = c0 :: p' :=
      stripSufBrace_id _ (fun c hc => plainPathCh_ne c (hch c hc) '\x7d' (by decide))
    have e6 : trim (c0 :: p') = c0 :: p' := trim_no_ws _ hws
    have e7 : stripPre ['/'] (c0 :: p') = c0 :: p' :=
      stripPre_of_head_ne _ _ '/' c0 rfl rfl (fun he => hhead (by simp [he.symm]))
    have e8 : splitOnPred (fun c => wsChar c || c = '(') (c0 :: p') = [c0 :: p'] :=
      splitOnPred_none _ _ (fun c hc => by
        rw [wsChar_false_of_plain c (hch c hc)]
        simp [plainPathCh_ne c (hch c hc) '(' (by decide)])
    unfold extractPathFromReference
    rw [if_neg (by simp : ¬(c0 :: p' ++ [' '] = []))]
    simp only [e1, e2, e3, e4, e5, e6, e7, e8, List.headD_cons]

theorem indexOfSubGo_self (pat rest : Str) (i : Nat) :
    indexOfSubGo pat (pat ++ rest) i = some i := by
  have hpre := isPrefixOf_append_self pat rest
  cases he : pat ++ rest with
  | nil => rw [he] at hpre; simp [indexOfSubGo, hpre]
  | cons c cs => rw [he] at hpre; simp [indexOfSubGo, hpre]

theorem extractTemplateReferences_splits (file sel : Str) (si : Nat)
    (hne : file ≠ []) (hch : ∀ c ∈ file, plainPathCh c)
    (hhead : file.head? ≠ some '/') :
    extractTemplateReferences (file ++ str " :: " ++ sel) si ([], []) =
      ([⟨file, si⟩], [file]) := by
  match file, hne with
  | c0 :: p', _ =>
    have hc0 : plainPathCh c0 := hch c0 (by simp)
    have hcolon : ∀ c ∈ c0 :: p', c ≠ ':' :=
      fun c hc => plainPathCh_ne c (hch c hc) ':' (by decide)
    have hcontent : (c0 :: p') ++ str " :: " ++ sel =
        ((c0 :: p') ++ [' ']) ++ ':' :: ':' :: (' ' :: sel) := by
      simp [str]
    have hsplit : splitDColon ((c0 :: p') ++ str " :: " ++ sel) =
        ((c0 :: p') ++ [' ']) :: splitDColonGo [] (' ' :: sel) := by
      unfold splitDColon
      rw [hcontent, splitDColonGo_reaches [] _ _
        (fun c hc => by
          rcases List.mem_append.mp hc with hc | hc
          · exact hcolon c hc
          · simp at hc; simp [hc])]
      rfl
    have hepr : extractPathFromReference ((c0 :: p') ++ [' ']) = some (c0 :: p') :=
      extractPathFromReference_plain_sp (c0 :: p') (by simp) hch hhead
    have hidx : indexOfSub (c0 :: (p' ++ (str " :: " ++ sel))) (c0 :: p') = some 0 := by
      unfold indexOfSub
      exact indexOfSubGo_self (c0 :: p') (str " :: " ++ sel) 0
    unfold extractTemplateReferences
    rw [if_neg ?hcond]
    case hcond =>
      simp only [Bool.or_eq_true, decide_eq_true_eq]
      rintro (h | h)
      · simp at h
      · rw [List.append_assoc] at h
        have := congrArg List.head? h
        simp at this
        exact hcolon c0 (by simp) this
    rw [hsplit, List.headD_cons, hepr]
    simp [hidx]

end Thymelab.DefParser

namespace Thymelab

/-- C5: for a template reference written `file :: selector`,
`findTemplateReferences` splits the fragment selector off at the separator
and keeps only the (trimmed) template-file portion as the path — for every
plain path `file` and arbitrary selector text, the reference extractor
applied to `file :: selector` records exactly the one path `file`; and on
the spec example the whole entry point returns exactly one reference whose
path is `fragments/header`. -/
theorem c5_selector_split :
    (∀ (file sel : Str) (si : Nat), file ≠ [] → (∀ c ∈ file, plainPathCh c) →
      file.head? ≠ some '/' →
      DefParser.extractTemplateReferences (file ++ str " :: " ++ sel) si ([], []) =
        ([⟨file, si⟩], [file])) ∧
    DefParser.findTemplateReferences
        (str "<div th:replace=\"fragments/header :: header\">") =
      [⟨str "fragments/header", 17⟩] := by
  refine ⟨fun file sel si h1 h2 h3 =>
    DefParser.extractTemplateReferences_splits file sel si h1 h2 h3, by decide⟩

/-- Witness for C5 at the spec's own reference. -/
theorem c5_selector_split_witness :
    DefParser.extractTemplateReferences
        (str "fragments/header" ++ str " :: " ++ str "header") 17 ([], []) =
      ([⟨str "fragments/header", 17⟩], [str "fragments/header"]) :=
  c5_selector_split.1 (str "fragments/header") (str "header") 17
    (by decide) (by decide) (by decide)

end Thymelab


namespace Thymelab

theorem all_mem_append {Q : Char → Prop} (xs ys : Str) (hx : ∀ c ∈ xs, Q c)
    (hy : ∀ c ∈ ys, Q c) : ∀ c ∈ xs ++ ys, Q c :=
  fun c hc => (List.mem_append.mp hc).elim (hx c) (hy c)

theorem all_mem_cons {Q : Char → Prop} (d : Char) (s : Str) (hd : Q d)
    (hs : ∀ c ∈ s, Q c) : ∀ c ∈ d :: s, Q c :=
  fun c hc => (List.mem_cons.mp hc).elim (fun h => h ▸ hd) (hs c)

theorem not_mem_append_ch {c : Char} (xs ys : Str) (hx : c ∉ xs) (hy : c ∉ ys) :
    c ∉ xs ++ ys :=
  fun hm => (List.mem_append.mp hm).elim hx hy

theorem not_mem_cons_ch {c : Char} (d : Char) (s : Str) (h1 : c ≠ d) (h2 : c ∉ s) :
    c ∉ d :: s :=
  fun hm => (List.mem_cons.mp hm).elim h1 h2

theorem ne_nil_of_head (s : Str) (c : Char) (h : s.head? = some c) : s ≠ [] := by
  intro he
  rw [he] at h
  simp at h

theorem not_prefix_of_eq_false {a b : Str} (h : a.isPrefixOf b = false) :
    ¬ a <+: b := by
  rw [← List.isPrefixOf_iff_prefix, h]
  simp

theorem indexOfSubGo_char (c : Char) (xs rest : Str) (i : Nat) (h : c ∉ xs) :
    indexOfSubGo [c] (xs ++ c :: rest) i = some (i + xs.length) := by
  induction xs generalizing i with
  | nil =>
    rw [List.nil_append, indexOfSubGo]
    rw [if_pos (by simp [List.isPrefixOf])]
    simp
  | cons x xs ih =>
    rw [List.cons_append, indexOfSubGo]
    have hx : ¬(c = x) := fun he => h (by simp [he])
    rw [if_neg (by simp [List.isPrefixOf, hx])]
    rw [ih (i + 1) (fun hm => h (by simp [hm]))]
    simp only [List.length_cons]
    congr 1
    omega

end Thymelab

namespace Thymelab.DefParser

theorem stripPre_append (pre rest : Str) : stripPre pre (pre ++ rest) = rest := by
  unfold stripPre
  rw [if_pos (isPrefixOf_append_self pre rest), List.drop_left]

theorem stripPre_single (d : Char) (s : Str) (h : s.head? ≠ some d) :
    stripPre [d] s = s := by
  match s with
  | [] => simp [stripPre, List.isPrefixOf]
  | c :: cs =>
    exact stripPre_not _ _ (isPrefixOf_cons_false d [] c cs
      (fun he => h (by simp [he.symm])))

theorem stripSufBrace_concat (s : Str) : stripSufBrace (s ++ ['\x7d']) = s := by
  unfold stripSufBrace
  rw [List.getLast?_concat]
  exact List.dropLast_concat

theorem stripQuotesEnds_wrap (s : Str) :
    stripQuotesEnds ('\"' :: (s ++ ['\"'])) = s := by
  simp [stripQuotesEnds, quoteChar, List.getLast?_concat, List.dropLast_concat]

end Thymelab.DefParser

namespace Thymelab.ParsersDefParser

theorem extractPathTail_plain (p : Str) (hne : p ≠ [])
    (hch : ∀ c ∈ p, plainPathCh c) : extractPathTail p = some p := by
  have hund : '_' ∉ p := fun hm => (by decide : ¬plainPathCh '_') (hch '_' hm)
  have hcol : ∀ c ∈ p, c ≠ ':' :=
    fun c hc => plainPathCh_ne c (hch c hc) ':' (by decide)
  have hws : ∀ c ∈ p, wsChar c = false :=
    fun c hc => wsChar_false_of_plain c (hch c hc)
  have hus : (str "__").isPrefixOf p = false :=
    isPrefixOf_false_of_not_mem _ _ '_' (by decide) hund
  have hus' : ¬ (str "__") <+: p := not_prefix_of_eq_false hus
  have hpar : p.any (fun c => c = '(') = false :=
    List.any_eq_false.mpr (fun c hc => by
      simp [plainPathCh_ne c (hch c hc) '(' (by decide)])
  have hpar' : ¬ ∃ c ∈ p, c = '(' :=
    fun ⟨c, hc, he⟩ => plainPathCh_ne c (hch c hc) '(' (by decide) he
  have hpipe : p.any (fun c => c = '|') = false :=
    List.any_eq_false.mpr (fun c hc => by
      simp [plainPathCh_ne c (hch c hc) '|' (by decide)])
  have hpipe' : ¬ ∃ c ∈ p, c = '|' :=
    fun ⟨c, hc, he⟩ => plainPathCh_ne c (hch c hc) '|' (by decide) he
  have hsplitp : splitDColon p = [p] := splitDColon_no_colon _ hcol
  have htrimp : trim p = p := trim_no_ws _ hws
  have hdollar : occursIn (str "$\x7b") p = false :=
    occursIn_false_of_not_mem _ _ '$' (by decide)
      (fun hm => (by decide : ¬plainPathCh '$') (hch '$' hm))
  have hstar : occursIn (str "*\x7b") p = false :=
    occursIn_false_of_not_mem _ _ '*' (by decide)
      (fun hm => (by decide : ¬plainPathCh '*') (hch '*' hm))
  have hhash : occursIn (str "#\x7b") p = false :=
    occursIn_false_of_not_mem _ _ '#' (by decide)
      (fun hm => (by decide : ¬plainPathCh '#') (hch '#' hm))
  unfold extractPathTail
  simp [hus, hus', hpar, hpar', hpipe, hpipe', hsplitp, htrimp, hdollar, hstar,
    hhash, hne]

theorem normalizeRef_variants (p : Str) (hne : p ≠ [])
    (hch : ∀ c ∈ p, plainPathCh c) (hhead : p.head? ≠ some '/') :
    normalizeRef p = p ∧
    normalizeRef (str "classpath:" ++ p) = p ∧
    normalizeRef (str "file:" ++ p) = p ∧
    normalizeRef (str "~/" ++ p) = p ∧
    normalizeRef ('/' :: p) = p ∧
    normalizeRef (str "@\x7b" ++ (p ++ ['\x7d'])) = p ∧
    normalizeRef (str "~\x7b" ++ (p ++ ['\x7d'])) = p ∧
    normalizeRef ('\"' :: (p ++ ['\"'])) = p := by
  have hws : ∀ c ∈ p, wsChar c = false :=
    fun c hc => wsChar_false_of_plain c (hch c hc)
  have hq : ∀ c ∈ p, quoteChar c = false :=
    fun c hc => quoteChar_false_of_plain c (hch c hc)
  have hbr : ∀ c ∈ p, c ≠ '\x7d' :=
    fun c hc => plainPathCh_ne c (hch c hc) '\x7d' (by decide)
  have hlb : '\x7b' ∉ p := fun hm => (by decide : ¬plainPathCh '\x7b') (hch '\x7b' hm)
  have hat : '@' ∉ p := fun hm => (by decide : ¬plainPathCh '@') (hch '@' hm)
  have hcol : ':' ∉ p := fun hm => (by decide : ¬plainPathCh ':') (hch ':' hm)
  have htil : '~' ∉ p := fun hm => (by decide : ¬plainPathCh '~') (hch '~' hm)
  have e_trim : trim p = p := trim_no_ws _ hws
  have e_q : DefParser.stripQuotesEnds p = p := DefParser.stripQuotesEnds_id _ hq
  have e_at : DefParser.stripPre (str "@\x7b") p = p :=
    DefParser.stripPre_not _ _ (isPrefixOf_false_of_not_mem _ _ '\x7b' (by decide) hlb)
  have e_tl : DefParser.stripPre (str "~\x7b") p = p :=
    DefParser.stripPre_not _ _ (isPrefixOf_false_of_not_mem _ _ '\x7b' (by decide) hlb)
  have e_sb : DefParser.stripSufBrace p = p := DefParser.stripSufBrace_id _ hbr
  have e_cls : (str "classpath:").isPrefixOf p = false :=
    isPrefixOf_false_of_not_mem _ _ ':' (by decide) hcol
  have e_cls' : ¬ (str "classpath:") <+: p := not_prefix_of_eq_false e_cls
  have e_fil : (str "file:").isPrefixOf p = false :=
    isPrefixOf_false_of_not_mem _ _ ':' (by decide) hcol
  have e_fil' : ¬ (str "file:") <+: p := not_prefix_of_eq_false e_fil
  have e_ts : (str "~/").isPrefixOf p = false :=
    isPrefixOf_false_of_not_mem _ _ '~' (by decide) htil
  have e_ts' : ¬ (str "~/") <+: p := not_prefix_of_eq_false e_ts
  have e_sl : DefParser.stripPre ['/'] p = p := DefParser.stripPre_single '/' p hhead
  refine ⟨?_, ?_, ?_, ?_, ?_, ?_, ?_, ?_⟩
  · unfold normalizeRef
    simp [e_trim, e_q, e_at, e_tl, e_sb, e_cls, e_cls', e_fil, e_fil', e_ts, e_ts',
      e_sl]
  · have s1 : ∀ c ∈ str "classpath:" ++ p, wsChar c = false :=
      all_mem_append _ _ (by decide) hws
    have s2 : ∀ c ∈ str "classpath:" ++ p, quoteChar c = false :=
      all_mem_append _ _ (by decide) hq
    have s3 : ∀ c ∈ str "classpath:" ++ p, c ≠ '\x7d' :=
      all_mem_append _ _ (by decide) hbr
    have u1 : trim (str "classpath:" ++ p) = str "classpath:" ++ p := trim_no_ws _ s1
    have u2 : DefParser.stripQuotesEnds (str "classpath:" ++ p) =
        str "classpath:" ++ p := DefParser.stripQuotesEnds_id _ s2
    have u3 : DefParser.stripPre (str "@\x7b") (str "classpath:" ++ p) =
        str "classpath:" ++ p :=
      DefParser.stripPre_not _ _ (isPrefixOf_false_of_not_mem _ _ '\x7b' (by decide)
        (not_mem_append_ch _ _ (by decide) hlb))
    have u4 : DefParser.stripPre (str "~\x7b") (str "classpath:" ++ p) =
        str "classpath:" ++ p :=
      DefParser.stripPre_not _ _ (isPrefixOf_false_of_not_mem _ _ '\x7b' (by decide)
        (not_mem_append_ch _ _ (by decide) hlb))
    have u5 : DefParser.stripSufBrace (str "classpath:" ++ p) =
        str "classpath:" ++ p := DefParser.stripSufBrace_id _ s3
    have u7 : indexOfSub (str "classpath:" ++ p) [':'] = some 9 := by
      unfold indexOfSub
      exact indexOfSubGo_char ':' (str "classpath") p 0 (by decide)
    have u8 : (str "classpath:" ++ p).drop (9 + 1) = p :=
      List.drop_left (str "classpath:") p
    have u8b : (str "classpath:" ++ p).drop 10 = p :=
      List.drop_left (str "classpath:") p
    unfold normalizeRef
    simp [u1, u2, u3, u4, u5, u7, u8, u8b, e_ts, e_ts', e_sl]
  · have s1 : ∀ c ∈ str "file:" ++ p, wsChar c = false :=
      all_mem_append _ _ (by decide) hws
    have s2 : ∀ c ∈ str "file:" ++ p, quoteChar c = false :=
      all_mem_append _ _ (by decide) hq
    have s3 : ∀ c ∈ str "file:" ++ p, c ≠ '\x7d' :=
      all_mem_append _ _ (by decide) hbr
    have u1 : trim (str "file:" ++ p) = str "file:" ++ p := trim_no_ws _ s1
    have u2 : DefParser.stripQuotesEnds (str "file:" ++ p) = str "file:" ++ p :=
      DefParser.stripQuotesEnds_id _ s2
    have u3 : DefParser.stripPre (str "@\x7b") (str "file:" ++ p) =
        str "file:" ++ p :=
      DefParser.stripPre_not _ _ (isPrefixOf_false_of_not_mem _ _ '\x7b' (by decide)
        (not_mem_append_ch _ _ (by decide) hlb))
    have u4 : DefParser.stripPre (str "~\x7b") (str "file:" ++ p) =
        str "file:" ++ p :=
      DefParser.stripPre_not _ _ (isPrefixOf_false_of_not_mem _ _ '\x7b' (by decide)
        (not_mem_append_ch _ _ (by decide) hlb))
    have u5 : DefParser.stripSufBrace (str "file:" ++ p) = str "file:" ++ p :=
      DefParser.stripSufBrace_id _ s3
    have u6 : (str "classpath:").isPrefixOf (str "file:" ++ p) = false :=
      DefParser.isPrefixOf_cons_false 'c' _ 'f' _ (by decide)
    have u6' : ¬ (str "classpath:") <+: (str "file:" ++ p) :=
      not_prefix_of_eq_false u6
    have u7 : indexOfSub (str "file:" ++ p) [':'] = some 4 := by
      unfold indexOfSub
      exact indexOfSubGo_char ':' (str "file") p 0 (by decide)
    have u8 : (str "file:" ++ p).drop (4 + 1) = p := List.drop_left (str "file:") p
    have u8b : (str "file:" ++ p).drop 5 = p := List.drop_left (str "file:") p
    unfold normalizeRef
    simp [u1, u2, u3, u4, u5, u6, u6', u7, u8, u8b, e_ts, e_ts', e_sl]
  · have s1 : ∀ c ∈ str "~/" ++ p, wsChar c = false :=
      all_mem_append _ _ (by decide) hws
    have s2 : ∀ c ∈ str "~/" ++ p, quoteChar c = false :=
      all_mem_append _ _ (by decide) hq
    have s3 : ∀ c ∈ str "~/" ++ p, c ≠ '\x7d' :=
      all_mem_append _ _ (by decide) hbr
    have u1 : trim (str "~/" ++ p) = str "~/" ++ p := trim_no_ws _ s1
    have u2 : DefParser.stripQuotesEnds (str "~/" ++ p) = str "~/" ++ p :=
      DefParser.stripQuotesEnds_id _ s2
    have u3 : DefParser.stripPre (str "@\x7b") (str "~/" ++ p) = str "~/" ++ p :=
      DefParser.stripPre_not _ _ (isPrefixOf_false_of_not_mem _ _ '\x7b' (by decide)
        (not_mem_append_ch _ _ (by decide) hlb))
    have u4 : DefParser.stripPre (str "~\x7b") (str "~/" ++ p) = str "~/" ++ p :=
      DefParser.stripPre_not _ _ (isPrefixOf_false_of_not_mem _ _ '\x7b' (by decide)
        (not_mem_append_ch _ _ (by decide) hlb))
    have u5 : DefParser.stripSufBrace (str "~/" ++ p) = str "~/" ++ p :=
      DefParser.stripSufBrace_id _ s3
    have u6 : (str "classpath:").isPrefixOf (str "~/" ++ p) = false :=
      isPrefixOf_false_of_not_mem _ _ ':' (by decide)
        (not_mem_append_ch _ _ (by decide) hcol)
    have u6' : ¬ (str "classpath:") <+: (str "~/" ++ p) := not_prefix_of_eq_false u6
    have u6b : (str "file:").isPrefixOf (str "~/" ++ p) = false :=
      isPrefixOf_false_of_not_mem _ _ ':' (by decide)
        (not_mem_append_ch _ _ (by decide) hcol)
    have u6b' : ¬ (str "file:") <+: (str "~/" ++ p) := not_prefix_of_eq_false u6b
    have u8 : (str "~/" ++ p).drop 2 = p := List.drop_left (str "~/") p
    unfold normalizeRef
    simp [u1, u2, u3, u4, u5, u6, u6', u6b, u6b', u8, e_sl]
  · have hchs : ∀ c ∈ '/' :: p, plainPathCh c := all_mem_cons _ _ (by decide) hch
    have s1 : ∀ c ∈ '/' :: p, wsChar c = false :=
      fun c hc => wsChar_false_of_plain c (hchs c hc)
    have s2 : ∀ c ∈ '/' :: p, quoteChar c = false :=
      fun c hc => quoteChar_false_of_plain c (hchs c hc)
    have s3 : ∀ c ∈ '/' :: p, c ≠ '\x7d' :=
      fun c hc => plainPathCh_ne c (hchs c hc) '\x7d' (by decide)
    have u1 : trim ('/' :: p) = '/' :: p := trim_no_ws _ s1
    have u2 : DefParser.stripQuotesEnds ('/' :: p) = '/' :: p :=
      DefParser.stripQuotesEnds_id _ s2
    have u3 : DefParser.stripPre (str "@\x7b") ('/' :: p) = '/' :: p :=
      DefParser.stripPre_not _ _ (isPrefixOf_false_of_not_mem _ _ '\x7b' (by decide)
        (not_mem_cons_ch _ _ (by decide) hlb))
    have u4 : DefParser.stripPre (str "~\x7b") ('/' :: p) = '/' :: p :=
      DefParser.stripPre_not _ _ (isPrefixOf_false_of_not_mem _ _ '\x7b' (by decide)
        (not_mem_cons_ch _ _ (by decide) hlb))
    have u5 : DefParser.stripSufBrace ('/' :: p) = '/' :: p :=
      DefParser.stripSufBrace_id _ s3
    have u6 : (str "classpath:").isPrefixOf ('/' :: p) = false :=
      isPrefixOf_false_of_not_mem _ _ ':' (by decide)
        (not_mem_cons_ch _ _ (by decide) hcol)
    have u6' : ¬ (str "classpath:") <+: ('/' :: p) := not_prefix_of_eq_false u6
    have u6b : (str "file:").isPrefixOf ('/' :: p) = false :=
      isPrefixOf_false_of_not_mem _ _ ':' (by decide)
        (not_mem_cons_ch _ _ (by decide) hcol)
    have u6b' : ¬ (str "file:") <+: ('/' :: p) := not_prefix_of_eq_false u6b
    have u7 : (str "~/").isPrefixOf ('/' :: p) = false :=
      DefParser.isPrefixOf_cons_false '~' _ '/' _ (by decide)
    have u7' : ¬ (str "~/") <+: ('/' :: p) := not_prefix_of_eq_false u7
    have u8 : DefParser.stripPre ['/'] ('/' :: p) = p :=
      DefParser.stripPre_append ['/'] p
    unfold normalizeRef
    simp [u1, u2, u3, u4, u5, u6, u6', u6b, u6b', u7, u7', u8]
  · have s1 : ∀ c ∈ str "@\x7b" ++ (p ++ ['\x7d']), wsChar c = false :=
      all_mem_append _ _ (by decide) (all_mem_append _ _ hws (by decide))
    have s2 : ∀ c ∈ str "@\x7b" ++ (p ++ ['\x7d']), quoteChar c = false :=
      all_mem_append _ _ (by decide) (all_mem_append _ _ hq (by decide))
    have u1 : trim (str "@\x7b" ++ (p ++ ['\x7d'])) = str "@\x7b" ++ (p ++ ['\x7d']) :=
      trim_no_ws _ s1
    have u2 : DefParser.stripQuotesEnds (str "@\x7b" ++ (p ++ ['\x7d'])) =
        str "@\x7b" ++ (p ++ ['\x7d']) := DefParser.stripQuotesEnds_id _ s2
    have u3 : DefParser.stripPre (str "@\x7b") (str "@\x7b" ++ (p ++ ['\x7d'])) =
        p ++ ['\x7d'] := DefParser.stripPre_append _ _
    have u4 : DefParser.stripPre (str "~\x7b") (p ++ ['\x7d']) = p ++ ['\x7d'] :=
      DefParser.stripPre_not _ _ (isPrefixOf_false_of_not_mem _ _ '~' (by decide)
        (not_mem_append_ch _ _ htil (by decide)))
    have u5 : DefParser.stripSufBrace (p ++ ['\x7d']) = p :=
      DefParser.stripSufBrace_concat _
    unfold normalizeRef
    simp [u1, u2, u3, u4, u5, e_trim, e_cls, e_cls', e_fil, e_fil', e_ts, e_ts',
      e_sl]
  · have s1 : ∀ c ∈ str "~\x7b" ++ (p ++ ['\x7d']), wsChar c = false :=
      all_mem_append _ _ (by decide) (all_mem_append _ _ hws (by decide))
    have s2 : ∀ c ∈ str "~\x7b" ++ (p ++ ['\x7d']), quoteChar c = false :=
      all_mem_append _ _ (by decide) (all_mem_append _ _ hq (by decide))
    have u1 : trim (str "~\x7b" ++ (p ++ ['\x7d'])) = str "~\x7b" ++ (p ++ ['\x7d']) :=
      trim_no_ws _ s1
    have u2 : DefParser.stripQuotesEnds (str "~\x7b" ++ (p ++ ['\x7d'])) =
        str "~\x7b" ++ (p ++ ['\x7d']) := DefParser.stripQuotesEnds_id _ s2
    have u3 : DefParser.stripPre (str "@\x7b") (str "~\x7b" ++ (p ++ ['\x7d'])) =
        str "~\x7b" ++ (p ++ ['\x7d']) :=
      DefParser.stripPre_not _ _ (isPrefixOf_false_of_not_mem _ _ '@' (by decide)
        (not_mem_append_ch _ _ (by decide) (not_mem_append_ch _ _ hat (by decide))))
    have u4 : DefParser.stripPre (str "~\x7b") (str "~\x7b" ++ (p ++ ['\x7d'])) =
        p ++ ['\x7d'] := DefParser.stripPre_append _ _
    have u5 : DefParser.stripSufBrace (p ++ ['\x7d']) = p :=
      DefParser.stripSufBrace_concat _
    unfold normalizeRef
    simp [u1, u2, u3, u4, u5, e_trim, e_cls, e_cls', e_fil, e_fil', e_ts, e_ts',
      e_sl]
  · have u1 : trim ('\"' :: (p ++ ['\"'])) = '\"' :: (p ++ ['\"']) :=
      trim_no_ws _ (all_mem_cons _ _ (by decide) (all_mem_append _ _ hws (by decide)))
    have u2 : DefParser.stripQuotesEnds ('\"' :: (p ++ ['\"'])) = p :=
      DefParser.stripQuotesEnds_wrap _
    unfold normalizeRef
    simp [u1, u2, e_at, e_tl, e_sb, e_trim, e_cls, e_cls', e_fil, e_fil', e_ts,
      e_ts', e_sl]

end Thymelab.ParsersDefParser

namespace Thymelab

/-- C7: the path extraction of the parsers-directory definition parser
normalizes away every reference decoration — surrounding quotes, the
`@\x7b...\x7d` and `~\x7b...\x7d` wrappers, a leading `/`, the
`classpath:` and `file:` resolver prefixes and the context-relative `~/`
prefix: for every plain path, the decorated reference yields the same bare
path as the undecorated reference; in particular
`classpath:fragments/header` yields the path `fragments/header`. -/
theorem c7_resolver_prefixes_stripped :
    (∀ p : Str, p ≠ [] → (∀ c ∈ p, plainPathCh c) → p.head? ≠ some '/' →
      ParsersDefParser.extractPathFromReference p = some p ∧
      ParsersDefParser.extractPathFromReference (str "classpath:" ++ p) = some p ∧
      ParsersDefParser.extractPathFromReference (str "file:" ++ p) = some p ∧
      ParsersDefParser.extractPathFromReference (str "~/" ++ p) = some p ∧
      ParsersDefParser.extractPathFromReference ('/' :: p) = some p ∧
      ParsersDefParser.extractPathFromReference (str "@\x7b" ++ (p ++ ['\x7d'])) = some p ∧
      ParsersDefParser.extractPathFromReference (str "~\x7b" ++ (p ++ ['\x7d'])) = some p ∧
      ParsersDefParser.extractPathFromReference ('\"' :: (p ++ ['\"'])) = some p) ∧
    ParsersDefParser.extractPathFromReference (str "classpath:fragments/header") =
      some (str "fragments/header") := by
  constructor
  · intro p h1 h2 h3
    obtain ⟨n1, n2, n3, n4, n5, n6, n7, n8⟩ :=
      ParsersDefParser.normalizeRef_variants p h1 h2 h3
    have ht := ParsersDefParser.extractPathTail_plain p h1 h2
    refine ⟨?_, ?_, ?_, ?_, ?_, ?_, ?_, ?_⟩
    · unfold ParsersDefParser.extractPathFromReference
      rw [if_neg h1, n1, ht]
    · unfold ParsersDefParser.extractPathFromReference
      rw [if_neg (ne_nil_of_head (str "classpath:" ++ p) 'c' rfl), n2, ht]
    · unfold ParsersDefParser.extractPathFromReference
      rw [if_neg (ne_nil_of_head (str "file:" ++ p) 'f' rfl), n3, ht]
    · unfold ParsersDefParser.extractPathFromReference
      rw [if_neg (ne_nil_of_head (str "~/" ++ p) '~' rfl), n4, ht]
    · unfold ParsersDefParser.extractPathFromReference
      rw [if_neg (ne_nil_of_head ('/' :: p) '/' rfl), n5, ht]
    · unfold ParsersDefParser.extractPathFromReference
      rw [if_neg (ne_nil_of_head (str "@\x7b" ++ (p ++ ['\x7d'])) '@' rfl), n6, ht]
    · unfold ParsersDefParser.extractPathFromReference
      rw [if_neg (ne_nil_of_head (str "~\x7b" ++ (p ++ ['\x7d'])) '~' rfl), n7, ht]
    · unfold ParsersDefParser.extractPathFromReference
      rw [if_neg (ne_nil_of_head ('\"' :: (p ++ ['\"'])) '\"' rfl), n8, ht]
  · decide

/-- Witness for C7 at the resolver-prefix example. -/
theorem c7_resolver_prefixes_stripped_witness :
    ParsersDefParser.extractPathFromReference (str "~/" ++ str "fragments/header") =
      some (str "fragments/header") :=
  (c7_resolver_prefixes_stripped.1 (str "fragments/header") (by decide) (by decide)
    (by decide)).2.2.2.1

end Thymelab

namespace Thymelab

theorem ws_false_of_itemCh (c : Char) (h : itemCh c = true) : wsChar c = false := by
  unfold itemCh at h
  cases hw : wsChar c
  · rfl
  · rw [hw] at h
    simp at h

theorem ws_false_of_statCh (c : Char) (h : statCh c = true) : wsChar c = false := by
  unfold statCh at h
  cases hw : wsChar c
  · rfl
  · rw [hw] at h
    simp at h

theorem dropWhile_append_head (p : Char → Bool) (xs ys : Str) (hne : xs ≠ [])
    (hx : ∀ c ∈ xs, p c = false) : (xs ++ ys).dropWhile p = xs ++ ys := by
  match xs, hne with
  | c :: cs, _ => simp [List.dropWhile, hx c (by simp)]

theorem matchEachAt_none_of_not_t (c : Char) (cs : Str) (h : c ≠ 't') :
    matchEachAt (c :: cs) = none := by
  have hp : eachLit.isPrefixOf (c :: cs) = false :=
    DefParser.isPrefixOf_cons_false 't' _ c _ (Ne.symm h)
  have hp' : ¬ eachLit <+: (c :: cs) := not_prefix_of_eq_false hp
  unfold matchEachAt
  simp [hp, hp']

theorem scanEachGo_nil_of_no_t (fuel : Nat) (s : Str) (h : ∀ c ∈ s, c ≠ 't') :
    scanEachGo fuel s = [] := by
  induction fuel generalizing s with
  | zero => rfl
  | succ f ih =>
    cases s with
    | nil => rfl
    | cons c cs =>
      rw [scanEachGo, matchEachAt_none_of_not_t c cs (h c (by simp))]
      exact ih cs (fun d hd => h d (by simp [hd]))

theorem scanEachGo_skip (pre : Str) (fuel : Nat) (s : Str)
    (h : ∀ c ∈ pre, c ≠ 't') :
    scanEachGo (pre.length + fuel) (pre ++ s) = scanEachGo fuel s := by
  induction pre with
  | nil => simp
  | cons c cs ih =>
    rw [show (c :: cs).length + fuel = (cs.length + fuel) + 1 by
      simp only [List.length_cons]
      omega]
    rw [List.cons_append, scanEachGo,
      matchEachAt_none_of_not_t c (cs ++ s) (h c (by simp))]
    exact ih (fun d hd => h d (by simp [hd]))

theorem scanEachGo_cons_match (fuel : Nat) (c : Char) (cs : Str) (item : Str)
    (stat : Option Str) (coll rest : Str)
    (hm : matchEachAt (c :: cs) = some (item, stat, coll, rest)) :
    scanEachGo (fuel + 1) (c :: cs) = (item, stat, coll) :: scanEachGo fuel rest := by
  rw [scanEachGo, hm]

theorem matchEachTail_eval (coll rest : Str) (hcoll : ∀ c ∈ coll, collCh c = true)
    (hcne : coll ≠ []) :
    matchEachTail (' ' :: ':' :: ' ' :: '$' :: '\x7b' ::
      (coll ++ ('\x7d' :: '\"' :: rest))) = some (coll, rest) := by
  have d1 : (' ' :: ':' :: ' ' :: '$' :: '\x7b' ::
      (coll ++ ('\x7d' :: '\"' :: rest))).dropWhile wsChar =
      ':' :: ' ' :: '$' :: '\x7b' :: (coll ++ ('\x7d' :: '\"' :: rest)) := by
    simp [List.dropWhile_cons, wsChar]
  have d2 : (' ' :: '$' :: '\x7b' :: (coll ++ ('\x7d' :: '\"' :: rest))).dropWhile
      wsChar = '$' :: '\x7b' :: (coll ++ ('\x7d' :: '\"' :: rest)) := by
    simp [List.dropWhile_cons, wsChar]
  have etk : (coll ++ ('\x7d' :: '\"' :: rest)).takeWhile collCh = coll :=
    takeWhile_append_not _ _ '\x7d' _ hcoll (by decide)
  have edr : (coll ++ ('\x7d' :: '\"' :: rest)).dropWhile collCh =
      '\x7d' :: '\"' :: rest :=
    dropWhile_append_not _ _ '\x7d' _ hcoll (by decide)
  unfold matchEachTail
  simp [d1, d2, etk, edr, hcne]

theorem matchEachAt_with_stat (item stat coll rest : Str)
    (hitem : ∀ c ∈ item, itemCh c = true) (hine : item ≠ [])
    (hstat : ∀ c ∈ stat, statCh c = true) (hsne : stat ≠ [])
    (hcoll : ∀ c ∈ coll, collCh c = true) (hcne : coll ≠ []) :
    matchEachAt (eachLit ++ (item ++ (',' :: ' ' :: (stat ++
      (' ' :: ':' :: ' ' :: '$' :: '\x7b' ::
        (coll ++ ('\x7d' :: '\"' :: rest))))))) =
      some (item, some stat, coll, rest) := by
  have hpre : eachLit.isPrefixOf (eachLit ++ (item ++ (',' :: ' ' :: (stat ++
      (' ' :: ':' :: ' ' :: '$' :: '\x7b' ::
        (coll ++ ('\x7d' :: '\"' :: rest))))))) = true := isPrefixOf_append_self _ _
  have hpre' := List.prefix_append eachLit (item ++ (',' :: ' ' :: (stat ++
      (' ' :: ':' :: ' ' :: '$' :: '\x7b' :: (coll ++ ('\x7d' :: '\"' :: rest))))))
  have e0 : (eachLit ++ (item ++ (',' :: ' ' :: (stat ++
      (' ' :: ':' :: ' ' :: '$' :: '\x7b' ::
        (coll ++ ('\x7d' :: '\"' :: rest))))))).drop 9 =
      item ++ (',' :: ' ' :: (stat ++ (' ' :: ':' :: ' ' :: '$' :: '\x7b' ::
        (coll ++ ('\x7d' :: '\"' :: rest))))) := List.drop_left eachLit _
  have e1 : (item ++ (',' :: ' ' :: (stat ++ (' ' :: ':' :: ' ' :: '$' :: '\x7b' ::
      (coll ++ ('\x7d' :: '\"' :: rest)))))).takeWhile itemCh = item :=
    takeWhile_append_not _ _ ',' _ hitem (by decide)
  have e2 : (item ++ (',' :: ' ' :: (stat ++ (' ' :: ':' :: ' ' :: '$' :: '\x7b' ::
      (coll ++ ('\x7d' :: '\"' :: rest)))))).dropWhile itemCh =
      ',' :: ' ' :: (stat ++ (' ' :: ':' :: ' ' :: '$' :: '\x7b' ::
        (coll ++ ('\x7d' :: '\"' :: rest)))) :=
    dropWhile_append_not _ _ ',' _ hitem (by decide)
  have d1 : (',' :: ' ' :: (stat ++ (' ' :: ':' :: ' ' :: '$' :: '\x7b' ::
      (coll ++ ('\x7d' :: '\"' :: rest))))).dropWhile wsChar =
      ',' :: ' ' :: (stat ++ (' ' :: ':' :: ' ' :: '$' :: '\x7b' ::
        (coll ++ ('\x7d' :: '\"' :: rest)))) := by
    simp [List.dropWhile_cons, wsChar]
  have d2 : (' ' :: (stat ++ (' ' :: ':' :: ' ' :: '$' :: '\x7b' ::
      (coll ++ ('\x7d' :: '\"' :: rest))))).dropWhile wsChar =
      stat ++ (' ' :: ':' :: ' ' :: '$' :: '\x7b' ::
        (coll ++ ('\x7d' :: '\"' :: rest))) := by
    have hh := dropWhile_append_head wsChar stat
      (' ' :: ':' :: ' ' :: '$' :: '\x7b' :: (coll ++ ('\x7d' :: '\"' :: rest)))
      hsne (fun c hc => ws_false_of_statCh c (hstat c hc))
    simp [List.dropWhile_cons, wsChar, hh]
  have e3 : (stat ++ (' ' :: ':' :: ' ' :: '$' :: '\x7b' ::
      (coll ++ ('\x7d' :: '\"' :: rest)))).takeWhile statCh = stat :=
    takeWhile_append_not _ _ ' ' _ hstat (by decide)
  have e4 : (stat ++ (' ' :: ':' :: ' ' :: '$' :: '\x7b' ::
      (coll ++ ('\x7d' :: '\"' :: rest)))).dropWhile statCh =
      ' ' :: ':' :: ' ' :: '$' :: '\x7b' :: (coll ++ ('\x7d' :: '\"' :: rest)) :=
    dropWhile_append_not _ _ ' ' _ hstat (by decide)
  have etail := matchEachTail_eval coll rest hcoll hcne
  unfold matchEachAt
  simp [hpre, hpre', e0, e1, e2, d1, d2, e3, e4, etail, hine, hsne]

theorem matchEachAt_no_stat (item coll rest : Str)
    (hitem : ∀ c ∈ item, itemCh c = true) (hine : item ≠ [])
    (hcoll : ∀ c ∈ coll, collCh c = true) (hcne : coll ≠ []) :
    matchEachAt (eachLit ++ (item ++ (' ' :: ':' :: ' ' :: '$' :: '\x7b' ::
      (coll ++ ('\x7d' :: '\"' :: rest))))) = some (item, none, coll, rest) := by
  have hpre : eachLit.isPrefixOf (eachLit ++ (item ++
      (' ' :: ':' :: ' ' :: '$' :: '\x7b' ::
        (coll ++ ('\x7d' :: '\"' :: rest))))) = true := isPrefixOf_append_self _ _
  have hpre' := List.prefix_append eachLit (item ++
      (' ' :: ':' :: ' ' :: '$' :: '\x7b' :: (coll ++ ('\x7d' :: '\"' :: rest))))
  have e0 : (eachLit ++ (item ++ (' ' :: ':' :: ' ' :: '$' :: '\x7b' ::
      (coll ++ ('\x7d' :: '\"' :: rest))))).drop 9 =
      item ++ (' ' :: ':' :: ' ' :: '$' :: '\x7b' ::
        (coll ++ ('\x7d' :: '\"' :: rest))) := List.drop_left eachLit _
  have e1 : (item ++ (' ' :: ':' :: ' ' :: '$' :: '\x7b' ::
      (coll ++ ('\x7d' :: '\"' :: rest)))).takeWhile itemCh = item :=
    takeWhile_append_not _ _ ' ' _ hitem (by decide)
  have e2 : (item ++ (' ' :: ':' :: ' ' :: '$' :: '\x7b' ::
      (coll ++ ('\x7d' :: '\"' :: rest)))).dropWhile itemCh =
      ' ' :: ':' :: ' ' :: '$' :: '\x7b' :: (coll ++ ('\x7d' :: '\"' :: rest)) :=
    dropWhile_append_not _ _ ' ' _ hitem (by decide)
  have d0 : (' ' :: ':' :: ' ' :: '$' :: '\x7b' ::
      (coll ++ ('\x7d' :: '\"' :: rest))).dropWhile wsChar =
      ':' :: ' ' :: '$' :: '\x7b' :: (coll ++ ('\x7d' :: '\"' :: rest)) := by
    simp [List.dropWhile_cons, wsChar]
  have etail := matchEachTail_eval coll rest hcoll hcne
  unfold matchEachAt
  simp [hpre, hpre', e0, e1, e2, d0, etail, hine]

theorem scanEach_single (pre X : Str) (item : Str) (stat : Option Str)
    (coll post : Str)
    (hpre : ∀ c ∈ pre, c ≠ 't') (hpost : ∀ c ∈ post, c ≠ 't')
    (hm : matchEachAt (eachLit ++ X) = some (item, stat, coll, post)) :
    scanEach (pre ++ (eachLit ++ X)) = [(item, stat, coll)] := by
  unfold scanEach
  rw [show (pre ++ (eachLit ++ X)).length = pre.length + ((8 + X.length) + 1) by
    simp only [List.length_append]
    rw [show eachLit.length = 9 from rfl]
    omega]
  rw [scanEachGo_skip pre ((8 + X.length) + 1) _ hpre]
  have hm2 : matchEachAt ('t' :: (str "h:each=\"" ++ X)) =
      some (item, stat, coll, post) := hm
  have hstep := scanEachGo_cons_match (8 + X.length) 't' (str "h:each=\"" ++ X)
    item stat coll post hm2
  rw [show scanEachGo ((8 + X.length) + 1) (eachLit ++ X) =
      (item, stat, coll) :: scanEachGo (8 + X.length) post from hstep,
    scanEachGo_nil_of_no_t (8 + X.length) post hpost]

/-- C2: a `th:each="item, stat : $\x7bcollection\x7d"` binding registers the
item variable (and the status variable when present) in `iteratorVars`,
maps the item variable to the collection in `parentVars`, and maps the
status variable to the same collection in `statVars`; without a status
variable only the item variable is registered and `statVars` stays empty —
proved as the exact result on any line consisting of such a binding
between text without further matches, plus the spec's concrete example. -/
theorem c2_iterator_binding :
    (∀ pre post item stat coll : Str,
      (∀ c ∈ pre, c ≠ 't') → (∀ c ∈ post, c ≠ 't') →
      (∀ c ∈ item, itemCh c = true) → item ≠ [] →
      (∀ c ∈ stat, statCh c = true) → stat ≠ [] →
      (∀ c ∈ coll, collCh c = true) → (∀ c ∈ coll, wsChar c = false) →
      coll ≠ [] → item ≠ stat →
      findIteratorVariables (pre ++ (eachLit ++ (item ++ (',' :: ' ' :: (stat ++
          (' ' :: ':' :: ' ' :: '$' :: '\x7b' ::
            (coll ++ ('\x7d' :: '\"' :: post)))))))) =
        ⟨[item, stat], [(item, coll)], [(stat, coll)]⟩) ∧
    (∀ pre post item coll : Str,
      (∀ c ∈ pre, c ≠ 't') → (∀ c ∈ post, c ≠ 't') →
      (∀ c ∈ item, itemCh c = true) → item ≠ [] →
      (∀ c ∈ coll, collCh c = true) → (∀ c ∈ coll, wsChar c = false) →
      coll ≠ [] →
      findIteratorVariables (pre ++ (eachLit ++ (item ++
          (' ' :: ':' :: ' ' :: '$' :: '\x7b' ::
            (coll ++ ('\x7d' :: '\"' :: post)))))) =
        ⟨[item], [(item, coll)], []⟩) ∧
    findIteratorVariables (str "<li th:each=\"item : $\x7bitems\x7d\">") =
      ⟨[str "item"], [(str "item", str "items")], []⟩ := by
  refine ⟨?_, ?_, by decide⟩
  · intro pre post item stat coll h1 h2 h3 h4 h5 h6 h7 h8 h9 h10
    have hm := matchEachAt_with_stat item stat coll post h3 h4 h5 h6 h7 h9
    have hscan := scanEach_single pre _ item (some stat) coll post h1 h2 hm
    have t_item : trim item = item :=
      trim_no_ws _ (fun c hc => ws_false_of_itemCh c (h3 c hc))
    have t_stat : trim stat = stat :=
      trim_no_ws _ (fun c hc => ws_false_of_statCh c (h5 c hc))
    have t_coll : trim coll = coll := trim_no_ws _ h8
    have hsi : stat ∉ [item] := by
      simp only [List.mem_singleton]
      exact fun he => h10 he.symm
    have hsi2 : ¬stat = item := fun he => h10 he.symm
    unfold findIteratorVariables
    rw [hscan]
    simp [addVar, mapSet, t_item, t_stat, t_coll, hsi, hsi2]
  · intro pre post item coll h1 h2 h3 h4 h5 h6 h7
    have hm := matchEachAt_no_stat item coll post h3 h4 h5 h7
    have hscan := scanEach_single pre _ item none coll post h1 h2 hm
    have t_item : trim item = item :=
      trim_no_ws _ (fun c hc => ws_false_of_itemCh c (h3 c hc))
    have t_coll : trim coll = coll := trim_no_ws _ h6
    unfold findIteratorVariables
    rw [hscan]
    simp [addVar, mapSet, t_item, t_coll]

/-- Witness for C2 on a concrete binding with a status variable. -/
theorem c2_iterator_binding_witness :
    findIteratorVariables (str "<div " ++ (eachLit ++ (str "item" ++ (',' :: ' ' ::
        (str "stat" ++ (' ' :: ':' :: ' ' :: '$' :: '\x7b' ::
          (str "items" ++ ('\x7d' :: '\"' :: str ">")))))))) =
      ⟨[str "item", str "stat"], [(str "item", str "items")],
        [(str "stat", str "items")]⟩ :=
  c2_iterator_binding.1 (str "<div ") (str ">") (str "item") (str "stat")
    (str "items") (by decide) (by decide) (by decide) (by decide) (by decide)
    (by decide) (by decide) (by decide) (by decide) (by decide)

end Thymelab

namespace Thymelab

theorem foldl_pres {α β : Type} (P : β → Prop) (f : β → α → β) (l : List α)
    (hf : ∀ b a, a ∈ l → P b → P (f b a)) :
    ∀ b, P b → P (l.foldl f b) := by
  induction l with
  | nil => intro b h; exact h
  | cons x xs ih =>
    intro b h
    simp only [List.foldl_cons]
    exact ih (fun b a ha hb => hf b a (by simp [ha]) hb) (f b x) (hf b x (by simp) h)

theorem addVar_pres (x : Str) (vs : List Str) (hx : isValidVariable x = true)
    (h : ∀ v ∈ vs, isValidVariable v = true) :
    ∀ v ∈ addVar x vs, isValidVariable v = true :=
  fun v hv => (addVar_mem_of v x vs hv).elim (h v) (fun he => he ▸ hx)

theorem addVar_ite_pres (x : Str) (vs : List Str)
    (h : ∀ v ∈ vs, isValidVariable v = true) :
    ∀ v ∈ (if isValidVariable x then addVar x vs else vs),
      isValidVariable v = true := by
  by_cases hx : isValidVariable x = true
  · rw [if_pos hx]
    exact addVar_pres x vs hx h
  · rw [if_neg hx]
    exact h

theorem chainFold_valid (rest : List Str) :
    ∀ (c : Str) (vs : List Str), (∀ v ∈ vs, isValidVariable v = true) →
      ∀ v ∈ (rest.foldl
          (fun (st : Str × List Str) p =>
            let chain := st.1 ++ '.' :: p
            (chain, if isValidVariable chain then addVar chain st.2 else st.2))
          (c, vs)).2, isValidVariable v = true := by
  induction rest with
  | nil => intro c vs h; exact h
  | cons p ps ih =>
    intro c vs h v hv
    refine ih (c ++ '.' :: p)
      (if isValidVariable (c ++ '.' :: p) then addVar (c ++ '.' :: p) vs else vs)
      ?_ v ?_
    · intro w hw
      by_cases hval : isValidVariable (c ++ '.' :: p) = true
      · rw [if_pos hval] at hw
        exact (addVar_mem_of w _ vs hw).elim (h w) (fun he => he ▸ hval)
      · rw [if_neg hval] at hw
        exact h w hw
    · exact hv

theorem avwp_pres (x : Str) (vs : List Str)
    (h : ∀ v ∈ vs, isValidVariable v = true) :
    ∀ v ∈ addVariableWithParts x vs, isValidVariable v = true := by
  unfold addVariableWithParts
  split
  · exact h
  · rename_i hc
    have hx : isValidVariable x = true := by
      cases hxx : isValidVariable x
      · exact absurd (by simp [hxx]) hc
      · rfl
    split
    · exact h
    · exact addVar_pres x vs hx h
    · split
      · rename_i hp0
        exact chainFold_valid _ _ (addVar _ vs) (addVar_pres _ vs hp0 h)
      · exact h

theorem hpc_pres (baseVar : Str) (vs : List Str)
    (h : ∀ v ∈ vs, isValidVariable v = true) :
    ∀ v ∈ handlePropertyChain baseVar vs, isValidVariable v = true := by
  unfold handlePropertyChain
  split
  · exact h
  · split
    · rename_i hp0
      exact chainFold_valid _ _ (addVar _ vs) (addVar_pres _ vs hp0 h)
    · exact h

theorem hosc_pres (e : Str) (vs : List Str)
    (h : ∀ v ∈ vs, isValidVariable v = true) :
    ∀ v ∈ handleOperatorSidesComp e vs, isValidVariable v = true := by
  unfold handleOperatorSidesComp
  exact foldl_pres (fun vs => ∀ v ∈ vs, isValidVariable v = true) _ _
    (fun b a _ hb => addVar_ite_pres a b hb) vs h

theorem hosa_pres (e : Str) (vs : List Str)
    (h : ∀ v ∈ vs, isValidVariable v = true) :
    ∀ v ∈ handleOperatorSidesArith e vs, isValidVariable v = true := by
  unfold handleOperatorSidesArith
  exact foldl_pres (fun vs => ∀ v ∈ vs, isValidVariable v = true) _ _
    (fun b a _ hb => addVar_ite_pres a b hb) vs h

theorem emp_pres (params : Str) (vs : List Str)
    (h : ∀ v ∈ vs, isValidVariable v = true) :
    ∀ v ∈ extractMethodParameters params vs, isValidVariable v = true := by
  unfold extractMethodParameters
  refine foldl_pres (fun vs => ∀ v ∈ vs, isValidVariable v = true) _ _ ?_ vs h
  intro b a _ hb v hv
  split at hv
  · exact hb v hv
  · split at hv
    · exact avwp_pres a b hb v hv
    · exact hb v hv

theorem hmc_pres (fullMatch baseVar : Str) (vs : List Str)
    (h : ∀ v ∈ vs, isValidVariable v = true) :
    ∀ v ∈ handleMethodCall fullMatch baseVar vs, isValidVariable v = true := by
  simp only [handleMethodCall]
  intro v hv
  have h1 := hpc_pres baseVar vs h
  have h2 : ∀ w ∈ (if (fullMatch.takeWhile (fun c => c ≠ '(')).any (fun c => c = '.')
      then addVariableWithParts (fullMatch.takeWhile (fun c => c ≠ '('))
        (handlePropertyChain baseVar vs)
      else handlePropertyChain baseVar vs), isValidVariable w = true := by
    split
    · exact avwp_pres _ _ h1
    · exact h1
  split at hv
  · split at hv
    · exact emp_pres _ _ h2 v hv
    · exact h2 v hv
  · exact h2 v hv

theorem empv_pres (mc : Nat) (e : Str) (vs : List Str)
    (h : ∀ v ∈ vs, isValidVariable v = true) :
    ∀ v ∈ extractMethodAndPropertyVariables mc e vs, isValidVariable v = true := by
  simp only [extractMethodAndPropertyVariables]
  have h1 : ∀ w ∈ (scanMethodCalls (e.drop mc)).foldl
      (fun vs fm => handleMethodCall fm.1 fm.2 vs) vs, isValidVariable w = true :=
    foldl_pres (fun vs => ∀ v ∈ vs, isValidVariable v = true) _ _
      (fun b a _ hb => hmc_pres a.1 a.2 b hb) vs h
  intro v hv
  split at hv
  · exact h1 v hv
  · exact hpc_pres e _ h1 v hv

end Thymelab

namespace Thymelab

theorem qfilterBlock_pres (fuel mc : Nat) (e : Str)
    (ihC : ∀ mc e vars, (∀ v ∈ vars, isValidVariable v = true) →
      ∀ v ∈ extractComplexGo fuel mc e vars, isValidVariable v = true) :
    ∀ v ∈ (if occursIn (str "?[") e then
        match reBaseBeforeFilter e with
        | some base => extractMethodAndPropertyVariables mc (trim base)
            (match reFilterBody e with
             | some b => if b ≠ [] then extractComplexGo fuel mc (trim b) [] else []
             | none => [])
        | none =>
            match reFilterBody e with
            | some b => if b ≠ [] then extractComplexGo fuel mc (trim b) [] else []
            | none => []
      else []), isValidVariable v = true := by
  intro v hv
  split at hv
  · split at hv
    · refine empv_pres mc _ _ ?_ v hv
      intro w hw
      split at hw
      · split at hw
        · exact ihC _ _ _ (by simp) w hw
        · simp at hw
      · simp at hw
    · split at hv
      · split at hv
        · exact ihC _ _ _ (by simp) v hv
        · simp at hv
      · simp at hv
  · simp at hv

theorem vcont_pres (fuel mc : Nat) (e : Str) (V0 : List Str)
    (hV0 : ∀ v ∈ V0, isValidVariable v = true)
    (ihC : ∀ mc e vars, (∀ v ∈ vars, isValidVariable v = true) →
      ∀ v ∈ extractComplexGo fuel mc e vars, isValidVariable v = true) :
    ∀ v ∈ (if e.any (fun c => c = '?') then
        let condition := e.takeWhile (fun c => c ≠ '?')
        let vars := extractComplexGo fuel mc (trim condition) V0
        let rest := (e.dropWhile (fun c => c ≠ '?')).tail
        let truePart := rest.takeWhile (fun c => c ≠ ':')
        let vars :=
          if truePart ≠ [] then extractComplexGo fuel mc (trim truePart) vars else vars
        let vars :=
          if rest.any (fun c => c = ':') then
            let fp := ((rest.dropWhile (fun c => c ≠ ':')).tail).takeWhile (fun c => c ≠ ':')
            if fp ≠ [] then extractComplexGo fuel mc (trim fp) vars else vars
          else vars
        vars.filter (fun v => !isLogicalOperator v)
      else
        let cleanExpr := cleanExpression e
        let vars :=
          if cleanExpr.any arithCh then
            ((splitOnPred arithCh cleanExpr).map trim).foldl
              (fun vs t => if isValidVariable t then addVariableWithParts t vs else vs)
              V0
          else V0
        let groups := (parenSplit cleanExpr).1
        let withoutParens := (parenSplit cleanExpr).2
        let vars := groups.foldl (fun vs g => extractComplexGo fuel mc g vs) vars
        let vars := (splitAndOr withoutParens).foldl
          (fun vs part =>
            let cleanPart := trim part
            if cleanPart = [] then vs
            else if cleanPart.any compCh then
              let sides := (splitCompRuns cleanPart).map trim
              let vs :=
                match sides.head? with
                | some l => if isValidVariable l then addVar l vs else vs
                | none => vs
              match sides.tail.head? with
              | some r => if isValidVariable r then addVar r vs else vs
              | none => vs
            else if cleanPart.any arithCh then
              ((splitOnPred arithCh cleanPart).map trim).foldl
                (fun a p => if isValidVariable p then addVar p a else a) vs
            else if cleanPart.any (fun c => c = '.') then
              extractMethodAndPropertyVariables mc cleanPart vs
            else if isValidVariable cleanPart then addVar cleanPart vs
            else vs)
          vars
        let vars :=
          if cleanExpr.any (fun c => c = '.') then
            extractMethodAndPropertyVariables mc cleanExpr vars
          else vars
        let vars := if isValidVariable cleanExpr then addVar cleanExpr vars else vars
        vars.filter (fun v => !isLogicalOperator v)),
      isValidVariable v = true := by
  intro v hv
  split at hv
  · -- ternary branch
    simp only [List.mem_filter] at hv
    have hv2 := hv.1
    split at hv2
    · split at hv2
      · refine ihC _ _ _ ?_ v hv2
        intro w hw
        split at hw
        · refine ihC _ _ _ ?_ w hw
          intro u hu
          exact ihC _ _ _ hV0 u hu
        · exact ihC _ _ _ hV0 w hw
      · split at hv2
        · refine ihC _ _ _ ?_ v hv2
          intro u hu
          exact ihC _ _ _ hV0 u hu
        · exact ihC _ _ _ hV0 v hv2
    · split at hv2
      · refine ihC _ _ _ ?_ v hv2
        intro u hu
        exact ihC _ _ _ hV0 u hu
      · exact ihC _ _ _ hV0 v hv2
  · -- plain branch
    simp only [List.mem_filter] at hv
    have hv2 := hv.1
    refine addVar_ite_pres _ _ ?_ v hv2
    intro w hw
    split at hw
    · refine empv_pres mc _ _ ?_ w hw
      intro u hu
      refine foldl_pres (fun vs => ∀ z ∈ vs, isValidVariable z = true) _ _ ?_ _ ?_ u hu
      · intro b a _ hb z hz
        simp only [] at hz
        split at hz
        · exact hb z hz
        · split at hz
          · split at hz
            · refine addVar_ite_pres _ _ ?_ z hz
              intro y hy
              split at hy
              · exact addVar_ite_pres _ _ hb y hy
              · exact hb y hy
            · split at hz
              · exact addVar_ite_pres _ _ hb z hz
              · exact hb z hz
          · split at hz
            · exact foldl_pres (fun vs => ∀ y ∈ vs, isValidVariable y = true)
                _ _ (fun b2 a2 _ hb2 => addVar_ite_pres a2 b2 hb2) _ hb z hz
            · split at hz
              · exact empv_pres mc _ _ hb z hz
              · exact addVar_ite_pres _ _ hb z hz
      · refine foldl_pres (fun vs => ∀ z ∈ vs, isValidVariable z = true) _ _
          (fun b a _ hb => ihC mc a b hb) _ ?_
        intro z hz
        split at hz
        · refine foldl_pres (fun vs => ∀ y ∈ vs, isValidVariable y = true) _ _
            ?_ _ hV0 z hz
          intro b2 a2 _ hb2 y hy
          split at hy
          · exact avwp_pres a2 b2 hb2 y hy
          · exact hb2 y hy
        · exact hV0 z hz
    · refine foldl_pres (fun vs => ∀ z ∈ vs, isValidVariable z = true) _ _ ?_ _ ?_ w hw
      · intro b a _ hb z hz
        simp only [] at hz
        split at hz
        · exact hb z hz
        · split at hz
          · split at hz
            · refine addVar_ite_pres _ _ ?_ z hz
              intro y hy
              split at hy
              · exact addVar_ite_pres _ _ hb y hy
              · exact hb y hy
            · split at hz
              · exact addVar_ite_pres _ _ hb z hz
              · exact hb z hz
          · split at hz
            · exact foldl_pres (fun vs => ∀ y ∈ vs, isValidVariable y = true)
                _ _ (fun b2 a2 _ hb2 => addVar_ite_pres a2 b2 hb2) _ hb z hz
            · split at hz
              · exact empv_pres mc _ _ hb z hz
              · exact addVar_ite_pres _ _ hb z hz
      · refine foldl_pres (fun vs => ∀ z ∈ vs, isValidVariable z = true) _ _
          (fun b a _ hb => ihC mc a b hb) _ ?_
        intro z hz
        split at hz
        · refine foldl_pres (fun vs => ∀ y ∈ vs, isValidVariable y = true) _ _
            ?_ _ hV0 z hz
          intro b2 a2 _ hb2 y hy
          split at hy
          · exact avwp_pres a2 b2 hb2 y hy
          · exact hb2 y hy
        · exact hV0 z hz

theorem extract_valid (fuel : Nat) :
    (∀ mc e v, v ∈ extractVariablesGo fuel mc e → isValidVariable v = true) ∧
    (∀ mc e vars, (∀ v ∈ vars, isValidVariable v = true) →
      ∀ v ∈ extractComplexGo fuel mc e vars, isValidVariable v = true) ∧
    (∀ mc e vars, (∀ v ∈ vars, isValidVariable v = true) →
      ∀ v ∈ extractUtilityGo fuel mc e vars, isValidVariable v = true) := by
  induction fuel with
  | zero =>
    refine ⟨?_, ?_, ?_⟩
    · intro mc e v hv
      simp [extractVariablesGo] at hv
    · intro mc e vars h v hv
      rw [extractComplexGo] at hv
      exact h v hv
    · intro mc e vars h v hv
      rw [extractUtilityGo] at hv
      exact h v hv
  | succ fuel ih =>
    obtain ⟨ihV, ihC, ihU⟩ := ih
    refine ⟨?_, ?_, ?_⟩
    · -- extractVariablesGo
      intro mc e v hv
      rw [extractVariablesGo] at hv
      split at hv
      · exact ihU mc e [] (by simp) v hv
      · exact vcont_pres fuel mc e _ (qfilterBlock_pres fuel mc e ihC) ihC v hv
    · -- extractComplexGo
      intro mc e vars h v hv
      simp only [extractComplexGo] at hv
      refine foldl_pres (fun vs => ∀ w ∈ vs, isValidVariable w = true) _ _
        ?_ _ ?_ v hv
      · intro b a _ hb z hz
        simp only [] at hz
        split at hz
        · exact hb z hz
        · split at hz
          · exact hosc_pres _ _ hb z hz
          · split at hz
            · exact hosa_pres _ _ hb z hz
            · split at hz
              · exact empv_pres mc _ _ hb z hz
              · exact addVar_ite_pres _ _ hb z hz
      · refine foldl_pres (fun vs => ∀ w ∈ vs, isValidVariable w = true) _ _
          ?_ _ h
        intro b a _ hb
        exact foldl_pres (fun vs => ∀ w ∈ vs, isValidVariable w = true) _ _
          (fun b2 a2 ha2 hb2 => addVar_pres a2 b2 (ihV mc a a2 ha2) hb2) b hb
    · -- extractUtilityGo
      intro mc e vars h v hv
      simp only [extractUtilityGo] at hv
      split at hv
      · exact avwp_pres _ _ h v hv
      · split at hv
        · exact avwp_pres _ _ h v hv
        · split at hv
          · split at hv
            · split at hv
              · split at hv
                · refine ihC _ _ _ ?_ v hv
                  intro w hw
                  split at hw
                  · exact empv_pres _ _ _ h w hw
                  · exact h w hw
                · split at hv
                  · exact empv_pres _ _ _ h v hv
                  · exact h v hv
              · split at hv
                · exact empv_pres _ _ _ h v hv
                · exact h v hv
            · exact empv_pres _ _ _ h v hv
          · split at hv
            · split at hv
              · exact avwp_pres _ _ h v hv
              · exact h v hv
            · split at hv
              · split at hv
                · refine emp_pres _ _ ?_ v hv
                  exact foldl_pres (fun vs => ∀ w ∈ vs, isValidVariable w = true)
                    _ _ (fun b a _ hb => ihU mc a b hb) _ h
                · exact emp_pres _ _ h v hv
              · exact h v hv

theorem eve_valid (mc : Nat) (e : Str) :
    ∀ v ∈ extractVariablesFromExpression mc e, isValidVariable v = true :=
  fun v hv => (extract_valid (exprFuel e)).1 mc e v hv

end Thymelab

namespace Thymelab

theorem pushPair_pres (src x : Str) (st : List (Str × Str) × List Str)
    (hst : ∀ p ∈ st.1, isValidVariable p.2 = true)
    (hx : isValidVariable x = true) :
    ∀ p ∈ (pushPair src x st).1, isValidVariable p.2 = true := by
  intro p hp
  unfold pushPair at hp
  have hp' : p ∈ (if (src ++ ':' :: x) ∈ st.2 then st
      else (st.1 ++ [(src, x)], st.2 ++ [src ++ ':' :: x])).1 := hp
  split at hp'
  · exact hst p hp'
  · rcases List.mem_append.mp hp' with h1 | h2
    · exact hst p h1
    · rw [List.mem_singleton] at h2
      subst h2
      exact hx

theorem pushPairs_pres (src : Str) (l : List Str) :
    ∀ st : List (Str × Str) × List Str, (∀ v ∈ l, isValidVariable v = true) →
      (∀ p ∈ st.1, isValidVariable p.2 = true) →
      ∀ p ∈ (pushPairs src l st).1, isValidVariable p.2 = true := by
  induction l with
  | nil => intro st _ h; exact h
  | cons x xs ih =>
    intro st hl h
    exact ih (pushPair src x st) (fun v hv => hl v (by simp [hv]))
      (pushPair_pres src x st h (hl x (by simp)))

theorem processExpressions_pres (mc : Nat) (text : Str)
    (st : List (Str × Str) × List Str)
    (h : ∀ p ∈ st.1, isValidVariable p.2 = true) :
    ∀ p ∈ (processExpressions mc text st).1, isValidVariable p.2 = true := by
  unfold processExpressions
  refine foldl_pres
    (fun st : List (Str × Str) × List Str => ∀ q ∈ st.1, isValidVariable q.2 = true)
    _ _ ?_ st h
  intro b a _ hb p hp
  simp only [] at hp
  split at hp
  · exact hb p hp
  · refine foldl_pres
      (fun st : List (Str × Str) × List Str => ∀ q ∈ st.1, isValidVariable q.2 = true)
      _ _ ?_ _ ?_ p hp
    · intro b2 a2 _ hb2 q hq
      simp only [] at hq
      split at hq
      · rename_i hcnd
        simp only [Bool.and_eq_true] at hcnd
        exact pushPair_pres _ _ _ hb2 hcnd.1 q hq
      · exact hb2 q hq
    · intro q hq
      split at hq
      · split at hq
        · split at hq
          · exact pushPairs_pres _ _ _ (fun w hw => eve_valid mc _ w hw)
              (pushPairs_pres _ _ _ (fun w hw => eve_valid mc _ w hw) hb) q hq
          · exact pushPairs_pres _ _ _ (fun w hw => eve_valid mc _ w hw) hb q hq
        · exact pushPairs_pres _ _ _ (fun w hw => eve_valid mc _ w hw) hb q hq
      · exact pushPairs_pres _ _ _ (fun w hw => eve_valid mc _ w hw) hb q hq

theorem processFieldExpressions_pres (mc : Nat) (text : Str)
    (st : List (Str × Str) × List Str)
    (h : ∀ p ∈ st.1, isValidVariable p.2 = true) :
    ∀ p ∈ (processFieldExpressions mc text st).1, isValidVariable p.2 = true := by
  unfold processFieldExpressions
  refine foldl_pres
    (fun st : List (Str × Str) × List Str => ∀ q ∈ st.1, isValidVariable q.2 = true)
    _ _ ?_ st h
  intro b a _ hb p hp
  split at hp
  · exact pushPairs_pres _ _ _ (fun w hw => eve_valid mc _ w hw) hb p hp
  · exact hb p hp

theorem findAll_valid (text : Str) :
    ∀ p ∈ findAllVariableMatches text, isValidVariable p.2 = true := by
  unfold findAllVariableMatches findAllVariableMatchesFrom
  intro p hp
  split at hp
  · simp at hp
  · exact processFieldExpressions_pres 0 text _
      (processExpressions_pres 0 text ([], []) (by simp)) p hp

theorem validChain_of_isValid (v : Str) (h : isValidVariable v = true) :
    validChain (trim v) = true := by
  simp only [isValidVariable] at h
  split at h
  · simp at h
  · split at h
    · simp at h
    · split at h
      · simp at h
      · split at h
        · simp at h
        · split at h
          · simp at h
          · exact h

theorem trim_head_of_not_ws (c : Char) (cs : Str) (hc : wsChar c = false) :
    ∃ t, trim (c :: cs) = c :: t := by
  unfold trim
  rw [show (c :: cs).dropWhile wsChar = c :: cs by simp [List.dropWhile_cons, hc]]
  rw [List.reverse_cons]
  have hne : (cs.reverse ++ [c]).dropWhile wsChar ≠ [] := by
    intro h0
    exact absurd ((List.dropWhile_eq_nil_iff).mp h0 c (by simp)) (by simp [hc])
  obtain ⟨pre, hpre⟩ := List.dropWhile_suffix (l := cs.reverse ++ [c]) wsChar
  have hlast : ((cs.reverse ++ [c]).dropWhile wsChar).getLast? = some c := by
    rw [← List.getLast?_append_of_ne_nil pre hne, hpre, List.getLast?_concat]
  have hhead : (((cs.reverse ++ [c]).dropWhile wsChar).reverse).head? = some c := by
    rw [List.head?_reverse]
    exact hlast
  cases hXr : ((cs.reverse ++ [c]).dropWhile wsChar).reverse with
  | nil => rw [hXr] at hhead; simp at hhead
  | cons d ds =>
    rw [hXr] at hhead
    simp only [List.head?_cons, Option.some.injEq] at hhead
    exact ⟨ds, by rw [hhead]⟩

theorem validChain_hash_false (cs : Str) : validChain ('#' :: cs) = false := by
  have hws : wordStart '#' = false := by decide
  unfold validChain splitChar
  cases hsp : splitOnPred (fun c => c = '.') cs with
  | nil => simp [splitOnPred, hsp, validChainSeg, hws]
  | cons piece ps => simp [splitOnPred, hsp, validChainSeg, hws]

theorem head_ne_hash_of_valid (v : Str) (h : isValidVariable v = true) :
    v.head? ≠ some '#' := by
  intro hh
  cases v with
  | nil => simp at hh
  | cons c cs =>
    simp only [List.head?_cons, Option.some.injEq] at hh
    subst hh
    have h1 := validChain_of_isValid _ h
    obtain ⟨t, ht⟩ := trim_head_of_not_ws '#' cs (by decide)
    rw [ht, validChain_hash_false] at h1
    simp at h1

/-- C4: `findAllVariableMatches` never emits a `#utility` token as a
variable path: every emitted path passes `isValidVariable`, whose chain
regex rejects a leading `#`, so no path starts with `#`; on the spec's
example the call's argument `message` is emitted while `#strings` is not
emitted for any sourceText. -/
theorem c4_no_hash_prefix_emitted :
    (∀ (text : Str) (p : Str × Str), p ∈ findAllVariableMatches text →
      isValidVariable p.2 = true ∧ p.2.head? ≠ some '#') ∧
    (str "$\x7b#strings.toUpperCase(message)\x7d", str "message") ∈
      findAllVariableMatches (str "$\x7b#strings.toUpperCase(message)\x7d") ∧
    (∀ s : Str, (s, str "#strings") ∉
      findAllVariableMatches (str "$\x7b#strings.toUpperCase(message)\x7d")) := by
  have hmain : ∀ (text : Str) (p : Str × Str), p ∈ findAllVariableMatches text →
      isValidVariable p.2 = true ∧ p.2.head? ≠ some '#' :=
    fun text p hp =>
      ⟨findAll_valid text p hp, head_ne_hash_of_valid _ (findAll_valid text p hp)⟩
  refine ⟨hmain, by decide, ?_⟩
  intro s hs
  exact (hmain _ _ hs).2 rfl

/-- Witness for C4 at the spec's utility-call example. -/
theorem c4_no_hash_prefix_emitted_witness :
    isValidVariable (str "message") = true ∧
      (str "message").head? ≠ some '#' :=
  c4_no_hash_prefix_emitted.1 (str "$\x7b#strings.toUpperCase(message)\x7d")
    (str "$\x7b#strings.toUpperCase(message)\x7d", str "message") (by decide)

end Thymelab

namespace Thymelab

theorem joinDots_nil : joinDots [] = [] := rfl

theorem joinDots_single (s : Str) : joinDots [s] = s := by
  simp [joinDots, List.intercalate]

theorem joinDots_cons_cons (s r : Str) (t : List Str) :
    joinDots (s :: r :: t) = s ++ '.' :: joinDots (r :: t) := by
  simp [joinDots, List.intercalate, List.intersperse]

theorem alpha_ne (c : Char) (ha : c.isAlpha = true) (d : Char)
    (hd : d.isAlpha = false) : c ≠ d := by
  intro he
  subst he
  rw [ha] at hd
  simp at hd

theorem joinDots_chars (segs : List Str)
    (hseg : ∀ s ∈ segs, ∀ c ∈ s, c.isAlpha = true) :
    ∀ c ∈ joinDots segs, c.isAlpha = true ∨ c = '.' := by
  induction segs with
  | nil => simp [joinDots_nil]
  | cons s rest ih =>
    cases rest with
    | nil =>
      rw [joinDots_single]
      exact fun c hc => Or.inl (hseg s (by simp) c hc)
    | cons r t =>
      rw [joinDots_cons_cons]
      intro c hc
      rcases List.mem_append.mp hc with h1 | h2
      · exact Or.inl (hseg s (by simp) c h1)
      · rcases List.mem_cons.mp h2 with rfl | h3
        · exact Or.inr rfl
        · exact ih (fun s hs => hseg s (by simp [hs])) c h3

theorem chainCh_facts (c : Char) (h : c.isAlpha = true ∨ c = '.') :
    arithCh c = false ∧ compCh c = false ∧ wsChar c = false ∧
    quoteChar c = false ∧ c ≠ '(' ∧ c ≠ ')' ∧ c ≠ '?' ∧ c ≠ '\x7d' ∧
    c ≠ '$' ∧ c ≠ '\\' ∧ c ≠ '#' ∧ c ≠ '\x7b' ∧ c ≠ ':' := by
  rcases h with ha | rfl
  · have ne : ∀ d : Char, d.isAlpha = false → c ≠ d := fun d hd => alpha_ne c ha d hd
    refine ⟨?_, ?_, ?_, ?_, ne '(' (by decide), ne ')' (by decide),
      ne '?' (by decide), ne '\x7d' (by decide), ne '$' (by decide),
      ne '\\' (by decide), ne '#' (by decide), ne '\x7b' (by decide),
      ne ':' (by decide)⟩
    · simp [arithCh, ne '+' (by decide), ne '-' (by decide), ne '*' (by decide),
        ne '/' (by decide), ne '%' (by decide)]
    · simp [compCh, ne '>' (by decide), ne '<' (by decide), ne '=' (by decide),
        ne '!' (by decide)]
    · simp [wsChar, ne ' ' (by decide), ne '\t' (by decide), ne '\n' (by decide),
        ne '\r' (by decide), ne '\x0b' (by decide), ne '\x0c' (by decide)]
    · simp [quoteChar, ne '\'' (by decide), ne '\"' (by decide)]
  · exact ⟨by decide, by decide, by decide, by decide, by decide, by decide,
      by decide, by decide, by decide, by decide, by decide, by decide, by decide⟩

theorem occursIn_of_isPrefixOf (pat s : Str) (h : pat.isPrefixOf s = true) :
    occursIn pat s = true := by
  cases s with
  | nil =>
    cases pat with
    | nil => rfl
    | cons c cs => simp [List.isPrefixOf] at h
  | cons c cs =>
    rw [occursIn]
    simp [h]

theorem occursIn_append_right (pat p q : Str) (h : occursIn pat q = true) :
    occursIn pat (p ++ q) = true := by
  induction p with
  | nil => simpa using h
  | cons c cs ih =>
    rw [List.cons_append, occursIn]
    simp [ih]

theorem addVar_not_mem (x : Str) (vars : List Str) (h : x ∉ vars) :
    addVar x vars = vars ++ [x] := by
  simp [addVar, h]

theorem splitOnPred_append_sep (p : Char → Bool) (xs : Str) (sep : Char)
    (ys : Str) (hxs : ∀ c ∈ xs, p c = false) (hsep : p sep = true) :
    splitOnPred p (xs ++ sep :: ys) = xs :: splitOnPred p ys := by
  induction xs with
  | nil => simp [splitOnPred, hsep]
  | cons c cs ih =>
    rw [List.cons_append, splitOnPred]
    rw [ih (fun d hd => hxs d (by simp [hd]))]
    simp [hxs c (by simp)]

theorem splitChar_joinDots (segs : List Str) (hne : segs ≠ [])
    (hdot : ∀ s ∈ segs, ∀ c ∈ s, c ≠ '.') :
    splitChar '.' (joinDots segs) = segs := by
  induction segs with
  | nil => exact absurd rfl hne
  | cons s rest ih =>
    cases rest with
    | nil =>
      rw [joinDots_single]
      unfold splitChar
      rw [splitOnPred_none _ _ (fun c hc => by
        simp [hdot s (by simp) c hc])]
    | cons r t =>
      rw [joinDots_cons_cons]
      unfold splitChar
      rw [splitOnPred_append_sep _ _ _ _ (fun c hc => by
        simp [hdot s (by simp) c hc]) (by simp)]
      rw [show splitOnPred (fun c => c = '.') (joinDots (r :: t)) =
          splitChar '.' (joinDots (r :: t)) from rfl]
      rw [ih (by simp) (fun s hs => hdot s (by simp [hs]))]

theorem joinDots_mem_chainPrefixesGo (rest : List Str) :
    ∀ acc : Str, rest ≠ [] →
      (acc ++ '.' :: joinDots rest) ∈ chainPrefixesGo acc rest := by
  induction rest with
  | nil => intro acc h; exact absurd rfl h
  | cons p ps ih =>
    intro acc _
    cases ps with
    | nil => simp [chainPrefixesGo, joinDots_single]
    | cons q qs =>
      rw [joinDots_cons_cons]
      have := ih (acc ++ '.' :: p) (by simp)
      rw [chainPrefixesGo]
      refine List.mem_cons_of_mem _ ?_
      rw [show acc ++ '.' :: (p ++ '.' :: joinDots (q :: qs)) =
          (acc ++ '.' :: p) ++ '.' :: joinDots (q :: qs) by simp]
      exact this

theorem joinDots_mem_chainPrefixes (segs : List Str) (h : segs ≠ []) :
    joinDots segs ∈ chainPrefixes segs := by
  cases segs with
  | nil => exact absurd rfl h
  | cons s rest =>
    cases rest with
    | nil => simp [chainPrefixes, joinDots_single]
    | cons r t =>
      rw [joinDots_cons_cons, chainPrefixes]
      exact List.mem_cons_of_mem _ (joinDots_mem_chainPrefixesGo (r :: t) s (by simp))

theorem chainPrefixesGo_chars (rest : List Str) :
    ∀ acc : Str, (∀ c ∈ acc, c.isAlpha = true ∨ c = '.') →
      (∀ s ∈ rest, ∀ c ∈ s, c.isAlpha = true) →
      ∀ p ∈ chainPrefixesGo acc rest, ∀ c ∈ p, c.isAlpha = true ∨ c = '.' := by
  induction rest with
  | nil => simp [chainPrefixesGo]
  | cons q qs ih =>
    intro acc hacc hrest p hp
    have hacc' : ∀ c ∈ acc ++ '.' :: q, c.isAlpha = true ∨ c = '.' := by
      intro c hc
      rcases List.mem_append.mp hc with h1 | h2
      · exact hacc c h1
      · rcases List.mem_cons.mp h2 with rfl | h3
        · exact Or.inr rfl
        · exact Or.inl (hrest q (by simp) c h3)
    rw [chainPrefixesGo] at hp
    rcases List.mem_cons.mp hp with rfl | h2
    · exact hacc'
    · exact ih (acc ++ '.' :: q) hacc' (fun s hs => hrest s (by simp [hs])) p h2

theorem chainPrefixes_chars (segs : List Str)
    (hseg : ∀ s ∈ segs, ∀ c ∈ s, c.isAlpha = true) :
    ∀ p ∈ chainPrefixes segs, ∀ c ∈ p, c.isAlpha = true ∨ c = '.' := by
  cases segs with
  | nil => simp [chainPrefixes]
  | cons s rest =>
    intro p hp
    rw [chainPrefixes] at hp
    rcases List.mem_cons.mp hp with rfl | h2
    · exact fun c hc => Or.inl (hseg p (by simp) c hc)
    · exact chainPrefixesGo_chars rest s
        (fun c hc => Or.inl (hseg s (by simp) c hc))
        (fun t ht => hseg t (by simp [ht])) p h2

theorem chainPrefixesGo_longer (rest : List Str) :
    ∀ acc : Str, ∀ p ∈ chainPrefixesGo acc rest, acc.length < p.length := by
  induction rest with
  | nil => simp [chainPrefixesGo]
  | cons q qs ih =>
    intro acc p hp
    rw [chainPrefixesGo] at hp
    rcases List.mem_cons.mp hp with rfl | h2
    · simp [List.length_append]
    · have := ih (acc ++ '.' :: q) p h2
      simp [List.length_append] at this
      omega

theorem chainPrefixesGo_nodup (rest : List Str) :
    ∀ acc : Str, (chainPrefixesGo acc rest).Nodup := by
  induction rest with
  | nil => simp [chainPrefixesGo]
  | cons q qs ih =>
    intro acc
    rw [chainPrefixesGo]
    refine List.Nodup.cons ?_ (ih (acc ++ '.' :: q))
    intro hmem
    have := chainPrefixesGo_longer qs (acc ++ '.' :: q) _ hmem
    omega

theorem chainPrefixes_nodup (segs : List Str) : (chainPrefixes segs).Nodup := by
  cases segs with
  | nil => simp [chainPrefixes]
  | cons s rest =>
    rw [chainPrefixes]
    refine List.Nodup.cons ?_ (chainPrefixesGo_nodup rest s)
    intro hmem
    have := chainPrefixesGo_longer rest s _ hmem
    omega

end Thymelab

namespace Thymelab

theorem occursIn_cons_false (pat : Str) (c : Char) (cs : Str)
    (h : occursIn pat (c :: cs) = false) :
    pat.isPrefixOf (c :: cs) = false ∧ occursIn pat cs = false := by
  rw [occursIn] at h
  exact Bool.or_eq_false_iff.mp h

theorem replaceFirstQuotedGo_id (fuel : Nat) :
    ∀ s : Str, (∀ c ∈ s, quoteChar c = false) →
      replaceFirstQuotedGo fuel s = s := by
  induction fuel with
  | zero => intro s _; rfl
  | succ f ih =>
    intro s h
    cases s with
    | nil => rfl
    | cons c cs =>
      have hm : matchQuotedAt (c :: cs) = none := by
        simp [matchQuotedAt, h c (by simp)]
      rw [replaceFirstQuotedGo, hm]
      exact congrArg (List.cons c) (ih cs (fun d hd => h d (by simp [hd])))

theorem replaceFirstQuoted_id (s : Str) (h : ∀ c ∈ s, quoteChar c = false) :
    replaceFirstQuoted s = s := replaceFirstQuotedGo_id s.length s h

theorem replaceFirstTFGo_id (prev : Bool) (s : Str)
    (ht : occursIn (str "true") s = false)
    (hf : occursIn (str "false") s = false) :
    replaceFirstTFGo prev s = s := by
  induction s generalizing prev with
  | nil => rfl
  | cons c cs ih =>
    obtain ⟨hp1, ht'⟩ := occursIn_cons_false _ c cs ht
    obtain ⟨hp2, hf'⟩ := occursIn_cons_false _ c cs hf
    have hm : tfMatchLen prev (c :: cs) = none := by
      simp [tfMatchLen, hp1, hp2]
    rw [replaceFirstTFGo, hm]
    exact congrArg (List.cons c) (ih (jsWordCh c) ht' hf')

theorem cleanExpression_id (e : Str) (hq : ∀ c ∈ e, quoteChar c = false)
    (ht : occursIn (str "true") e = false)
    (hf : occursIn (str "false") e = false) :
    cleanExpression e = e := by
  unfold cleanExpression
  rw [replaceFirstQuoted_id e hq, replaceFirstTFGo_id false e ht hf]

theorem parenSplitGo_no_paren (fuel : Nat) :
    ∀ s : Str, (∀ c ∈ s, c ≠ '(') → parenSplitGo fuel s = ([], s) := by
  induction fuel with
  | zero => intro s _; rfl
  | succ f ih =>
    intro s h
    cases s with
    | nil => rfl
    | cons c cs =>
      rw [parenSplitGo, if_neg (h c (by simp))]
      rw [ih cs (fun d hd => h d (by simp [hd]))]

theorem parenSplit_no_paren (s : Str) (h : ∀ c ∈ s, c ≠ '(') :
    parenSplit s = ([], s) := parenSplitGo_no_paren s.length s h

theorem matchAndOrAt_none (s : Str) (hand : occursIn (str "and") s = false)
    (hor : occursIn (str "or") s = false) : matchAndOrAt s = none := by
  obtain ⟨pre, hpre⟩ := List.dropWhile_suffix (l := s) wsChar
  have hpa : (str "and").isPrefixOf (s.dropWhile wsChar) = false := by
    cases hb : (str "and").isPrefixOf (s.dropWhile wsChar)
    · rfl
    · exfalso
      have h2 := occursIn_append_right (str "and") pre _
        (occursIn_of_isPrefixOf _ _ hb)
      rw [hpre, hand] at h2
      simp at h2
  have hpo : (str "or").isPrefixOf (s.dropWhile wsChar) = false := by
    cases hb : (str "or").isPrefixOf (s.dropWhile wsChar)
    · rfl
    · exfalso
      have h2 := occursIn_append_right (str "or") pre _
        (occursIn_of_isPrefixOf _ _ hb)
      rw [hpre, hor] at h2
      simp at h2
  unfold matchAndOrAt
  simp [hpa, hpo, not_prefix_of_eq_false hpa, not_prefix_of_eq_false hpo]

theorem splitAndOrGo_single (fuel : Nat) :
    ∀ (acc s : Str), occursIn (str "and") s = false →
      occursIn (str "or") s = false →
      splitAndOrGo fuel acc s = [acc ++ s] := by
  induction fuel with
  | zero => intro acc s _ _; rfl
  | succ f ih =>
    intro acc s hand hor
    cases s with
    | nil => simp [splitAndOrGo]
    | cons c cs =>
      rw [splitAndOrGo, matchAndOrAt_none (c :: cs) hand hor]
      have := ih (acc ++ [c]) cs (occursIn_cons_false _ c cs hand).2
        (occursIn_cons_false _ c cs hor).2
      simpa [List.append_assoc] using this

theorem splitAndOr_single (s : Str) (hand : occursIn (str "and") s = false)
    (hor : occursIn (str "or") s = false) : splitAndOr s = [s] := by
  unfold splitAndOr
  rw [splitAndOrGo_single s.length [] s hand hor]
  simp

theorem parseSeg_snd_mem (s seg r : Str) (h : parseSeg s = some (seg, r)) :
    ∀ c ∈ r, c ∈ s := by
  cases s with
  | nil => simp [parseSeg] at h
  | cons c cs =>
    have h' : (if c.isAlpha = true then
        some (c :: cs.takeWhile isAlnumCh, cs.dropWhile isAlnumCh)
        else none) = some (seg, r) := h
    by_cases hal : c.isAlpha = true
    · rw [if_pos hal] at h'
      simp only [Option.some.injEq, Prod.mk.injEq] at h'
      obtain ⟨h1, h2⟩ := h'
      subst h2
      intro d hd
      exact List.mem_cons_of_mem _
        ((List.dropWhile_suffix isAlnumCh).sublist.subset hd)
    · rw [if_neg hal] at h'
      simp at h'

theorem parseChainGo_succ_dot (f : Nat) (acc : Str) (ds : Str) :
    parseChainGo (f + 1) acc ('.' :: ds) =
      match parseSeg ds with
      | some (seg, r') => parseChainGo f (acc ++ '.' :: seg) r'
      | none => (acc, '.' :: ds) := rfl

theorem parseChainGo_succ_ne (f : Nat) (acc : Str) (d : Char) (ds : Str)
    (hd : d ≠ '.') : parseChainGo (f + 1) acc (d :: ds) = (acc, d :: ds) := by
  rw [parseChainGo.eq_def]
  split
  · rename_i heq
    simp at heq
  · split
    · rename_i hr
      rw [List.cons.injEq] at hr
      exact absurd hr.1 hd
    · rfl

theorem parseChainGo_snd_mem (fuel : Nat) :
    ∀ acc s : Str, ∀ c ∈ (parseChainGo fuel acc s).2, c ∈ s := by
  induction fuel with
  | zero => intro acc s c hc; exact hc
  | succ f ih =>
    intro acc s c hc
    cases s with
    | nil => exact hc
    | cons d ds =>
      by_cases hd : d = '.'
      · subst hd
        rw [parseChainGo_succ_dot] at hc
        cases hps : parseSeg ds with
        | none => rw [hps] at hc; exact hc
        | some pr =>
          obtain ⟨seg, r'⟩ := pr
          rw [hps] at hc
          exact List.mem_cons_of_mem _
            (parseSeg_snd_mem ds seg r' hps c (ih (acc ++ '.' :: seg) r' c hc))
      · rw [parseChainGo_succ_ne f acc d ds hd] at hc
        exact hc

theorem matchMethodCallAt_none_of_no_paren (s : Str) (h : ∀ c ∈ s, c ≠ '(') :
    matchMethodCallAt s = none := by
  cases hpc : parseChain s with
  | none => simp [matchMethodCallAt, hpc]
  | some pr =>
    obtain ⟨chain, r1⟩ := pr
    have hmem : ∀ c ∈ r1, c ∈ s := by
      unfold parseChain at hpc
      cases hps : parseSeg s with
      | none =>
        rw [hps] at hpc
        exact Option.noConfusion hpc
      | some pr2 =>
        obtain ⟨seg, r⟩ := pr2
        rw [hps] at hpc
        have hpc2 : parseChainGo r.length seg r = (chain, r1) :=
          Option.some.inj hpc
        intro c hc
        have h1 : c ∈ (parseChainGo r.length seg r).2 := by
          rw [hpc2]
          exact hc
        exact parseSeg_snd_mem s seg r hps c (parseChainGo_snd_mem r.length seg r c h1)
    unfold matchMethodCallAt
    rw [hpc]
    split
    · rename_i m rest heq
      simp only [Option.some.injEq, Prod.mk.injEq] at heq
      obtain ⟨h1, h2⟩ := heq
      subst h1
      subst h2
      split
      · exact absurd rfl (h '(' (hmem '(' (by simp)))
      · show (if 2 ≤ (splitChar '.' chain).length then none else none) =
          (none : Option (Str × Str × Str))
        exact ite_self none
    · rfl

theorem scanMethodCallsGo_nil (fuel : Nat) :
    ∀ s : Str, (∀ c ∈ s, c ≠ '(') → scanMethodCallsGo fuel s = [] := by
  induction fuel with
  | zero => intro s _; rfl
  | succ f ih =>
    intro s h
    cases s with
    | nil => rfl
    | cons c cs =>
      rw [scanMethodCallsGo, matchMethodCallAt_none_of_no_paren (c :: cs) h]
      exact ih cs (fun d hd => h d (by simp [hd]))

theorem scanMethodCalls_nil (s : Str) (h : ∀ c ∈ s, c ≠ '(') :
    scanMethodCalls s = [] := scanMethodCallsGo_nil s.length s h

theorem empv_eval (e : Str) (vs : List Str) (hp : ∀ c ∈ e, c ≠ '(') :
    extractMethodAndPropertyVariables 0 e vs = handlePropertyChain e vs := by
  have hany : e.any (fun c => c = '(') = false :=
    List.any_eq_false.mpr (fun c hc => by simp [hp c hc])
  unfold extractMethodAndPropertyVariables
  rw [List.drop_zero, scanMethodCalls_nil e hp]
  simp [hany]

theorem isLog_of_isValid (v : Str) (h : isValidVariable v = true) :
    isLogicalOperator (trim v) = false := by
  cases hb : isLogicalOperator (trim v)
  · rfl
  · exfalso
    simp only [isValidVariable] at h
    have hv : ¬ v = [] := by
      intro he
      subst he
      simp at h
    rw [if_neg hv, if_pos hb] at h
    simp at h

end Thymelab

namespace Thymelab

theorem if_false_of_eq_false {α : Sort u} {b : Bool} (h : b = false) (x y : α) :
    (if b then x else y) = y := by rw [h]; rfl

theorem if_true_of_eq_true {α : Sort u} {b : Bool} (h : b = true) (x y : α) :
    (if b then x else y) = x := by rw [h]; rfl

theorem if_neg_prop {α : Sort u} {p : Prop} [Decidable p] (h : ¬p) (x y : α) :
    (if p then x else y) = y := if_neg h

theorem if_pos_prop {α : Sort u} {p : Prop} [Decidable p] (h : p) (x y : α) :
    (if p then x else y) = x := if_pos h

theorem chainFold_eval (rest : List Str) :
    ∀ (acc : Str) (vars : List Str),
      (∀ p ∈ chainPrefixesGo acc rest, isValidVariable p = true) →
      (∀ p ∈ chainPrefixesGo acc rest, p ∉ vars) →
      (rest.foldl
        (fun (st : Str × List Str) p =>
          let chain := st.1 ++ '.' :: p
          (chain, if isValidVariable chain then addVar chain st.2 else st.2))
        (acc, vars)).2 = vars ++ chainPrefixesGo acc rest := by
  induction rest with
  | nil => intro acc vars _ _; simp [chainPrefixesGo]
  | cons q qs ih =>
    intro acc vars hval hfresh
    rw [List.foldl_cons]
    have hq : isValidVariable (acc ++ '.' :: q) = true :=
      hval _ (by rw [chainPrefixesGo]; exact List.mem_cons_self _ _)
    have hnm : (acc ++ '.' :: q) ∉ vars :=
      hfresh _ (by rw [chainPrefixesGo]; exact List.mem_cons_self _ _)
    show (List.foldl
        (fun (st : Str × List Str) p =>
          let chain := st.1 ++ '.' :: p
          (chain, if isValidVariable chain then addVar chain st.2 else st.2))
        (acc ++ '.' :: q,
          if isValidVariable (acc ++ '.' :: q) then addVar (acc ++ '.' :: q) vars else vars)
        qs).2 = vars ++ chainPrefixesGo acc (q :: qs)
    rw [if_true_of_eq_true hq, addVar_not_mem _ _ hnm]
    rw [ih (acc ++ '.' :: q) (vars ++ [acc ++ '.' :: q])
      (fun p hp => hval p (by rw [chainPrefixesGo]; exact List.mem_cons_of_mem _ hp))
      (fun p hp hmem => by
        rcases List.mem_append.mp hmem with h1 | h2
        · exact hfresh p (by rw [chainPrefixesGo]; exact List.mem_cons_of_mem _ hp) h1
        · have hlen := chainPrefixesGo_longer qs (acc ++ '.' :: q) p hp
          rw [List.mem_singleton.mp h2] at hlen
          omega)]
    rw [chainPrefixesGo]
    simp

theorem chainFold_absorb (rest : List Str) :
    ∀ (acc : Str) (vars : List Str),
      (∀ p ∈ chainPrefixesGo acc rest, p ∈ vars) →
      (rest.foldl
        (fun (st : Str × List Str) p =>
          let chain := st.1 ++ '.' :: p
          (chain, if isValidVariable chain then addVar chain st.2 else st.2))
        (acc, vars)).2 = vars := by
  induction rest with
  | nil => intro acc vars _; rfl
  | cons q qs ih =>
    intro acc vars hmem
    rw [List.foldl_cons]
    have hq : (acc ++ '.' :: q) ∈ vars :=
      hmem _ (by rw [chainPrefixesGo]; exact List.mem_cons_self _ _)
    show (List.foldl
        (fun (st : Str × List Str) p =>
          let chain := st.1 ++ '.' :: p
          (chain, if isValidVariable chain then addVar chain st.2 else st.2))
        (acc ++ '.' :: q,
          if isValidVariable (acc ++ '.' :: q) then addVar (acc ++ '.' :: q) vars else vars)
        qs).2 = vars
    rw [addVar_of_mem _ _ hq, ite_self]
    exact ih (acc ++ '.' :: q) vars
      (fun p hp => hmem p (by rw [chainPrefixesGo]; exact List.mem_cons_of_mem _ hp))

theorem hpc_eval (segs : List Str) (hne : segs ≠ [])
    (hdot : ∀ s ∈ segs, ∀ c ∈ s, c ≠ '.')
    (hval : ∀ p ∈ chainPrefixes segs, isValidVariable p = true) :
    handlePropertyChain (joinDots segs) [] = chainPrefixes segs := by
  cases segs with
  | nil => exact absurd rfl hne
  | cons s rest =>
    unfold handlePropertyChain
    rw [splitChar_joinDots (s :: rest) (by simp) hdot]
    have hs : isValidVariable s = true :=
      hval s (by rw [chainPrefixes]; exact List.mem_cons_self _ _)
    show (if isValidVariable s = true then
        (rest.foldl
          (fun (st : Str × List Str) p =>
            let chain := st.1 ++ '.' :: p
            (chain, if isValidVariable chain then addVar chain st.2 else st.2))
          (s, addVar s [])).2
      else []) = chainPrefixes (s :: rest)
    rw [if_pos_prop hs]
    have ha : addVar s [] = [s] := by simp [addVar]
    rw [ha]
    rw [chainFold_eval rest s [s]
      (fun p hp => hval p (by rw [chainPrefixes]; exact List.mem_cons_of_mem _ hp))
      (fun p hp hmem => by
        have hlen := chainPrefixesGo_longer rest s p hp
        rw [List.mem_singleton.mp hmem] at hlen
        omega)]
    rw [chainPrefixes]
    simp

theorem hpc_absorb (segs : List Str) (vars : List Str) (hne : segs ≠ [])
    (hdot : ∀ s ∈ segs, ∀ c ∈ s, c ≠ '.')
    (hmem : ∀ p ∈ chainPrefixes segs, p ∈ vars) :
    handlePropertyChain (joinDots segs) vars = vars := by
  cases segs with
  | nil => exact absurd rfl hne
  | cons s rest =>
    unfold handlePropertyChain
    rw [splitChar_joinDots (s :: rest) (by simp) hdot]
    show (if isValidVariable s = true then
        (rest.foldl
          (fun (st : Str × List Str) p =>
            let chain := st.1 ++ '.' :: p
            (chain, if isValidVariable chain then addVar chain st.2 else st.2))
          (s, addVar s vars)).2
      else vars) = vars
    split
    · rw [addVar_of_mem s vars
        (hmem s (by rw [chainPrefixes]; exact List.mem_cons_self _ _))]
      exact chainFold_absorb rest s vars
        (fun p hp => hmem p (by rw [chainPrefixes]; exact List.mem_cons_of_mem _ hp))
    · rfl

end Thymelab

namespace Thymelab

theorem eve_chain_eval (segs : List Str) (hne : segs ≠ [])
    (hseg : ∀ s ∈ segs, ∀ c ∈ s, c.isAlpha = true)
    (hval : ∀ p ∈ chainPrefixes segs, isValidVariable p = true)
    (hand : occursIn (str "and") (joinDots segs) = false)
    (hor : occursIn (str "or") (joinDots segs) = false)
    (htrue : occursIn (str "true") (joinDots segs) = false)
    (hfalse : occursIn (str "false") (joinDots segs) = false) :
    extractVariablesFromExpression 0 (joinDots segs) = chainPrefixes segs := by
  have hch : ∀ c ∈ joinDots segs, c.isAlpha = true ∨ c = '.' := joinDots_chars segs hseg
  have hws : ∀ c ∈ joinDots segs, wsChar c = false :=
    fun c hc => (chainCh_facts c (hch c hc)).2.2.1
  have hqc : ∀ c ∈ joinDots segs, quoteChar c = false :=
    fun c hc => (chainCh_facts c (hch c hc)).2.2.2.1
  have hnp : ∀ c ∈ joinDots segs, c ≠ '(' :=
    fun c hc => (chainCh_facts c (hch c hc)).2.2.2.2.1
  have hnq : ∀ c ∈ joinDots segs, c ≠ '?' :=
    fun c hc => (chainCh_facts c (hch c hc)).2.2.2.2.2.2.1
  have harc : ∀ c ∈ joinDots segs, arithCh c = false :=
    fun c hc => (chainCh_facts c (hch c hc)).1
  have hcoc : ∀ c ∈ joinDots segs, compCh c = false :=
    fun c hc => (chainCh_facts c (hch c hc)).2.1
  have hnh : ∀ c ∈ joinDots segs, c ≠ '#' :=
    fun c hc => (chainCh_facts c (hch c hc)).2.2.2.2.2.2.2.2.2.2.1
  have hvchain : isValidVariable (joinDots segs) = true :=
    hval _ (joinDots_mem_chainPrefixes segs hne)
  have hchne : ¬ joinDots segs = [] := by
    intro h
    rw [h] at hvchain
    exact absurd hvchain (by decide)
  have hhead : ¬ (joinDots segs).head? = some '#' := by
    intro h
    cases hj : joinDots segs with
    | nil => rw [hj] at h; exact Option.noConfusion h
    | cons c cs =>
      rw [hj] at h
      have hc : c = '#' := by simpa using h
      exact hnh c (by rw [hj]; simp) hc
  have hqbr : occursIn (str "?[") (joinDots segs) = false :=
    occursIn_false_of_not_mem _ _ '?' (by decide) (fun hm => hnq '?' hm rfl)
  have hqm : (joinDots segs).any (fun c => c = '?') = false :=
    List.any_eq_false.mpr (fun c hc => by simp [hnq c hc])
  have harithany : (joinDots segs).any arithCh = false :=
    List.any_eq_false.mpr (fun c hc => by simp [harc c hc])
  have hcompany : (joinDots segs).any compCh = false :=
    List.any_eq_false.mpr (fun c hc => by simp [hcoc c hc])
  have hclean : cleanExpression (joinDots segs) = joinDots segs :=
    cleanExpression_id _ hqc htrue hfalse
  have htrim : trim (joinDots segs) = joinDots segs := trim_no_ws _ hws
  have hpspl : parenSplit (joinDots segs) = ([], joinDots segs) :=
    parenSplit_no_paren _ hnp
  have hsao : splitAndOr (joinDots segs) = [joinDots segs] :=
    splitAndOr_single _ hand hor
  have hlogf : ∀ p ∈ chainPrefixes segs, isLogicalOperator p = false := fun p hp => by
    have h1 := isLog_of_isValid p (hval p hp)
    have h2 : trim p = p := trim_no_ws p (fun c hc =>
      (chainCh_facts c (chainPrefixes_chars segs hseg p hp c hc)).2.2.1)
    rwa [h2] at h1
  have hfil : (chainPrefixes segs).filter (fun v => !isLogicalOperator v)
      = chainPrefixes segs :=
    List.filter_eq_self.mpr (fun p hp => by rw [hlogf p hp]; rfl)
  have hdots : ∀ s ∈ segs, ∀ c ∈ s, c ≠ '.' := fun s hs c hc =>
    alpha_ne c (hseg s hs c hc) '.' (by decide)
  have hemp : ∀ vs, extractMethodAndPropertyVariables 0 (joinDots segs) vs
      = handlePropertyChain (joinDots segs) vs := fun vs => empv_eval _ vs hnp
  obtain ⟨f, hf⟩ : ∃ f, exprFuel (joinDots segs) = f + 1 :=
    ⟨2 * (joinDots segs).length + 2, rfl⟩
  unfold extractVariablesFromExpression
  rw [hf, extractVariablesGo]
  rw [hclean]
  cases segs with
  | nil => exact absurd rfl hne
  | cons s rest =>
    cases rest with
    | nil =>
      have hdotf : (joinDots [s]).any (fun c => c = '.') = false :=
        List.any_eq_false.mpr (fun c hc => by
          simp [alpha_ne c (hseg s (by simp) c (by rw [joinDots_single] at hc; exact hc))
            '.' (by decide)])
      have hcp : chainPrefixes [s] = [joinDots [s]] := by
        rw [joinDots_single]
        simp [chainPrefixes, chainPrefixesGo]
      have hadd1 : addVar (joinDots [s]) ([] : List Str) = [joinDots [s]] := by
        simp [addVar]
      have hadd2 : addVar (joinDots [s]) [joinDots [s]] = [joinDots [s]] :=
        addVar_of_mem _ _ (by simp)
      have hfil1 : List.filter (fun v => !isLogicalOperator v) [joinDots [s]]
          = [joinDots [s]] := by
        have h3 := hfil
        rw [hcp] at h3
        exact h3
      simp only [if_neg_prop hhead, if_false_of_eq_false hqbr, if_false_of_eq_false hqm,
        if_false_of_eq_false harithany, if_false_of_eq_false hcompany, hpspl,
        List.foldl_nil, List.foldl_cons, hsao, htrim, if_neg_prop hchne,
        if_false_of_eq_false hdotf, if_true_of_eq_true hvchain, hadd1, hadd2,
        hfil1, hcp]
    | cons r t =>
      have hdott : (joinDots (s :: r :: t)).any (fun c => c = '.') = true := by
        refine List.any_eq_true.mpr ⟨'.', ?_, by simp⟩
        rw [joinDots_cons_cons]
        simp
      have hmemchain : joinDots (s :: r :: t) ∈ chainPrefixes (s :: r :: t) :=
        joinDots_mem_chainPrefixes _ (by simp)
      have hpce : handlePropertyChain (joinDots (s :: r :: t)) []
          = chainPrefixes (s :: r :: t) := hpc_eval _ (by simp) hdots hval
      have hpca : handlePropertyChain (joinDots (s :: r :: t)) (chainPrefixes (s :: r :: t))
          = chainPrefixes (s :: r :: t) :=
        hpc_absorb _ _ (by simp) hdots (fun p hp => hp)
      have haddc : addVar (joinDots (s :: r :: t)) (chainPrefixes (s :: r :: t))
          = chainPrefixes (s :: r :: t) := addVar_of_mem _ _ hmemchain
      simp only [if_neg_prop hhead, if_false_of_eq_false hqbr, if_false_of_eq_false hqm,
        if_false_of_eq_false harithany, if_false_of_eq_false hcompany, hpspl,
        List.foldl_nil, List.foldl_cons, hsao, htrim, if_neg_prop hchne,
        if_true_of_eq_true hdott, hemp, hpce, hpca, if_true_of_eq_true hvchain,
        haddc, hfil]

end Thymelab

namespace Thymelab

theorem matchBraceAt_none_of_head_ne (lead c : Char) (cs : Str) (h : c ≠ lead) :
    matchBraceAt lead (c :: cs) = none := by
  cases cs with
  | nil => rfl
  | cons b r =>
    rw [matchBraceAt]
    rw [if_false_of_eq_false (by simp [h] : (c = lead && b = '\x7b') = false)]

theorem scanBraceGo_drop_pre (lead : Char) (pre : Str) (hpre : lead ∉ pre) :
    ∀ (fuel : Nat) (rest : Str),
      scanBraceGo lead (pre.length + fuel) (pre ++ rest) = scanBraceGo lead fuel rest := by
  induction pre with
  | nil => intro fuel rest; simp
  | cons c cs ih =>
    intro fuel rest
    have hm : matchBraceAt lead (c :: (cs ++ rest)) = none :=
      matchBraceAt_none_of_head_ne lead c _
        (fun he => hpre (he ▸ List.mem_cons_self c cs))
    have hl : (c :: cs).length + fuel = (cs.length + fuel) + 1 := by
      simp only [List.length_cons]
      omega
    rw [List.cons_append, hl, scanBraceGo, hm]
    exact ih (fun hmem => hpre (List.mem_cons_of_mem c hmem)) fuel rest

theorem scanBraceGo_cons_match (lead : Char) (fuel : Nat) (s m r : Str)
    (h : matchBraceAt lead s = some (m, r)) :
    scanBraceGo lead (fuel + 1) s = m :: scanBraceGo lead fuel r := by
  cases s with
  | nil =>
    rw [show matchBraceAt lead [] = none from rfl] at h
    exact Option.noConfusion h
  | cons c cs => rw [scanBraceGo, h]

theorem matchBraceAt_chain_eval (chain post : Str) (hchne : chain ≠ [])
    (hnb : ∀ c ∈ chain, c ≠ '\x7d') :
    matchBraceAt '$' ('$' :: '\x7b' :: (chain ++ '\x7d' :: post))
      = some ('$' :: '\x7b' :: (chain ++ ['\x7d']), post) := by
  show (match (chain ++ '\x7d' :: post).dropWhile (fun c => c ≠ '\x7d') with
    | '\x7d' :: tail =>
      let body := (chain ++ '\x7d' :: post).takeWhile (fun c => c ≠ '\x7d')
      if body = [] then none
      else some ('$' :: '\x7b' :: body ++ ['\x7d'], tail)
    | _ => none)
    = some ('$' :: '\x7b' :: (chain ++ ['\x7d']), post)
  rw [dropWhile_append_not _ chain '\x7d' post
    (fun c hc => by simp [hnb c hc]) (by decide)]
  show (let body := (chain ++ '\x7d' :: post).takeWhile (fun c => c ≠ '\x7d')
    if body = [] then none
    else some ('$' :: '\x7b' :: body ++ ['\x7d'], post))
    = some ('$' :: '\x7b' :: (chain ++ ['\x7d']), post)
  rw [takeWhile_append_not _ chain '\x7d' post
    (fun c hc => by simp [hnb c hc]) (by decide)]
  show (if chain = [] then none
    else some ('$' :: '\x7b' :: chain ++ ['\x7d'], post))
    = some ('$' :: '\x7b' :: (chain ++ ['\x7d']), post)
  rw [if_neg_prop hchne]
  simp

theorem scanDollar_first (pre : Str) (hpre : '$' ∉ pre) (chain post : Str)
    (hchne : chain ≠ []) (hnb : ∀ c ∈ chain, c ≠ '\x7d') :
    ∃ tail, scanBraceExpr '$' (pre ++ '$' :: '\x7b' :: (chain ++ '\x7d' :: post))
      = ('$' :: '\x7b' :: (chain ++ ['\x7d'])) :: tail := by
  unfold scanBraceExpr
  rw [List.length_append]
  rw [scanBraceGo_drop_pre '$' pre hpre _ _]
  have hl : ('$' :: '\x7b' :: (chain ++ '\x7d' :: post)).length
      = ((chain ++ '\x7d' :: post).length + 1) + 1 := by
    simp only [List.length_cons]
  rw [hl]
  rw [scanBraceGo_cons_match '$' _ _ _ _ (matchBraceAt_chain_eval chain post hchne hnb)]
  exact ⟨_, rfl⟩

theorem pushPair_not_mem (src v : Str) (st : List (Str × Str) × List Str)
    (h : (src ++ ':' :: v) ∉ st.2) :
    pushPair src v st = (st.1 ++ [(src, v)], st.2 ++ [src ++ ':' :: v]) := by
  unfold pushPair
  exact if_neg_prop h _ _

theorem pushPair_mem (src v : Str) (st : List (Str × Str) × List Str)
    (h : (src ++ ':' :: v) ∈ st.2) :
    pushPair src v st = st := by
  unfold pushPair
  exact if_pos_prop h _ _

theorem pushPairs_eval (src : Str) : ∀ (vs : List Str) (st : List (Str × Str) × List Str),
    vs.Nodup → (∀ v ∈ vs, (src ++ ':' :: v) ∉ st.2) →
    pushPairs src vs st
      = (st.1 ++ vs.map (fun v => (src, v)), st.2 ++ vs.map (fun v => src ++ ':' :: v)) := by
  intro vs
  induction vs with
  | nil => intro st _ _; simp [pushPairs]
  | cons v vs ih =>
    intro st hnd hfresh
    unfold pushPairs
    rw [List.foldl_cons]
    rw [pushPair_not_mem src v st (hfresh v (by simp))]
    have hfr : ∀ w ∈ vs, (src ++ ':' :: w) ∉ (st.2 ++ [src ++ ':' :: v]) := by
      intro w hw hmem
      rcases List.mem_append.mp hmem with h1 | h2
      · exact hfresh w (by simp [hw]) h1
      · have he : src ++ ':' :: w = src ++ ':' :: v := List.mem_singleton.mp h2
        have hwv : w = v := by
          have h3 := List.append_cancel_left he
          exact (List.cons.injEq _ _ _ _ |>.mp h3).2
        rw [hwv] at hw
        exact (List.nodup_cons.mp hnd).1 hw
    have h4 := ih (st.1 ++ [(src, v)], st.2 ++ [src ++ ':' :: v])
      (List.nodup_cons.mp hnd).2 hfr
    unfold pushPairs at h4
    rw [h4]
    simp

theorem foldl_sub_pairs {α : Type}
    (f : List (Str × Str) × List Str → α → List (Str × Str) × List Str)
    (hf : ∀ (st : List (Str × Str) × List Str) (a : α), st.1.Sublist (f st a).1) :
    ∀ (l : List α) (st : List (Str × Str) × List Str),
      st.1.Sublist (l.foldl f st).1 := by
  intro l
  induction l with
  | nil => intro st; exact List.Sublist.refl _
  | cons a l ih => intro st; exact List.Sublist.trans (hf st a) (ih (f st a))

theorem pushPair_sub (src v : Str) (st : List (Str × Str) × List Str) :
    st.1.Sublist (pushPair src v st).1 := by
  by_cases h : (src ++ ':' :: v) ∈ st.2
  · rw [pushPair_mem src v st h]
  · rw [pushPair_not_mem src v st h]
    exact List.sublist_append_left _ _

theorem pushPairs_sub (src : Str) (vs : List Str) (st : List (Str × Str) × List Str) :
    st.1.Sublist (pushPairs src vs st).1 := by
  unfold pushPairs
  exact foldl_sub_pairs _ (fun st v => pushPair_sub src v st) vs st

theorem step3_sub (m part : Str) (st : List (Str × Str) × List Str) :
    st.1.Sublist ((let cleanPart := trim (part.filter (fun c => !(c = '(' || c = ')')))
      if isValidVariable cleanPart && !isLogicalOperator cleanPart then
        pushPair m cleanPart st
      else st)).1 := by
  simp only []
  split
  · exact pushPair_sub _ _ _
  · exact List.Sublist.refl _

theorem pfeStep_sub (mc : Nat) (m : Str) (st : List (Str × Str) × List Str) :
    st.1.Sublist ((match reQSBrace m with
      | some body => addVariables mc m (trim body) st
      | none => st)).1 := by
  split
  · exact pushPairs_sub _ _ _
  · exact List.Sublist.refl _

theorem peStep_sub (mc : Nat) (st : List (Str × Str) × List Str) (m : Str) :
    st.1.Sublist (((fun (st : List (Str × Str) × List Str) (m : Str) =>
      let expression := trim ((m.drop 2).dropLast)
      if occursIn escSeq expression then st
      else
        let st := pushPairs m (extractVariablesFromExpression mc expression) st
        let st :=
          if occursIn (str "?[") expression then
            match reFilterBody expression with
            | some b =>
              if b ≠ [] then
                pushPairs m (extractVariablesFromExpression mc (trim b)) st
              else st
            | none => st
          else st
        (splitAndOr expression).foldl
          (fun st part =>
            let cleanPart := trim (part.filter (fun c => !(c = '(' || c = ')')))
            if isValidVariable cleanPart && !isLogicalOperator cleanPart then
              pushPair m cleanPart st
            else st)
          st) st m)).1 := by
  simp only []
  split
  · exact List.Sublist.refl _
  · refine List.Sublist.trans ?_ (foldl_sub_pairs _ ?_ _ _)
    · split
      · split
        · split
          · exact List.Sublist.trans (pushPairs_sub _ _ _) (pushPairs_sub _ _ _)
          · exact pushPairs_sub _ _ _
        · exact pushPairs_sub _ _ _
      · exact pushPairs_sub _ _ _
    · intro st2 part
      exact step3_sub m part st2

theorem pfe_sub (mc : Nat) (text : Str) (st : List (Str × Str) × List Str) :
    st.1.Sublist (processFieldExpressions mc text st).1 := by
  unfold processFieldExpressions
  refine foldl_sub_pairs _ ?_ _ _
  intro st2 m
  exact pfeStep_sub mc m st2

end Thymelab

namespace Thymelab

theorem c1_step_eval (segs : List Str) (hne : segs ≠ [])
    (hseg : ∀ s ∈ segs, ∀ c ∈ s, c.isAlpha = true)
    (hval : ∀ p ∈ chainPrefixes segs, isValidVariable p = true)
    (hand : occursIn (str "and") (joinDots segs) = false)
    (hor : occursIn (str "or") (joinDots segs) = false)
    (htrue : occursIn (str "true") (joinDots segs) = false)
    (hfalse : occursIn (str "false") (joinDots segs) = false) :
    (let expression := trim ((('$' :: '\x7b' :: (joinDots segs ++ ['\x7d'])).drop 2).dropLast)
     if occursIn escSeq expression then (([], []) : List (Str × Str) × List Str)
     else
       let st := pushPairs ('$' :: '\x7b' :: (joinDots segs ++ ['\x7d']))
         (extractVariablesFromExpression 0 expression) ([], [])
       let st :=
         if occursIn (str "?[") expression then
           match reFilterBody expression with
           | some b =>
             if b ≠ [] then
               pushPairs ('$' :: '\x7b' :: (joinDots segs ++ ['\x7d']))
                 (extractVariablesFromExpression 0 (trim b)) st
             else st
           | none => st
         else st
       (splitAndOr expression).foldl
         (fun st part =>
           let cleanPart := trim (part.filter (fun c => !(c = '(' || c = ')')))
           if isValidVariable cleanPart && !isLogicalOperator cleanPart then
             pushPair ('$' :: '\x7b' :: (joinDots segs ++ ['\x7d'])) cleanPart st
           else st)
         st)
    = ((chainPrefixes segs).map
         (fun p => ('$' :: '\x7b' :: (joinDots segs ++ ['\x7d']), p)),
       (chainPrefixes segs).map
         (fun p => ('$' :: '\x7b' :: (joinDots segs ++ ['\x7d'])) ++ ':' :: p)) := by
  have hch : ∀ c ∈ joinDots segs, c.isAlpha = true ∨ c = '.' := joinDots_chars segs hseg
  have hws : ∀ c ∈ joinDots segs, wsChar c = false :=
    fun c hc => (chainCh_facts c (hch c hc)).2.2.1
  have hnp : ∀ c ∈ joinDots segs, c ≠ '(' :=
    fun c hc => (chainCh_facts c (hch c hc)).2.2.2.2.1
  have hnrp : ∀ c ∈ joinDots segs, c ≠ ')' :=
    fun c hc => (chainCh_facts c (hch c hc)).2.2.2.2.2.1
  have hnq : ∀ c ∈ joinDots segs, c ≠ '?' :=
    fun c hc => (chainCh_facts c (hch c hc)).2.2.2.2.2.2.1
  have hbs : ∀ c ∈ joinDots segs, c ≠ '\\' :=
    fun c hc => (chainCh_facts c (hch c hc)).2.2.2.2.2.2.2.2.2.1
  have htrim : trim (joinDots segs) = joinDots segs := trim_no_ws _ hws
  have hsao : splitAndOr (joinDots segs) = [joinDots segs] :=
    splitAndOr_single _ hand hor
  have hesc : occursIn escSeq (joinDots segs) = false :=
    occursIn_false_of_not_mem _ _ '\\' (by decide) (fun hm => hbs '\\' hm rfl)
  have hqbr : occursIn (str "?[") (joinDots segs) = false :=
    occursIn_false_of_not_mem _ _ '?' (by decide) (fun hm => hnq '?' hm rfl)
  have heve : extractVariablesFromExpression 0 (joinDots segs) = chainPrefixes segs :=
    eve_chain_eval segs hne hseg hval hand hor htrue hfalse
  have hexp : trim ((('$' :: '\x7b' :: (joinDots segs ++ ['\x7d'])).drop 2).dropLast)
      = joinDots segs := by
    rw [show ('$' :: '\x7b' :: (joinDots segs ++ ['\x7d'])).drop 2
        = joinDots segs ++ ['\x7d'] from rfl]
    rw [show (joinDots segs ++ ['\x7d']).dropLast = joinDots segs by simp]
    exact htrim
  have hpp : pushPairs ('$' :: '\x7b' :: (joinDots segs ++ ['\x7d']))
      (chainPrefixes segs) ([], [])
      = ((chainPrefixes segs).map
           (fun p => ('$' :: '\x7b' :: (joinDots segs ++ ['\x7d']), p)),
         (chainPrefixes segs).map
           (fun p => ('$' :: '\x7b' :: (joinDots segs ++ ['\x7d'])) ++ ':' :: p)) := by
    rw [pushPairs_eval _ (chainPrefixes segs) ([], []) (chainPrefixes_nodup segs)
      (fun v hv h => by simp at h)]
    simp only [List.nil_append]
  have hfilid : (joinDots segs).filter (fun c => !(c = '(' || c = ')')) = joinDots segs :=
    List.filter_eq_self.mpr (fun c hc => by simp [hnp c hc, hnrp c hc])
  have hkeymem : (('$' :: '\x7b' :: (joinDots segs ++ ['\x7d'])) ++ ':' :: joinDots segs)
      ∈ (chainPrefixes segs).map
          (fun p => ('$' :: '\x7b' :: (joinDots segs ++ ['\x7d'])) ++ ':' :: p) :=
    List.mem_map.mpr ⟨joinDots segs, joinDots_mem_chainPrefixes segs hne, rfl⟩
  have hpabs : pushPair ('$' :: '\x7b' :: (joinDots segs ++ ['\x7d'])) (joinDots segs)
      ((chainPrefixes segs).map
         (fun p => ('$' :: '\x7b' :: (joinDots segs ++ ['\x7d']), p)),
       (chainPrefixes segs).map
         (fun p => ('$' :: '\x7b' :: (joinDots segs ++ ['\x7d'])) ++ ':' :: p))
      = ((chainPrefixes segs).map
           (fun p => ('$' :: '\x7b' :: (joinDots segs ++ ['\x7d']), p)),
         (chainPrefixes segs).map
           (fun p => ('$' :: '\x7b' :: (joinDots segs ++ ['\x7d'])) ++ ':' :: p)) :=
    pushPair_mem _ _ _ hkeymem
  simp only [hexp, if_false_of_eq_false hesc, if_false_of_eq_false hqbr, heve, hpp,
    hsao, List.foldl_cons, List.foldl_nil, hfilid, htrim, hpabs, ite_self]

end Thymelab

namespace Thymelab

/-- C1: prefix-chain completeness of `findAllVariableMatches`, amended.  The
original universal claim is refuted by `c1_prefix_chain_counterexample` (a
backslash-escaped expression anywhere in the text silences everything), so it
is proved here for texts of the shape `pre ++ "$\x7b" ++ chain ++ "\x7d" ++ post`
where the surroundings contain no backslash, `pre` contains no `$`, and the
body is a dotted chain of alphabetic segments whose prefixes all pass
`isValidVariable` and which contains no `and`/`or`/`true`/`false` token: the
result then contains, in shortest-to-longest order and all sharing the
source text `$\x7b chain \x7d`, one `(sourceText, variablePath)` pair per
non-empty prefix of the chain, as a sublist of the full result. -/
theorem c1_prefix_chain_completeness
    (pre post : Str) (segs : List Str)
    (hpreD : '$' ∉ pre) (hpreB : '\\' ∉ pre) (hpostB : '\\' ∉ post)
    (hne : segs ≠ [])
    (hseg : ∀ s ∈ segs, ∀ c ∈ s, c.isAlpha = true)
    (hval : ∀ p ∈ chainPrefixes segs, isValidVariable p = true)
    (hand : occursIn (str "and") (joinDots segs) = false)
    (hor : occursIn (str "or") (joinDots segs) = false)
    (htrue : occursIn (str "true") (joinDots segs) = false)
    (hfalse : occursIn (str "false") (joinDots segs) = false) :
    ((chainPrefixes segs).map
        (fun p => ('$' :: '\x7b' :: (joinDots segs ++ ['\x7d']), p))).Sublist
      (findAllVariableMatches
        (pre ++ '$' :: '\x7b' :: (joinDots segs ++ '\x7d' :: post))) := by
  have hch : ∀ c ∈ joinDots segs, c.isAlpha = true ∨ c = '.' := joinDots_chars segs hseg
  have hbs : ∀ c ∈ joinDots segs, c ≠ '\\' :=
    fun c hc => (chainCh_facts c (hch c hc)).2.2.2.2.2.2.2.2.2.1
  have hnbrace : ∀ c ∈ joinDots segs, c ≠ '\x7d' :=
    fun c hc => (chainCh_facts c (hch c hc)).2.2.2.2.2.2.2.1
  have hvchain : isValidVariable (joinDots segs) = true :=
    hval _ (joinDots_mem_chainPrefixes segs hne)
  have hchne : joinDots segs ≠ [] := by
    intro h
    rw [h] at hvchain
    exact absurd hvchain (by decide)
  have hescT : occursIn escSeq
      (pre ++ '$' :: '\x7b' :: (joinDots segs ++ '\x7d' :: post)) = false := by
    refine occursIn_false_of_not_mem _ _ '\\' (by decide) ?_
    intro hm
    rcases List.mem_append.mp hm with h1 | h2
    · exact hpreB h1
    · simp only [List.mem_cons, List.mem_append] at h2
      rcases h2 with h | h | h | h | h
      · exact absurd h (by decide)
      · exact absurd h (by decide)
      · exact hbs _ h rfl
      · exact absurd h (by decide)
      · exact hpostB h
  obtain ⟨tail, htail⟩ :=
    scanDollar_first pre hpreD (joinDots segs) post hchne hnbrace
  have hkey := c1_step_eval segs hne hseg hval hand hor htrue hfalse
  unfold findAllVariableMatches findAllVariableMatchesFrom
  rw [if_false_of_eq_false hescT]
  have hpe0 : processExpressions 0
      (pre ++ '$' :: '\x7b' :: (joinDots segs ++ '\x7d' :: post)) ([], [])
      = ((scanBraceExpr '$'
            (pre ++ '$' :: '\x7b' :: (joinDots segs ++ '\x7d' :: post))
          ++ scanBraceExpr '*'
            (pre ++ '$' :: '\x7b' :: (joinDots segs ++ '\x7d' :: post))).foldl
          (fun (st : List (Str × Str) × List Str) (m : Str) =>
            let expression := trim ((m.drop 2).dropLast)
            if occursIn escSeq expression then st
            else
              let st := pushPairs m (extractVariablesFromExpression 0 expression) st
              let st :=
                if occursIn (str "?[") expression then
                  match reFilterBody expression with
                  | some b =>
                    if b ≠ [] then
                      pushPairs m (extractVariablesFromExpression 0 (trim b)) st
                    else st
                  | none => st
                else st
              (splitAndOr expression).foldl
                (fun st part =>
                  let cleanPart := trim (part.filter (fun c => !(c = '(' || c = ')')))
                  if isValidVariable cleanPart && !isLogicalOperator cleanPart then
                    pushPair m cleanPart st
                  else st)
                st)
          ([], [])) := rfl
  rw [hpe0, htail, List.cons_append, List.foldl_cons]
  rw [hkey]
  refine List.Sublist.trans ?_ (pfe_sub 0 _ _)
  exact foldl_sub_pairs _ (fun st m => peStep_sub 0 st m) _
    ((chainPrefixes segs).map
       (fun p => ('$' :: '\x7b' :: (joinDots segs ++ ['\x7d']), p)),
     (chainPrefixes segs).map
       (fun p => ('$' :: '\x7b' :: (joinDots segs ++ ['\x7d'])) ++ ':' :: p))

/-- C1 counterexample to the unrestricted claim: this text contains the
variable expression `$\x7buser.address.street\x7d`, yet because a
backslash-escaped expression occurs elsewhere in the same text,
`findAllVariableMatches` returns no pair at all, so no prefix of the chain
is emitted. -/
theorem c1_prefix_chain_counterexample :
    occursIn (str "$\x7buser.address.street\x7d")
        (str "\\$\x7ba\x7d $\x7buser.address.street\x7d") = true ∧
    findAllVariableMatches
        (str "\\$\x7ba\x7d $\x7buser.address.street\x7d") = [] := by
  decide

/-- Witness instantiating `c1_prefix_chain_completeness` on the spec example
`$\x7buser.address.street\x7d` inside a `th:text` attribute. -/
theorem c1_prefix_chain_completeness_witness :
    ((chainPrefixes [str "user", str "address", str "street"]).map
        (fun p => ('$' :: '\x7b' ::
          (joinDots [str "user", str "address", str "street"] ++ ['\x7d']), p))).Sublist
      (findAllVariableMatches
        (str "<div th:text=\"" ++ '$' :: '\x7b' ::
          (joinDots [str "user", str "address", str "street"] ++ '\x7d' :: str "\">"))) :=
  c1_prefix_chain_completeness (str "<div th:text=\"") (str "\">")
    [str "user", str "address", str "street"]
    (by decide) (by decide) (by decide) (by decide) (by decide)
    (by decide) (by decide) (by decide) (by decide) (by decide)

end Thymelab
